import Mathlib

/-!
Verification development for the spatial-geometry core of the rollroll
repository: the convex-polygon primitive (src/engine/primitives.rs), the
adaptive quadtree spatial index (src/engine/quadtree.rs) and the two-stage
world generator (src/engine/world.rs).

The Rust code computes with 32-bit floats (glam Vec2).  The shallow
embedding uses exact rational arithmetic (ℚ): every arithmetic operation
of the source (addition, subtraction, multiplication, division, min, max,
comparison) is mapped to the corresponding exact operation on ℚ.  The f32
literal constants of the source (for example 1.732_050_8 / 4) are embedded
as the exact rational value of the decimal literal; the claims settled
here never depend on the last-ulp rounding of those constants.
Transcendental operations (cos, sin, atan2), which no exact embedding can
evaluate, are threaded through the world-generator model as an explicit
oracle parameter, and every theorem about the generator is proved for an
arbitrary oracle.
-/

/-! ## Two-dimensional vectors (glam Vec2 over ℚ) -/

structure Vec2 where
  x : ℚ
  y : ℚ
deriving DecidableEq

instance : Zero Vec2 := ⟨⟨0, 0⟩⟩

instance : Add Vec2 := ⟨fun a b => ⟨a.x + b.x, a.y + b.y⟩⟩

instance : Sub Vec2 := ⟨fun a b => ⟨a.x - b.x, a.y - b.y⟩⟩

instance : Neg Vec2 := ⟨fun a => ⟨-a.x, -a.y⟩⟩

instance : SMul ℚ Vec2 := ⟨fun q v => ⟨q * v.x, q * v.y⟩⟩

/-- Dot product (the per-vertex `shadow` computation of the source). -/
def dotv (a b : Vec2) : ℚ := a.x * b.x + a.y * b.y

/-- glam `Vec2::perp`: counter-clockwise rotation by 90 degrees. -/
def perp (a : Vec2) : Vec2 := ⟨-a.y, a.x⟩

/-- The z-component of the 3D cross product of two vectors extended by
z = 0, exactly the quantity `ab.cross(ap).z` computed by
`Polygon::contains_point`. -/
def crossz (a b : Vec2) : ℚ := a.x * b.y - a.y * b.x

/-- glam `Vec2::midpoint`. -/
def midpointv (a b : Vec2) : Vec2 := ⟨(a.x + b.x) / 2, (a.y + b.y) / 2⟩

/-- Squared euclidean norm; used to compare vector magnitudes inside ℚ. -/
def normSq (a : Vec2) : ℚ := a.x * a.x + a.y * a.y

theorem Vec2.add_def (a b : Vec2) : a + b = ⟨a.x + b.x, a.y + b.y⟩ := rfl

theorem Vec2.sub_def (a b : Vec2) : a - b = ⟨a.x - b.x, a.y - b.y⟩ := rfl

theorem Vec2.smul_def (q : ℚ) (v : Vec2) : q • v = ⟨q * v.x, q * v.y⟩ := rfl

/-! ## Polygon (src/engine/primitives.rs)

The Rust struct stores `id`, `vertices` and `edges`; `edges` is computed
from `vertices` once, in `Polygon::new`, by zipping the vertex list with
itself cycled and shifted by one, and is never mutated afterwards.  The
embedding therefore stores `id` and `vertices` and derives the edge list
by the same zip. -/

structure Polygon where
  id : ℕ
  vertices : List Vec2
deriving DecidableEq

/-- `zip(vertices, vertices.cycle().skip(1))`: consecutive vertex pairs,
wrapping last → first; empty for the empty vertex list (zipping with the
empty cycled iterator yields nothing). -/
def edgesOf : List Vec2 → List (Vec2 × Vec2)
  | [] => []
  | v :: rest => List.zip (v :: rest) (rest ++ [v])

def Polygon.edges (p : Polygon) : List (Vec2 × Vec2) := edgesOf p.vertices

/-- The f32 constant `SQRT_3_OVER_4 = 1.732_050_8 / 4.` of the source,
embedded as the exact value of the decimal literal. -/
def SQRT_3_OVER_4 : ℚ := 1.7320508 / 4

/-- A rotation matrix `Mat2::from_angle(r)`, represented by the pair
(cos r, sin r).  The world generator only ever rotates by 0 and by π;
those two matrices are embedded as (1, 0) and (-1, 0). -/
structure Rot where
  c : ℚ
  s : ℚ
deriving DecidableEq

def rotApply (r : Rot) (v : Vec2) : Vec2 := ⟨r.c * v.x - r.s * v.y, r.s * v.x + r.c * v.y⟩

def rotZero : Rot := ⟨1, 0⟩

/-- `Mat2::from_angle(PI)`.  In f32, cos(PI as f32) evaluates to exactly
-1.0 and sin(PI as f32) to about -8.74e-8; the embedding uses the exact
matrix (-1, 0).  No claim settled here inspects the coordinates of a
rotated tile. -/
def rotPi : Rot := ⟨-1, 0⟩

/-- `Polygon::new_triangle`: the equilateral-triangle factory. -/
def Polygon.new_triangle (pid : ℕ) (size : ℚ) (center : Vec2) (rotation : Rot) : Polygon :=
  let left := center.x - size * (1/2)
  let right := center.x + size * (1/2)
  let top := center.y + size * SQRT_3_OVER_4
  let bottom := center.y - size * SQRT_3_OVER_4
  let model : List Vec2 := [⟨center.x, top⟩, ⟨left, bottom⟩, ⟨right, bottom⟩]
  ⟨pid, model.map (fun v => rotApply rotation (v - center) + center)⟩

/-! ### contains_point -/

/-- `f32::is_sign_positive` of an exactly computed cross product.  For a
non-zero value this is the exact sign test; for the value zero the f32
code distinguishes +0.0 from -0.0, and the embedding picks the +0.0
(positive) answer, which is what the f32 expression `a - b` with `a = b`
produces.  The claims below only evaluate this on boundary points where
the f32 computation also yields +0.0. -/
def sign_of (c : ℚ) : Bool := decide (0 ≤ c)

/-- The edge loop of `Polygon::contains_point`: `cur` is
`maybe_current_sign`.  On the first edge the sign is recorded; any later
mismatch returns false immediately. -/
def contains_go (pt : Vec2) (cur : Option Bool) : List (Vec2 × Vec2) → Bool
  | [] => true
  | (l, r) :: rest =>
    let ab := l - r
    let ap := l - pt
    let s := sign_of (crossz ab ap)
    match cur with
    | some c => if s ≠ c then false else contains_go pt (some c) rest
    | none => contains_go pt (some s) rest

def Polygon.contains_point (p : Polygon) (pt : Vec2) : Bool :=
  contains_go pt none p.edges

/-! ### collision_displacement (Separating Axis Theorem loop) -/

/-- Projection of a vertex list onto an axis: the pair (min, max) of the
dot products, folded exactly as the two running min/max accumulators of
the source.  The source starts the accumulators at plus and minus
infinity; for a non-empty vertex list this equals folding from the first
vertex.  For an empty vertex list the source keeps the infinities, the
subsequent interval test `max_rhs >= min_lhs && max_lhs >= min_rhs` is
false, and the whole collision test returns None; the embedding returns
`none` here and propagates it to the same answer. -/
def project : List Vec2 → Vec2 → Option (ℚ × ℚ)
  | [], _ => none
  | v :: rest, axis =>
    some (rest.foldl (fun mm u => (min mm.1 (dotv u axis), max mm.2 (dotv u axis)))
      (dotv v axis, dotv v axis))

/-- One axis of the SAT loop: the projection-interval test and, when the
intervals overlap, the overlap amount
`max_lhs.min(max_rhs) - min_lhs.max(min_rhs)`.  The source runs the loop
once with (lhs, rhs) = (self, other) and once with (other, self); both
the interval test and the overlap amount are symmetric under swapping
lhs and rhs, so the embedding uses the single orientation (A, B) for
every axis. -/
def overlap_on (A B : Polygon) (axis : Vec2) : Option ℚ :=
  match project A.vertices axis, project B.vertices axis with
  | some mmL, some mmR =>
    if mmR.2 ≥ mmL.1 ∧ mmL.2 ≥ mmR.1 then
      some (min mmL.2 mmR.2 - max mmL.1 mmR.1)
    else none
  | _, _ => none

/-- The axes contributed by one polygon: `(end - start).perp()` for each
edge, in edge order. -/
def sat_axes (p : Polygon) : List Vec2 := p.edges.map (fun e => perp (e.2 - e.1))

/-- The running (displacement, min_axis) accumulator update.  The source
starts `displacement` at f32 infinity and `min_axis` at None and updates
on `current_displacement < displacement`; `none` here plays the role of
the initial infinity, which every finite value improves. -/
def update_min (acc : Option (ℚ × Vec2)) (c : ℚ) (ax : Vec2) : Option (ℚ × Vec2) :=
  match acc with
  | none => some (c, ax)
  | some da => if c < da.1 then some (c, ax) else some da

/-- The double edge loop of `collision_displacement`, flattened over the
concatenated axis list.  A separated axis aborts with `none` (the
`return None` of the source). -/
def sat_go (A B : Polygon) (acc : Option (ℚ × Vec2)) : List Vec2 → Option (ℚ × Vec2)
  | [] => acc
  | ax :: rest =>
    match overlap_on A B ax with
    | none => none
    | some c => sat_go A B (update_min acc c ax) rest

/-- `Polygon::collision_displacement`.  The final
`Some(displacement * min_axis.unwrap())` of the source panics when both
polygons have an empty edge list (no axis was ever tested); the
embedding returns `none` in that unreachable-for-the-claims case. -/
def Polygon.collision_displacement (A B : Polygon) : Option Vec2 :=
  (sat_go A B none (sat_axes A ++ sat_axes B)).map (fun da => da.1 • da.2)

/-- `Polygon::collides_with`. -/
def Polygon.collides_with (A B : Polygon) : Bool :=
  (A.collision_displacement B).isSome

example :
    (Polygon.mk 1 [⟨0,0⟩, ⟨2,0⟩, ⟨2,2⟩, ⟨0,2⟩]).collision_displacement
      (Polygon.mk 2 [⟨1,0⟩, ⟨3,0⟩, ⟨3,2⟩, ⟨1,2⟩]) = some ⟨-4, 0⟩ := by
  norm_num [Polygon.collision_displacement, sat_go, sat_axes, overlap_on, project,
    update_min, Polygon.edges, edgesOf, perp, dotv, Vec2.sub_def, Vec2.smul_def]

example :
    (Polygon.mk 1 [⟨0,0⟩, ⟨2,0⟩, ⟨1,2⟩]).contains_point ⟨1, 1⟩ = true := by
  norm_num [Polygon.contains_point, contains_go, Polygon.edges, edgesOf, sign_of,
    crossz, Vec2.sub_def]

example :
    (Polygon.mk 1 [⟨0,0⟩, ⟨2,0⟩, ⟨1,2⟩]).contains_point ⟨5, 5⟩ = false := by
  norm_num [Polygon.contains_point, contains_go, Polygon.edges, edgesOf, sign_of,
    crossz, Vec2.sub_def]

/-! ## Convex-hull vocabulary for stating the geometric claims

The spec speaks of points strictly inside a polygon, of overlapping
polygons and of disjoint polygons.  These geometric notions are expressed
through convex combinations of the vertex list. -/

/-- Weighted sum of a vertex list. -/
def wsum : List ℚ → List Vec2 → Vec2
  | w :: ws, v :: vs => w • v + wsum ws vs
  | _, _ => 0

/-- Membership in the convex hull of the vertices. -/
def inHull (P : Polygon) (p : Vec2) : Prop :=
  ∃ ws : List ℚ, ws.length = P.vertices.length ∧ (∀ w ∈ ws, 0 ≤ w) ∧
    ws.sum = 1 ∧ wsum ws P.vertices = p

/-- A point strictly inside the polygon: a convex combination of the
vertices with every weight strictly positive. -/
def strictly_inside (P : Polygon) (p : Vec2) : Prop :=
  ∃ ws : List ℚ, ws.length = P.vertices.length ∧ (∀ w ∈ ws, 0 < w) ∧
    ws.sum = 1 ∧ wsum ws P.vertices = p

/-- Two polygons overlap when their hulls share a point. -/
def hulls_overlap (A B : Polygon) : Prop := ∃ p, inHull A p ∧ inHull B p

theorem strictly_inside_inHull {P : Polygon} {p : Vec2} (h : strictly_inside P p) :
    inHull P p := by
  obtain ⟨ws, hl, hw, hs, he⟩ := h
  exact ⟨ws, hl, fun w hw2 => le_of_lt (hw w hw2), hs, he⟩

/-! ### Linearity helpers -/

theorem dotv_add (a b c : Vec2) : dotv (a + b) c = dotv a c + dotv b c := by
  simp only [dotv, Vec2.add_def]; ring

theorem dotv_smul (q : ℚ) (a c : Vec2) : dotv (q • a) c = q * dotv a c := by
  simp only [dotv, Vec2.smul_def]; ring

theorem crossz_sub_sub (a b c d : Vec2) : crossz (a - b) (c - d) = crossz (b - a) (d - c) := by
  simp only [crossz, Vec2.sub_def]; ring

theorem normSq_perp (a : Vec2) : normSq (perp a) = normSq a := by
  simp only [normSq, perp]; ring

theorem normSq_smul (q : ℚ) (a : Vec2) : normSq (q • a) = q * q * normSq a := by
  simp only [normSq, Vec2.smul_def]; ring

theorem Vec2.zero_x : (0 : Vec2).x = 0 := rfl

theorem Vec2.zero_y : (0 : Vec2).y = 0 := rfl

theorem Vec2.eq_zero_iff (a : Vec2) : a = 0 ↔ a.x = 0 ∧ a.y = 0 := by
  cases a with
  | mk ax ay =>
    constructor
    · intro h
      exact ⟨congrArg Vec2.x h, congrArg Vec2.y h⟩
    · rintro ⟨h1, h2⟩
      show Vec2.mk ax ay = Vec2.mk 0 0
      rw [Vec2.mk.injEq]
      exact ⟨h1, h2⟩

theorem smul_ne_zero_vec {q : ℚ} {a : Vec2} (hq : q ≠ 0) (ha : a ≠ 0) : q • a ≠ 0 := by
  intro h
  have hx : q * a.x = 0 := congrArg Vec2.x h
  have hy : q * a.y = 0 := congrArg Vec2.y h
  exact ha ((Vec2.eq_zero_iff a).mpr
    ⟨(mul_eq_zero.mp hx).resolve_left hq, (mul_eq_zero.mp hy).resolve_left hq⟩)

/-! ### Projection bounds: a hull point projects inside the vertex
projection interval -/

theorem project_fold_bounds (axis : Vec2) (rest : List Vec2) (init : ℚ × ℚ) :
    (rest.foldl (fun mm u => (min mm.1 (dotv u axis), max mm.2 (dotv u axis))) init).1 ≤ init.1 ∧
    init.2 ≤ (rest.foldl (fun mm u => (min mm.1 (dotv u axis), max mm.2 (dotv u axis))) init).2 ∧
    ∀ u ∈ rest,
      (rest.foldl (fun mm u => (min mm.1 (dotv u axis), max mm.2 (dotv u axis))) init).1 ≤ dotv u axis ∧
      dotv u axis ≤ (rest.foldl (fun mm u => (min mm.1 (dotv u axis), max mm.2 (dotv u axis))) init).2 := by
  induction rest generalizing init with
  | nil => exact ⟨le_refl _, le_refl _, by simp⟩
  | cons v vs ih =>
    obtain ⟨h1, h2, h3⟩ := ih (min init.1 (dotv v axis), max init.2 (dotv v axis))
    refine ⟨le_trans h1 (min_le_left _ _), le_trans (le_max_left _ _) h2, ?_⟩
    intro u hu
    rcases List.mem_cons.mp hu with rfl | hu2
    · exact ⟨le_trans h1 (min_le_right _ _), le_trans (le_max_right _ _) h2⟩
    · exact h3 u hu2

/-- Every vertex projection lies inside the interval computed by
`project`. -/
theorem project_mem_bounds {vs : List Vec2} {axis : Vec2} {mm : ℚ × ℚ}
    (h : project vs axis = some mm) :
    ∀ u ∈ vs, mm.1 ≤ dotv u axis ∧ dotv u axis ≤ mm.2 := by
  cases vs with
  | nil => simp [project] at h
  | cons v rest =>
    simp only [project, Option.some.injEq] at h
    obtain ⟨h1, h2, h3⟩ := project_fold_bounds axis rest (dotv v axis, dotv v axis)
    intro u hu
    rcases List.mem_cons.mp hu with rfl | hu2
    · rw [← h]; exact ⟨h1, h2⟩
    · rw [← h]; exact h3 u hu2

/-- The interval of `project` on a non-empty list is well ordered. -/
theorem project_min_le_max {vs : List Vec2} {axis : Vec2} {mm : ℚ × ℚ}
    (h : project vs axis = some mm) : mm.1 ≤ mm.2 := by
  cases vs with
  | nil => simp [project] at h
  | cons v rest =>
    simp only [project, Option.some.injEq] at h
    obtain ⟨h1, h2, _⟩ := project_fold_bounds axis rest (dotv v axis, dotv v axis)
    rw [← h]
    exact le_trans h1 (le_trans (le_refl _) h2)

theorem wsum_dot (axis : Vec2) :
    ∀ (ws : List ℚ) (vs : List Vec2),
      dotv (wsum ws vs) axis = (List.zipWith (fun w v => w * dotv v axis) ws vs).sum := by
  intro ws
  induction ws with
  | nil => intro vs; cases vs <;> simp [wsum, dotv, Vec2.zero_x, Vec2.zero_y]
  | cons w ws ih =>
    intro vs
    cases vs with
    | nil => simp [wsum, dotv, Vec2.zero_x, Vec2.zero_y]
    | cons v vs =>
      simp only [wsum, List.zipWith, List.sum_cons, dotv_add, dotv_smul, ih]

theorem zipWith_mul_le_sum {M : ℚ} (f : Vec2 → ℚ) :
    ∀ (ws : List ℚ) (vs : List Vec2), ws.length = vs.length →
      (∀ w ∈ ws, 0 ≤ w) → (∀ v ∈ vs, f v ≤ M) →
      (List.zipWith (fun w v => w * f v) ws vs).sum ≤ ws.sum * M := by
  intro ws
  induction ws with
  | nil => intro vs _ _ _; simp
  | cons w ws ih =>
    intro vs hlen hw hb
    cases vs with
    | nil => simp at hlen
    | cons v vs =>
      simp only [List.zipWith, List.sum_cons]
      have h1 : w * f v ≤ w * M :=
        mul_le_mul_of_nonneg_left (hb v (List.mem_cons_self v vs)) (hw w (List.mem_cons_self w ws))
      have h2 := ih vs (by simpa using hlen) (fun x hx => hw x (List.mem_cons_of_mem _ hx))
        (fun x hx => hb x (List.mem_cons_of_mem _ hx))
      calc w * f v + (List.zipWith (fun w v => w * f v) ws vs).sum
          ≤ w * M + ws.sum * M := add_le_add h1 h2
        _ = (w :: ws).sum * M := by simp [List.sum_cons]; ring

theorem zipWith_mul_ge_sum {m : ℚ} (f : Vec2 → ℚ) :
    ∀ (ws : List ℚ) (vs : List Vec2), ws.length = vs.length →
      (∀ w ∈ ws, 0 ≤ w) → (∀ v ∈ vs, m ≤ f v) →
      ws.sum * m ≤ (List.zipWith (fun w v => w * f v) ws vs).sum := by
  intro ws
  induction ws with
  | nil => intro vs _ _ _; simp
  | cons w ws ih =>
    intro vs hlen hw hb
    cases vs with
    | nil => simp at hlen
    | cons v vs =>
      simp only [List.zipWith, List.sum_cons]
      have h1 : w * m ≤ w * f v :=
        mul_le_mul_of_nonneg_left (hb v (List.mem_cons_self v vs)) (hw w (List.mem_cons_self w ws))
      have h2 := ih vs (by simpa using hlen) (fun x hx => hw x (List.mem_cons_of_mem _ hx))
        (fun x hx => hb x (List.mem_cons_of_mem _ hx))
      calc (w :: ws).sum * m = w * m + ws.sum * m := by simp [List.sum_cons]; ring
        _ ≤ w * f v + (List.zipWith (fun w v => w * f v) ws vs).sum := add_le_add h1 h2

/-- A hull point projects inside the projection interval of the
vertices. -/
theorem inHull_project_bounds {P : Polygon} {p : Vec2} {axis : Vec2} {mm : ℚ × ℚ}
    (hp : inHull P p) (hproj : project P.vertices axis = some mm) :
    mm.1 ≤ dotv p axis ∧ dotv p axis ≤ mm.2 := by
  obtain ⟨ws, hlen, hw, hsum, he⟩ := hp
  have hb := project_mem_bounds hproj
  constructor
  · have := zipWith_mul_ge_sum (m := mm.1) (fun v => dotv v axis) ws P.vertices hlen hw
      (fun v hv => (hb v hv).1)
    rw [← he, wsum_dot]
    calc mm.1 = ws.sum * mm.1 := by rw [hsum]; ring
      _ ≤ _ := this
  · have := zipWith_mul_le_sum (M := mm.2) (fun v => dotv v axis) ws P.vertices hlen hw
      (fun v hv => (hb v hv).2)
    rw [← he, wsum_dot]
    calc (List.zipWith (fun w v => w * dotv v axis) ws P.vertices).sum
        ≤ ws.sum * mm.2 := this
      _ = mm.2 := by rw [hsum]; ring

/-! ## Claim C3: correctness of contains_point on convex polygons -/

/-- The sign recorded by `contains_point` for one edge: the source
computes `ab = l - r`, `ap = l - point` and tests
`ab.cross(ap).z.is_sign_positive()`. -/
def edge_sign (pt : Vec2) (e : Vec2 × Vec2) : Bool :=
  sign_of (crossz (e.1 - e.2) (e.1 - pt))

theorem contains_go_true_of (pt : Vec2) (b : Bool) :
    ∀ es : List (Vec2 × Vec2), (∀ e ∈ es, edge_sign pt e = b) →
      contains_go pt (some b) es = true := by
  intro es
  induction es with
  | nil => intro _; rfl
  | cons e rest ih =>
    intro h
    obtain ⟨l, r⟩ := e
    have hb : edge_sign pt (l, r) = b := h (l, r) (List.mem_cons_self _ _)
    simp only [contains_go]
    rw [show sign_of (crossz (l - r) (l - pt)) = b from hb]
    rw [if_neg (show ¬(b ≠ b) from by simp)]
    exact ih (fun e he => h e (List.mem_cons_of_mem _ he))

theorem contains_go_signs_of_true (pt : Vec2) (b : Bool) :
    ∀ es : List (Vec2 × Vec2), contains_go pt (some b) es = true →
      ∀ e ∈ es, edge_sign pt e = b := by
  intro es
  induction es with
  | nil => intro _ e he; simp at he
  | cons e rest ih =>
    intro h e2 he2
    obtain ⟨l, r⟩ := e
    simp only [contains_go] at h
    by_cases hs : sign_of (crossz (l - pt) (l - pt)) = b
    all_goals {
      by_cases hss : sign_of (crossz (l - r) (l - pt)) = b
      · rw [if_neg (by simpa using hss)] at h
        rcases List.mem_cons.mp he2 with rfl | hmem
        · exact hss
        · exact ih h e2 hmem
      · rw [if_pos (by simpa using hss)] at h
        exact absurd h (by simp)
    }

theorem contains_point_true_of (P : Polygon) (pt : Vec2) (b : Bool)
    (h : ∀ e ∈ P.edges, edge_sign pt e = b) : P.contains_point pt = true := by
  unfold Polygon.contains_point
  cases hes : P.edges with
  | nil => rfl
  | cons e rest =>
    obtain ⟨l, r⟩ := e
    simp only [contains_go]
    have hb : edge_sign pt (l, r) = b := by
      apply h; rw [hes]; exact List.mem_cons_self _ _
    rw [show sign_of (crossz (l - r) (l - pt)) = b from hb]
    apply contains_go_true_of
    intro e2 he2
    apply h
    rw [hes]
    exact List.mem_cons_of_mem _ he2

theorem contains_point_signs_eq (P : Polygon) (pt : Vec2)
    (h : P.contains_point pt = true) :
    ∀ e1 ∈ P.edges, ∀ e2 ∈ P.edges, edge_sign pt e1 = edge_sign pt e2 := by
  unfold Polygon.contains_point at h
  cases hes : P.edges with
  | nil => intro e1 he1; simp at he1
  | cons e rest =>
    rw [hes] at h
    obtain ⟨l, r⟩ := e
    simp only [contains_go] at h
    have hall : ∀ e2 ∈ rest, edge_sign pt e2 = edge_sign pt (l, r) :=
      contains_go_signs_of_true pt _ rest h
    intro e1 he1 e2 he2
    rcases List.mem_cons.mp he1 with rfl | h1 <;> rcases List.mem_cons.mp he2 with rfl | h2
    · rfl
    · exact (hall e2 h2).symm
    · exact hall e1 h1
    · rw [hall e1 h1, hall e2 h2]

/-! ### Convexity, winding and the shoelace sum -/

/-- Counter-clockwise convexity: every vertex lies on the left of (or on)
every directed edge. -/
def convex_ccw (P : Polygon) : Prop :=
  ∀ e ∈ P.edges, ∀ v ∈ P.vertices, 0 ≤ crossz (e.2 - e.1) (v - e.1)

/-- Clockwise convexity. -/
def convex_cw (P : Polygon) : Prop :=
  ∀ e ∈ P.edges, ∀ v ∈ P.vertices, crossz (e.2 - e.1) (v - e.1) ≤ 0

/-- Non-degeneracy for a counter-clockwise polygon: for every edge some
vertex lies strictly on its left. -/
def nondegen_ccw (P : Polygon) : Prop :=
  ∀ e ∈ P.edges, ∃ v ∈ P.vertices, 0 < crossz (e.2 - e.1) (v - e.1)

def nondegen_cw (P : Polygon) : Prop :=
  ∀ e ∈ P.edges, ∃ v ∈ P.vertices, crossz (e.2 - e.1) (v - e.1) < 0

/-- Twice the signed area of the polygon. -/
def shoelace (P : Polygon) : ℚ := (P.edges.map (fun e => crossz e.1 e.2)).sum

/-- The point lies strictly beyond some edge of the polygon, on the side
opposite to the winding orientation: the formal rendering of a point
strictly outside the convex hull (the implication to non-membership in
the hull is part of the theorem below). -/
def strictly_beyond_edge (P : Polygon) (p : Vec2) : Prop :=
  ∃ e ∈ P.edges, crossz (e.2 - e.1) (p - e.1) * shoelace P < 0

theorem crossz_add2 (a b c : Vec2) : crossz a (b + c) = crossz a b + crossz a c := by
  simp only [crossz, Vec2.add_def]; ring

theorem crossz_sub2 (a b c : Vec2) : crossz a (b - c) = crossz a b - crossz a c := by
  simp only [crossz, Vec2.sub_def]; ring

theorem crossz_smul2 (q : ℚ) (a b : Vec2) : crossz a (q • b) = q * crossz a b := by
  simp only [crossz, Vec2.smul_def]; ring

theorem Vec2.one_smul_eq (v : Vec2) : (1 : ℚ) • v = v := by
  cases v; simp [Vec2.smul_def]

theorem Vec2.ext_xy {a b : Vec2} (hx : a.x = b.x) (hy : a.y = b.y) : a = b := by
  cases a; cases b
  simp only [Vec2.mk.injEq]
  exact ⟨hx, hy⟩

theorem crossz_wsum (a l : Vec2) :
    ∀ (ws : List ℚ) (vs : List Vec2), ws.length = vs.length →
      crossz a (wsum ws vs - ws.sum • l) =
        (List.zipWith (fun w v => w * crossz a (v - l)) ws vs).sum := by
  intro ws
  induction ws with
  | nil =>
    intro vs h
    cases vs with
    | nil =>
      simp [wsum, crossz, Vec2.sub_def, Vec2.smul_def, Vec2.zero_x, Vec2.zero_y]
    | cons v vs => simp at h
  | cons w ws ih =>
    intro vs h
    cases vs with
    | nil => simp at h
    | cons v vs =>
      have hh := ih vs (by simpa using h)
      simp only [wsum, List.sum_cons, List.zipWith, List.sum_cons]
      rw [← hh]
      have expand : w • v + wsum ws vs - (w + ws.sum) • l =
          (w • v - w • l) + (wsum ws vs - ws.sum • l) :=
        Vec2.ext_xy
          (by simp only [Vec2.add_def, Vec2.sub_def, Vec2.smul_def]; ring)
          (by simp only [Vec2.add_def, Vec2.sub_def, Vec2.smul_def]; ring)
      rw [expand, crossz_add2, crossz_sub2 a (w • v) (w • l), crossz_smul2, crossz_smul2,
        crossz_sub2 a v l]
      ring

/-! ### Sum-sign helper lemmas -/

theorem zip_mul_sum_nonneg (f : Vec2 → ℚ) :
    ∀ (ws : List ℚ) (vs : List Vec2), (∀ w ∈ ws, 0 ≤ w) → (∀ v ∈ vs, 0 ≤ f v) →
      0 ≤ (List.zipWith (fun w v => w * f v) ws vs).sum := by
  intro ws
  induction ws with
  | nil => intro vs _ _; simp
  | cons w ws ih =>
    intro vs hw hv
    cases vs with
    | nil => simp
    | cons v vs =>
      simp only [List.zipWith, List.sum_cons]
      have h1 : 0 ≤ w * f v :=
        mul_nonneg (hw w (List.mem_cons_self _ _)) (hv v (List.mem_cons_self _ _))
      have h2 := ih vs (fun x hx => hw x (List.mem_cons_of_mem _ hx))
        (fun x hx => hv x (List.mem_cons_of_mem _ hx))
      linarith

theorem zip_mul_sum_nonpos (f : Vec2 → ℚ) :
    ∀ (ws : List ℚ) (vs : List Vec2), (∀ w ∈ ws, 0 ≤ w) → (∀ v ∈ vs, f v ≤ 0) →
      (List.zipWith (fun w v => w * f v) ws vs).sum ≤ 0 := by
  intro ws
  induction ws with
  | nil => intro vs _ _; simp
  | cons w ws ih =>
    intro vs hw hv
    cases vs with
    | nil => simp
    | cons v vs =>
      simp only [List.zipWith, List.sum_cons]
      have h1 : w * f v ≤ 0 :=
        mul_nonpos_of_nonneg_of_nonpos (hw w (List.mem_cons_self _ _))
          (hv v (List.mem_cons_self _ _))
      have h2 := ih vs (fun x hx => hw x (List.mem_cons_of_mem _ hx))
        (fun x hx => hv x (List.mem_cons_of_mem _ hx))
      linarith

theorem zip_mul_sum_pos (f : Vec2 → ℚ) :
    ∀ (ws : List ℚ) (vs : List Vec2), ws.length = vs.length →
      (∀ w ∈ ws, 0 < w) → (∀ v ∈ vs, 0 ≤ f v) → (∃ v ∈ vs, 0 < f v) →
      0 < (List.zipWith (fun w v => w * f v) ws vs).sum := by
  intro ws
  induction ws with
  | nil =>
    intro vs hlen _ _ hex
    cases vs with
    | nil => obtain ⟨v, hv, _⟩ := hex; simp at hv
    | cons v vs => simp at hlen
  | cons w ws ih =>
    intro vs hlen hw hv hex
    cases vs with
    | nil => simp at hlen
    | cons v vs =>
      simp only [List.zipWith, List.sum_cons]
      obtain ⟨v0, hv0mem, hv0⟩ := hex
      rcases List.mem_cons.mp hv0mem with rfl | hmem
      · have h1 : 0 < w * f v0 :=
          mul_pos (hw w (List.mem_cons_self _ _)) hv0
        have h2 := zip_mul_sum_nonneg f ws vs
          (fun x hx => le_of_lt (hw x (List.mem_cons_of_mem _ hx)))
          (fun x hx => hv x (List.mem_cons_of_mem _ hx))
        linarith
      · have h1 : 0 ≤ w * f v :=
          mul_nonneg (le_of_lt (hw w (List.mem_cons_self _ _))) (hv v (List.mem_cons_self _ _))
        have h2 := ih vs (by simpa using hlen)
          (fun x hx => hw x (List.mem_cons_of_mem _ hx))
          (fun x hx => hv x (List.mem_cons_of_mem _ hx)) ⟨v0, hmem, hv0⟩
        linarith

theorem zip_mul_sum_neg (f : Vec2 → ℚ) :
    ∀ (ws : List ℚ) (vs : List Vec2), ws.length = vs.length →
      (∀ w ∈ ws, 0 < w) → (∀ v ∈ vs, f v ≤ 0) → (∃ v ∈ vs, f v < 0) →
      (List.zipWith (fun w v => w * f v) ws vs).sum < 0 := by
  intro ws vs hlen hw hv hex
  have key := zip_mul_sum_pos (fun v => -(f v)) ws vs hlen hw
    (fun v h => by simpa using hv v h)
    (by obtain ⟨v, hm, hlt⟩ := hex; exact ⟨v, hm, by simpa using hlt⟩)
  have : (List.zipWith (fun w v => w * -f v) ws vs).sum =
      -(List.zipWith (fun w v => w * f v) ws vs).sum := by
    clear key hlen hw hv hex
    induction ws generalizing vs with
    | nil => simp
    | cons w ws ih =>
      cases vs with
      | nil => simp
      | cons v vs => simp only [List.zipWith, List.sum_cons, ih]; ring
  rw [this] at key
  linarith

theorem list_sum_neg_of_all_neg :
    ∀ (l : List ℚ), l ≠ [] → (∀ x ∈ l, x < 0) → l.sum < 0 := by
  intro l
  induction l with
  | nil => intro h; exact absurd rfl h
  | cons x xs ih =>
    intro _ hall
    simp only [List.sum_cons]
    have hx : x < 0 := hall x (List.mem_cons_self _ _)
    cases xs with
    | nil => simpa using hx
    | cons y ys =>
      have := ih (by simp) (fun z hz => hall z (List.mem_cons_of_mem _ hz))
      linarith

theorem list_sum_nonneg_of_all_nonneg :
    ∀ (l : List ℚ), (∀ x ∈ l, 0 ≤ x) → 0 ≤ l.sum := by
  intro l
  induction l with
  | nil => intro _; simp
  | cons x xs ih =>
    intro hall
    simp only [List.sum_cons]
    have := ih (fun z hz => hall z (List.mem_cons_of_mem _ hz))
    have := hall x (List.mem_cons_self _ _)
    linarith

/-! ### The telescoping shoelace identity: the sum over all edges of the
cross product tested by contains_point equals twice the signed area,
independently of the query point -/

theorem zip_telescope (g : Vec2 → ℚ) :
    ∀ (xs : List Vec2) (a b : Vec2),
      ((List.zip (a :: xs) (xs ++ [b])).map (fun e => g e.2 - g e.1)).sum = g b - g a := by
  intro xs
  induction xs with
  | nil => intro a b; simp
  | cons x xs ih =>
    intro a b
    simp only [List.cons_append, List.zip_cons_cons, List.map_cons, List.sum_cons, ih]
    ring

theorem sum_map_add_split {α : Type} (f g : α → ℚ) :
    ∀ (l : List α), (l.map (fun e => f e + g e)).sum = (l.map f).sum + (l.map g).sum := by
  intro l
  induction l with
  | nil => simp
  | cons x xs ih => simp only [List.map_cons, List.sum_cons, ih]; ring

theorem cross_sum_eq_shoelace (P : Polygon) (pt : Vec2) :
    ((P.edges).map (fun e => crossz (e.2 - e.1) (pt - e.1))).sum = shoelace P := by
  unfold shoelace Polygon.edges
  cases hv : P.vertices with
  | nil => simp [edgesOf]
  | cons v rest =>
    simp only [edgesOf]
    have hfun : (fun (e : Vec2 × Vec2) => crossz (e.2 - e.1) (pt - e.1)) =
        fun (e : Vec2 × Vec2) =>
          ((fun u => crossz u pt) e.2 - (fun u => crossz u pt) e.1) + crossz e.1 e.2 := by
      funext e
      simp only [crossz, Vec2.sub_def]
      ring
    rw [hfun, sum_map_add_split]
    rw [zip_telescope (fun u => crossz u pt) rest v v]
    ring

/-! ### The C3 theorem -/

theorem sign_of_true_iff (c : ℚ) : sign_of c = true ↔ 0 ≤ c := by
  simp [sign_of]

theorem sign_of_false_iff (c : ℚ) : sign_of c = false ↔ c < 0 := by
  simp [sign_of]

theorem edge_sign_eq (pt : Vec2) (e : Vec2 × Vec2) :
    edge_sign pt e = sign_of (crossz (e.2 - e.1) (pt - e.1)) := by
  unfold edge_sign
  rw [crossz_sub_sub]

/-- A hull point satisfies every non-strict edge inequality that every
vertex satisfies. -/
theorem inHull_cross_nonneg {P : Polygon} {p : Vec2} (hp : inHull P p)
    (e : Vec2 × Vec2) (hv : ∀ v ∈ P.vertices, 0 ≤ crossz (e.2 - e.1) (v - e.1)) :
    0 ≤ crossz (e.2 - e.1) (p - e.1) := by
  obtain ⟨ws, hlen, hw, hsum, heq⟩ := hp
  have key := crossz_wsum (e.2 - e.1) e.1 ws P.vertices hlen
  rw [hsum, Vec2.one_smul_eq, heq] at key
  rw [key]
  apply zip_mul_sum_nonneg
  · exact hw
  · exact hv

theorem inHull_cross_nonpos {P : Polygon} {p : Vec2} (hp : inHull P p)
    (e : Vec2 × Vec2) (hv : ∀ v ∈ P.vertices, crossz (e.2 - e.1) (v - e.1) ≤ 0) :
    crossz (e.2 - e.1) (p - e.1) ≤ 0 := by
  obtain ⟨ws, hlen, hw, hsum, heq⟩ := hp
  have key := crossz_wsum (e.2 - e.1) e.1 ws P.vertices hlen
  rw [hsum, Vec2.one_smul_eq, heq] at key
  rw [key]
  apply zip_mul_sum_nonpos
  · exact hw
  · exact hv

/-- C3: for a convex, consistently wound polygon with at least 3
vertices, contains_point answers true on every point strictly inside the
polygon (a positive convex combination of the vertices), answers false on
every point strictly outside the convex hull (rendered as: strictly
beyond some edge, which the first conjunct of the second part shows to be
disjoint from the hull), and repeated calls agree.  Consistent winding
and convexity enter as: every vertex weakly on one side of every edge,
every edge with some vertex strictly on that side, and a signed area of
the matching sign. -/
theorem c3_contains_point_convex (P : Polygon) (h3 : 3 ≤ P.vertices.length)
    (hw : (convex_ccw P ∧ nondegen_ccw P ∧ 0 < shoelace P) ∨
          (convex_cw P ∧ nondegen_cw P ∧ shoelace P < 0)) :
    (∀ p, strictly_inside P p → P.contains_point p = true) ∧
    (∀ p, strictly_beyond_edge P p → ¬ inHull P p ∧ P.contains_point p = false) ∧
    (∀ p, P.contains_point p = P.contains_point p) := by
  rcases hw with ⟨hcv, hnd, hsl⟩ | ⟨hcv, hnd, hsl⟩
  · refine ⟨?_, ?_, fun p => rfl⟩
    · intro p hp
      obtain ⟨ws, hlen, hwpos, hsum, heq⟩ := hp
      apply contains_point_true_of P p true
      intro e he
      have key := crossz_wsum (e.2 - e.1) e.1 ws P.vertices hlen
      rw [hsum, Vec2.one_smul_eq, heq] at key
      have hpos : 0 < crossz (e.2 - e.1) (p - e.1) := by
        rw [key]
        exact zip_mul_sum_pos _ ws P.vertices hlen hwpos
          (fun v hv => hcv e he v hv) (hnd e he)
      rw [edge_sign_eq, sign_of_true_iff]
      exact le_of_lt hpos
    · intro p hp
      obtain ⟨e0, he0, hprod⟩ := hp
      have hneg : crossz (e0.2 - e0.1) (p - e0.1) < 0 := by
        by_contra hc
        push_neg at hc
        exact absurd hprod (not_lt.mpr (mul_nonneg hc (le_of_lt hsl)))
      constructor
      · intro hin
        exact absurd (inHull_cross_nonneg hin e0 (fun v hv => hcv e0 he0 v hv))
          (not_le.mpr hneg)
      · cases hcp : P.contains_point p with
        | false => rfl
        | true =>
          exfalso
          have hs0 : edge_sign p e0 = false := by
            rw [edge_sign_eq, sign_of_false_iff]
            exact hneg
          have hall : ∀ e ∈ P.edges, crossz (e.2 - e.1) (p - e.1) < 0 := by
            intro e he
            have := contains_point_signs_eq P p hcp e he e0 he0
            rw [hs0] at this
            rw [← sign_of_false_iff, ← edge_sign_eq]
            exact this
          have hsum2 := cross_sum_eq_shoelace P p
          have hne : P.edges.map (fun e => crossz (e.2 - e.1) (p - e.1)) ≠ [] := by
            intro hh
            rw [List.map_eq_nil_iff] at hh
            rw [hh] at he0
            simp at he0
          have := list_sum_neg_of_all_neg _ hne (by
            intro x hx
            obtain ⟨e, he, rfl⟩ := List.mem_map.mp hx
            exact hall e he)
          linarith
  · refine ⟨?_, ?_, fun p => rfl⟩
    · intro p hp
      obtain ⟨ws, hlen, hwpos, hsum, heq⟩ := hp
      apply contains_point_true_of P p false
      intro e he
      have key := crossz_wsum (e.2 - e.1) e.1 ws P.vertices hlen
      rw [hsum, Vec2.one_smul_eq, heq] at key
      have hneg : crossz (e.2 - e.1) (p - e.1) < 0 := by
        rw [key]
        exact zip_mul_sum_neg _ ws P.vertices hlen hwpos
          (fun v hv => hcv e he v hv) (hnd e he)
      rw [edge_sign_eq, sign_of_false_iff]
      exact hneg
    · intro p hp
      obtain ⟨e0, he0, hprod⟩ := hp
      have hpos : 0 < crossz (e0.2 - e0.1) (p - e0.1) := by
        by_contra hc
        push_neg at hc
        exact absurd hprod (not_lt.mpr (by nlinarith))
      constructor
      · intro hin
        exact absurd (inHull_cross_nonpos hin e0 (fun v hv => hcv e0 he0 v hv))
          (not_le.mpr hpos)
      · cases hcp : P.contains_point p with
        | false => rfl
        | true =>
          exfalso
          have hs0 : edge_sign p e0 = true := by
            rw [edge_sign_eq, sign_of_true_iff]
            exact le_of_lt hpos
          have hall : ∀ e ∈ P.edges, 0 ≤ crossz (e.2 - e.1) (p - e.1) := by
            intro e he
            have := contains_point_signs_eq P p hcp e he e0 he0
            rw [hs0] at this
            rw [← sign_of_true_iff, ← edge_sign_eq]
            exact this
          have hsum2 := cross_sum_eq_shoelace P p
          have := list_sum_nonneg_of_all_nonneg
            (P.edges.map (fun e => crossz (e.2 - e.1) (p - e.1))) (by
              intro x hx
              obtain ⟨e, he, rfl⟩ := List.mem_map.mp hx
              exact hall e he)
          linarith

theorem c3_contains_point_convex_witness :
    (Polygon.mk 7 [⟨0,0⟩, ⟨2,0⟩, ⟨1,2⟩]).contains_point ⟨1, 1/2⟩ = true ∧
    (¬ inHull (Polygon.mk 7 [⟨0,0⟩, ⟨2,0⟩, ⟨1,2⟩]) ⟨5, 5⟩ ∧
      (Polygon.mk 7 [⟨0,0⟩, ⟨2,0⟩, ⟨1,2⟩]).contains_point ⟨5, 5⟩ = false) := by
  have hcv : convex_ccw (Polygon.mk 7 [⟨0,0⟩, ⟨2,0⟩, ⟨1,2⟩]) := by
    intro e he v hv
    simp only [Polygon.edges, edgesOf, List.zip_cons_cons, List.zip_nil_left] at he
    fin_cases he <;> fin_cases hv <;> norm_num [crossz, Vec2.sub_def]
  have hnd : nondegen_ccw (Polygon.mk 7 [⟨0,0⟩, ⟨2,0⟩, ⟨1,2⟩]) := by
    intro e he
    simp only [Polygon.edges, edgesOf, List.zip_cons_cons, List.zip_nil_left] at he
    fin_cases he
    · exact ⟨⟨1,2⟩, by simp, by norm_num [crossz, Vec2.sub_def]⟩
    · exact ⟨⟨0,0⟩, by simp, by norm_num [crossz, Vec2.sub_def]⟩
    · exact ⟨⟨2,0⟩, by simp, by norm_num [crossz, Vec2.sub_def]⟩
  have hsl : 0 < shoelace (Polygon.mk 7 [⟨0,0⟩, ⟨2,0⟩, ⟨1,2⟩]) := by
    norm_num [shoelace, Polygon.edges, edgesOf, crossz]
  have main := c3_contains_point_convex (Polygon.mk 7 [⟨0,0⟩, ⟨2,0⟩, ⟨1,2⟩])
    (by simp) (Or.inl ⟨hcv, hnd, hsl⟩)
  refine ⟨?_, main.2.1 ⟨5, 5⟩ ⟨(⟨2,0⟩, ⟨1,2⟩), ?_, ?_⟩⟩
  · exact main.1 ⟨1, 1/2⟩ ⟨[3/8, 3/8, 1/4], by simp,
      by norm_num [List.forall_mem_cons], by norm_num,
      by norm_num [wsum, Vec2.smul_def, Vec2.add_def, Vec2.zero_x, Vec2.zero_y]⟩
  · simp [Polygon.edges, edgesOf]
  · norm_num [crossz, shoelace, Polygon.edges, edgesOf, Vec2.sub_def]

/-! ## Claim C1: the value returned by collision_displacement -/

/-- The (overlap, axis) pair of every tested axis, in test order, or
`none` when some axis separates the projections (or a vertex list is
empty). -/
def axis_overlaps (A B : Polygon) : List Vec2 → Option (List (ℚ × Vec2))
  | [] => some []
  | ax :: rest =>
    match overlap_on A B ax, axis_overlaps A B rest with
    | some c, some l => some ((c, ax) :: l)
    | _, _ => none

/-- The first pair achieving the minimal overlap, computed by the same
strict-improvement scan as the source loop. -/
def first_min (l : List (ℚ × Vec2)) : Option (ℚ × Vec2) :=
  l.foldl (fun acc cv => update_min acc cv.1 cv.2) none

theorem sat_go_eq_first_min (A B : Polygon) :
    ∀ (axes : List Vec2) (acc : Option (ℚ × Vec2)),
      sat_go A B acc axes =
        match axis_overlaps A B axes with
        | none => none
        | some l => l.foldl (fun acc cv => update_min acc cv.1 cv.2) acc := by
  intro axes
  induction axes with
  | nil => intro acc; rfl
  | cons ax rest ih =>
    intro acc
    simp only [sat_go, axis_overlaps]
    cases hov : overlap_on A B ax with
    | none => rfl
    | some c =>
      cases hrest : axis_overlaps A B rest with
      | none =>
        have hh := ih (update_min acc c ax)
        rw [hrest] at hh
        exact hh
      | some l =>
        have hh := ih (update_min acc c ax)
        rw [hrest] at hh
        exact hh

/-- The result of the strict-improvement fold started from a known
accumulator: either the accumulator survives and is a weak lower bound of
the list, or a strictly better first minimum is found in the list. -/
theorem fold_update_min_spec :
    ∀ (l : List (ℚ × Vec2)) (acc : ℚ × Vec2) (d : ℚ) (a : Vec2),
      l.foldl (fun acc cv => update_min acc cv.1 cv.2) (some acc) = some (d, a) →
      ((d, a) = acc ∧ ∀ cv ∈ l, acc.1 ≤ cv.1) ∨
      (d < acc.1 ∧ ∃ l1 l2, l = l1 ++ (d, a) :: l2 ∧
        (∀ cv ∈ l1, d < cv.1) ∧ (∀ cv ∈ l2, d ≤ cv.1)) := by
  intro l
  induction l with
  | nil =>
    intro acc d a h
    simp only [List.foldl_nil, Option.some.injEq] at h
    exact Or.inl ⟨h.symm, by simp⟩
  | cons c0 l ih =>
    intro acc d a h
    simp only [List.foldl_cons] at h
    by_cases hlt : c0.1 < acc.1
    · rw [show update_min (some acc) c0.1 c0.2 = some (c0.1, c0.2) from by
        simp [update_min, hlt]] at h
      rcases ih (c0.1, c0.2) d a h with ⟨heq, hall⟩ | ⟨hlt2, l1, l2, hsplit, h1, h2⟩
      · refine Or.inr ⟨?_, [], l, ?_, by simp, ?_⟩
        · rw [show d = c0.1 from congrArg Prod.fst heq]; exact hlt
        · rw [List.nil_append, show (d, a) = (c0.1, c0.2) from heq]
        · intro x hx
          rw [show d = c0.1 from congrArg Prod.fst heq]
          exact hall x hx
      · refine Or.inr ⟨lt_trans hlt2 hlt, c0 :: l1, l2, by rw [hsplit]; rfl, ?_, h2⟩
        intro x hx
        rcases List.mem_cons.mp hx with rfl | hx2
        · exact hlt2
        · exact h1 x hx2
    · rw [show update_min (some acc) c0.1 c0.2 = some acc from by
        simp [update_min, hlt]] at h
      rcases ih acc d a h with ⟨heq, hall⟩ | ⟨hlt2, l1, l2, hsplit, h1, h2⟩
      · refine Or.inl ⟨heq, ?_⟩
        intro x hx
        rcases List.mem_cons.mp hx with rfl | hx2
        · exact le_of_not_lt hlt
        · exact hall x hx2
      · refine Or.inr ⟨hlt2, c0 :: l1, l2, by rw [hsplit]; rfl, ?_, h2⟩
        intro x hx
        rcases List.mem_cons.mp hx with rfl | hx2
        · exact lt_of_lt_of_le hlt2 (le_of_not_lt hlt)
        · exact h1 x hx2

/-- first_min finds the first pair achieving the minimum of the list:
the prefix before it is strictly larger, the suffix weakly larger. -/
theorem first_min_spec (l : List (ℚ × Vec2)) (d : ℚ) (a : Vec2)
    (h : first_min l = some (d, a)) :
    ∃ l1 l2, l = l1 ++ (d, a) :: l2 ∧ (∀ cv ∈ l1, d < cv.1) ∧ (∀ cv ∈ l2, d ≤ cv.1) := by
  cases l with
  | nil => simp [first_min] at h
  | cons c0 l =>
    unfold first_min at h
    simp only [List.foldl_cons] at h
    rw [show update_min none c0.1 c0.2 = some (c0.1, c0.2) from rfl] at h
    rcases fold_update_min_spec l (c0.1, c0.2) d a h with ⟨heq, hall⟩ | ⟨hlt, l1, l2, hsplit, h1, h2⟩
    · refine ⟨[], l, ?_, by simp, ?_⟩
      · rw [List.nil_append, show (d, a) = (c0.1, c0.2) from heq]
      · intro x hx
        rw [show d = c0.1 from congrArg Prod.fst heq]
        exact hall x hx
    · refine ⟨c0 :: l1, l2, by rw [hsplit]; rfl, ?_, h2⟩
      intro x hx
      rcases List.mem_cons.mp hx with rfl | hx2
      · exact hlt
      · exact h1 x hx2

theorem axis_overlaps_spec (A B : Polygon) :
    ∀ (axes : List Vec2) (l : List (ℚ × Vec2)), axis_overlaps A B axes = some l →
      l.map Prod.snd = axes ∧ ∀ cv ∈ l, overlap_on A B cv.2 = some cv.1 := by
  intro axes
  induction axes with
  | nil =>
    intro l h
    simp only [axis_overlaps, Option.some.injEq] at h
    subst h
    exact ⟨rfl, by simp⟩
  | cons ax rest ih =>
    intro l h
    simp only [axis_overlaps] at h
    cases hov : overlap_on A B ax with
    | none => rw [hov] at h; exact absurd h (by simp)
    | some c =>
      rw [hov] at h
      cases hrest : axis_overlaps A B rest with
      | none => rw [hrest] at h; exact absurd h (by simp)
      | some l0 =>
        rw [hrest] at h
        simp only [Option.some.injEq] at h
        subst h
        obtain ⟨hmap, hall⟩ := ih l0 hrest
        refine ⟨by simp [hmap], ?_⟩
        intro cv hcv
        rcases List.mem_cons.mp hcv with rfl | hm
        · exact hov
        · exact hall cv hm

theorem axis_overlaps_isSome (A B : Polygon) :
    ∀ (axes : List Vec2), (∀ ax ∈ axes, (overlap_on A B ax).isSome) →
      ∃ l, axis_overlaps A B axes = some l := by
  intro axes
  induction axes with
  | nil => intro _; exact ⟨[], rfl⟩
  | cons ax rest ih =>
    intro h
    obtain ⟨l0, hl0⟩ := ih (fun x hx => h x (List.mem_cons_of_mem _ hx))
    have hax := h ax (List.mem_cons_self _ _)
    cases hov : overlap_on A B ax with
    | none => rw [hov] at hax; simp at hax
    | some c =>
      refine ⟨(c, ax) :: l0, ?_⟩
      simp only [axis_overlaps]
      rw [hov, hl0]

theorem project_isSome {vs : List Vec2} (h : vs ≠ []) (axis : Vec2) :
    ∃ mm, project vs axis = some mm := by
  cases vs with
  | nil => exact absurd rfl h
  | cons v rest => exact ⟨_, rfl⟩

/-- Two polygons with a common hull point have overlapping projections on
every axis: the easy direction of the separating axis theorem. -/
theorem hulls_overlap_overlap_on {A B : Polygon} (hover : hulls_overlap A B)
    (hA : A.vertices ≠ []) (hB : B.vertices ≠ []) (ax : Vec2) :
    ∃ c, overlap_on A B ax = some c ∧ 0 ≤ c := by
  obtain ⟨p, hpA, hpB⟩ := hover
  obtain ⟨mmA, hmA⟩ := project_isSome hA ax
  obtain ⟨mmB, hmB⟩ := project_isSome hB ax
  obtain ⟨hA1, hA2⟩ := inHull_project_bounds hpA hmA
  obtain ⟨hB1, hB2⟩ := inHull_project_bounds hpB hmB
  refine ⟨min mmA.2 mmB.2 - max mmA.1 mmB.1, ?_, ?_⟩
  · simp only [overlap_on, hmA, hmB]
    rw [if_pos ⟨le_trans hA1 hB2, le_trans hB1 hA2⟩]
  · have h1 : max mmA.1 mmB.1 ≤ dotv p ax := max_le hA1 hB1
    have h2 : dotv p ax ≤ min mmA.2 mmB.2 := le_min hA2 hB2
    linarith

theorem fold_update_min_from_some :
    ∀ (l : List (ℚ × Vec2)) (acc : ℚ × Vec2),
      ∃ da, l.foldl (fun acc cv => update_min acc cv.1 cv.2) (some acc) = some da := by
  intro l
  induction l with
  | nil => intro acc; exact ⟨acc, rfl⟩
  | cons c0 l ih =>
    intro acc
    simp only [List.foldl_cons]
    by_cases hlt : c0.1 < acc.1
    · rw [show update_min (some acc) c0.1 c0.2 = some (c0.1, c0.2) from by
        simp [update_min, hlt]]
      exact ih (c0.1, c0.2)
    · rw [show update_min (some acc) c0.1 c0.2 = some acc from by
        simp [update_min, hlt]]
      exact ih acc

theorem first_min_isSome {l : List (ℚ × Vec2)} (h : l ≠ []) :
    ∃ da, first_min l = some da := by
  cases l with
  | nil => exact absurd rfl h
  | cons c0 l =>
    unfold first_min
    simp only [List.foldl_cons]
    rw [show update_min none c0.1 c0.2 = some (c0.1, c0.2) from rfl]
    exact fold_update_min_from_some l (c0.1, c0.2)

theorem edgesOf_ne_nil {vs : List Vec2} (h : vs ≠ []) : edgesOf vs ≠ [] := by
  cases vs with
  | nil => exact absurd rfl h
  | cons v rest => simp [edgesOf]

/-- Translating a polygon by a vector: the geometric operation the spec
means by applying the displacement to one of the two shapes. -/
def Polygon.translated (P : Polygon) (v : Vec2) : Polygon :=
  ⟨P.id, P.vertices.map (fun u => u + v)⟩

/-- C1 as amended.  For two polygons whose hulls share a point (in
particular two overlapping convex polygons), collision_displacement
returns d • a, where (d, a) is the first pair attaining the minimal
projection overlap over the tested axes: the unnormalized edge
perpendiculars of A (in vertex order) and then of B.  The axis a is the
perpendicular of an actual edge, so the squared magnitude of the result
is d * d times the squared edge length: the magnitude equals the overlap
times the edge length, not the overlap itself, and (see the
counterexample) translating by the returned vector need not separate the
shapes.  When the overlap is positive and the edge non-degenerate the
returned vector is non-zero. -/
theorem c1_collision_displacement_first_min (A B : Polygon)
    (hover : hulls_overlap A B) (hA : A.vertices ≠ []) (hB : B.vertices ≠ []) :
    ∃ d a l1 l2,
      A.collision_displacement B = some (d • a) ∧
      0 ≤ d ∧
      axis_overlaps A B (sat_axes A ++ sat_axes B) = some (l1 ++ (d, a) :: l2) ∧
      overlap_on A B a = some d ∧
      (∀ cv ∈ l1, d < cv.1) ∧ (∀ cv ∈ l2, d ≤ cv.1) ∧
      (∃ e ∈ A.edges ++ B.edges, a = perp (e.2 - e.1) ∧
        normSq (d • a) = d * d * normSq (e.2 - e.1)) ∧
      (0 < d → a ≠ 0 → d • a ≠ 0) := by
  have hall : ∀ ax ∈ sat_axes A ++ sat_axes B, (overlap_on A B ax).isSome := by
    intro ax _
    obtain ⟨c, hc, _⟩ := hulls_overlap_overlap_on hover hA hB ax
    rw [hc]
    rfl
  obtain ⟨l, hl⟩ := axis_overlaps_isSome A B _ hall
  obtain ⟨hmap, hov⟩ := axis_overlaps_spec A B _ l hl
  have lne : l ≠ [] := by
    intro hnil
    rw [hnil] at hmap
    have h0 : sat_axes A ++ sat_axes B = [] := by simpa using hmap.symm
    have : sat_axes A = [] := (List.append_eq_nil.mp h0).1
    unfold sat_axes at this
    rw [List.map_eq_nil_iff] at this
    exact edgesOf_ne_nil hA this
  obtain ⟨⟨d, a⟩, hfm⟩ := first_min_isSome lne
  obtain ⟨l1, l2, hsplit, h1, h2⟩ := first_min_spec l d a hfm
  have hmem : (d, a) ∈ l := by rw [hsplit]; exact List.mem_append_right _ (List.mem_cons_self _ _)
  have hova : overlap_on A B a = some d := hov (d, a) hmem
  have hdnn : 0 ≤ d := by
    obtain ⟨c, hc, hcnn⟩ := hulls_overlap_overlap_on hover hA hB a
    rw [hova] at hc
    simp only [Option.some.injEq] at hc
    rw [hc]
    exact hcnn
  have hax : a ∈ sat_axes A ++ sat_axes B := by
    rw [← hmap]
    exact List.mem_map.mpr ⟨(d, a), hmem, rfl⟩
  have hedge : ∃ e ∈ A.edges ++ B.edges, a = perp (e.2 - e.1) ∧
      normSq (d • a) = d * d * normSq (e.2 - e.1) := by
    rcases List.mem_append.mp hax with hmA | hmB
    · obtain ⟨e, he, heq⟩ := List.mem_map.mp hmA
      exact ⟨e, List.mem_append_left _ he, heq.symm, by
        rw [← heq, normSq_smul, normSq_perp]⟩
    · obtain ⟨e, he, heq⟩ := List.mem_map.mp hmB
      exact ⟨e, List.mem_append_right _ he, heq.symm, by
        rw [← heq, normSq_smul, normSq_perp]⟩
  refine ⟨d, a, l1, l2, ?_, hdnn, ?_, hova, h1, h2, hedge, ?_⟩
  · unfold Polygon.collision_displacement
    rw [sat_go_eq_first_min A B _ none, hl]
    have hfm2 : List.foldl (fun acc cv => update_min acc cv.1 cv.2) none l = some (d, a) := hfm
    show Option.map (fun da => da.1 • da.2)
      (List.foldl (fun acc cv => update_min acc cv.1 cv.2) none l) = some (d • a)
    rw [hfm2]
    rfl
  · rw [hl, hsplit]
  · intro hdpos hane
    exact smul_ne_zero_vec (ne_of_gt hdpos) hane

theorem c1_collision_displacement_first_min_witness :
    ∃ d a l1 l2,
      (Polygon.mk 1 [⟨0,0⟩, ⟨1,0⟩, ⟨1,1⟩, ⟨0,1⟩]).collision_displacement
        (Polygon.mk 2 [⟨1/2,0⟩, ⟨3/2,0⟩, ⟨3/2,1⟩, ⟨1/2,1⟩]) = some (d • a) ∧
      0 ≤ d ∧
      axis_overlaps (Polygon.mk 1 [⟨0,0⟩, ⟨1,0⟩, ⟨1,1⟩, ⟨0,1⟩])
        (Polygon.mk 2 [⟨1/2,0⟩, ⟨3/2,0⟩, ⟨3/2,1⟩, ⟨1/2,1⟩])
        (sat_axes (Polygon.mk 1 [⟨0,0⟩, ⟨1,0⟩, ⟨1,1⟩, ⟨0,1⟩]) ++
          sat_axes (Polygon.mk 2 [⟨1/2,0⟩, ⟨3/2,0⟩, ⟨3/2,1⟩, ⟨1/2,1⟩])) =
        some (l1 ++ (d, a) :: l2) ∧
      overlap_on (Polygon.mk 1 [⟨0,0⟩, ⟨1,0⟩, ⟨1,1⟩, ⟨0,1⟩])
        (Polygon.mk 2 [⟨1/2,0⟩, ⟨3/2,0⟩, ⟨3/2,1⟩, ⟨1/2,1⟩]) a = some d ∧
      (∀ cv ∈ l1, d < cv.1) ∧ (∀ cv ∈ l2, d ≤ cv.1) ∧
      (∃ e ∈ (Polygon.mk 1 [⟨0,0⟩, ⟨1,0⟩, ⟨1,1⟩, ⟨0,1⟩]).edges ++
          (Polygon.mk 2 [⟨1/2,0⟩, ⟨3/2,0⟩, ⟨3/2,1⟩, ⟨1/2,1⟩]).edges,
        a = perp (e.2 - e.1) ∧ normSq (d • a) = d * d * normSq (e.2 - e.1)) ∧
      (0 < d → a ≠ 0 → d • a ≠ 0) := by
  apply c1_collision_displacement_first_min
  · refine ⟨⟨3/4, 1/2⟩, ⟨[1/8, 3/8, 3/8, 1/8], by simp,
      by norm_num [List.forall_mem_cons], by norm_num,
      by norm_num [wsum, Vec2.smul_def, Vec2.add_def, Vec2.zero_x, Vec2.zero_y]⟩,
      ⟨[3/8, 1/8, 1/8, 3/8], by simp,
      by norm_num [List.forall_mem_cons], by norm_num,
      by norm_num [wsum, Vec2.smul_def, Vec2.add_def, Vec2.zero_x, Vec2.zero_y]⟩⟩
  · simp
  · simp

/-- C1 counterexample: two overlapping axis-aligned squares of side 1/2,
the second shifted right by 1/4.  The minimal projection overlap over all
tested axes is 1/8, attained first at the unnormalized axis (-1/2, 0),
and the function returns (1/8) • (-1/2, 0) = (-1/16, 0): a non-zero
vector along the minimal axis whose magnitude is 1/16, not the minimal
overlap 1/8 (the axis has length 1/2); and translating either square by
the returned vector leaves the two squares overlapping: the point
(5/16, 1/4) stays strictly inside both. -/
theorem c1_collision_displacement_counterexample :
    (Polygon.mk 1 [⟨0,0⟩, ⟨1/2,0⟩, ⟨1/2,1/2⟩, ⟨0,1/2⟩]).collision_displacement
      (Polygon.mk 2 [⟨1/4,0⟩, ⟨3/4,0⟩, ⟨3/4,1/2⟩, ⟨1/4,1/2⟩]) = some ⟨-1/16, 0⟩ ∧
    overlap_on (Polygon.mk 1 [⟨0,0⟩, ⟨1/2,0⟩, ⟨1/2,1/2⟩, ⟨0,1/2⟩])
      (Polygon.mk 2 [⟨1/4,0⟩, ⟨3/4,0⟩, ⟨3/4,1/2⟩, ⟨1/4,1/2⟩]) ⟨-1/2, 0⟩ = some (1/8) ∧
    axis_overlaps (Polygon.mk 1 [⟨0,0⟩, ⟨1/2,0⟩, ⟨1/2,1/2⟩, ⟨0,1/2⟩])
      (Polygon.mk 2 [⟨1/4,0⟩, ⟨3/4,0⟩, ⟨3/4,1/2⟩, ⟨1/4,1/2⟩])
      (sat_axes (Polygon.mk 1 [⟨0,0⟩, ⟨1/2,0⟩, ⟨1/2,1/2⟩, ⟨0,1/2⟩]) ++
        sat_axes (Polygon.mk 2 [⟨1/4,0⟩, ⟨3/4,0⟩, ⟨3/4,1/2⟩, ⟨1/4,1/2⟩])) =
      some [(1/4, ⟨0,1/2⟩), (1/8, ⟨-1/2,0⟩), (1/4, ⟨0,-1/2⟩), (1/8, ⟨1/2,0⟩),
        (1/4, ⟨0,1/2⟩), (1/8, ⟨-1/2,0⟩), (1/4, ⟨0,-1/2⟩), (1/8, ⟨1/2,0⟩)] ∧
    (∀ cv ∈ ([(1/4, ⟨0,1/2⟩), (1/8, ⟨-1/2,0⟩), (1/4, ⟨0,-1/2⟩), (1/8, ⟨1/2,0⟩),
        (1/4, ⟨0,1/2⟩), (1/8, ⟨-1/2,0⟩), (1/4, ⟨0,-1/2⟩), (1/8, ⟨1/2,0⟩)] :
        List (ℚ × Vec2)), 1/8 ≤ cv.1) ∧
    normSq ⟨-1/16, 0⟩ ≠ (1/8) * (1/8) ∧
    strictly_inside ((Polygon.mk 1 [⟨0,0⟩, ⟨1/2,0⟩, ⟨1/2,1/2⟩, ⟨0,1/2⟩]).translated
      ⟨-1/16, 0⟩) ⟨5/16, 1/4⟩ ∧
    strictly_inside (Polygon.mk 2 [⟨1/4,0⟩, ⟨3/4,0⟩, ⟨3/4,1/2⟩, ⟨1/4,1/2⟩]) ⟨5/16, 1/4⟩ ∧
    strictly_inside (Polygon.mk 1 [⟨0,0⟩, ⟨1/2,0⟩, ⟨1/2,1/2⟩, ⟨0,1/2⟩]) ⟨5/16, 1/4⟩ ∧
    strictly_inside ((Polygon.mk 2 [⟨1/4,0⟩, ⟨3/4,0⟩, ⟨3/4,1/2⟩, ⟨1/4,1/2⟩]).translated
      ⟨-1/16, 0⟩) ⟨5/16, 1/4⟩ := by
  refine ⟨?_, ?_, ?_, ?_, ?_, ?_, ?_, ?_, ?_⟩
  · norm_num [Polygon.collision_displacement, sat_go, sat_axes, overlap_on, project,
      update_min, Polygon.edges, edgesOf, perp, dotv, Vec2.sub_def, Vec2.smul_def]
  · norm_num [overlap_on, project, dotv]
  · norm_num [axis_overlaps, sat_axes, overlap_on, project, Polygon.edges, edgesOf,
      perp, dotv, Vec2.sub_def]
  · norm_num [List.forall_mem_cons]
  · norm_num [normSq]
  · exact ⟨[1/8, 3/8, 3/8, 1/8], by simp [Polygon.translated],
      by norm_num [List.forall_mem_cons], by norm_num,
      by norm_num [Polygon.translated, wsum, Vec2.smul_def, Vec2.add_def,
        Vec2.zero_x, Vec2.zero_y]⟩
  · exact ⟨[7/16, 1/16, 1/16, 7/16], by simp,
      by norm_num [List.forall_mem_cons], by norm_num,
      by norm_num [wsum, Vec2.smul_def, Vec2.add_def, Vec2.zero_x, Vec2.zero_y]⟩
  · exact ⟨[3/16, 5/16, 5/16, 3/16], by simp,
      by norm_num [List.forall_mem_cons], by norm_num,
      by norm_num [wsum, Vec2.smul_def, Vec2.add_def, Vec2.zero_x, Vec2.zero_y]⟩
  · exact ⟨[3/8, 1/8, 1/8, 3/8], by simp [Polygon.translated],
      by norm_num [List.forall_mem_cons], by norm_num,
      by norm_num [Polygon.translated, wsum, Vec2.smul_def, Vec2.add_def,
        Vec2.zero_x, Vec2.zero_y]⟩

/-! ## Claim C7: disjoint polygons and the absence result -/

theorem sat_go_none_of_separated (A B : Polygon) :
    ∀ (axes : List Vec2) (acc : Option (ℚ × Vec2)),
      (∃ ax ∈ axes, overlap_on A B ax = none) → sat_go A B acc axes = none := by
  intro axes
  induction axes with
  | nil => intro acc h; obtain ⟨ax, hm, _⟩ := h; simp at hm
  | cons ax0 rest ih =>
    intro acc h
    simp only [sat_go]
    cases hov : overlap_on A B ax0 with
    | none => rfl
    | some c =>
      obtain ⟨ax, hm, hnone⟩ := h
      rcases List.mem_cons.mp hm with rfl | hm2
      · rw [hov] at hnone; exact absurd hnone (by simp)
      · exact ih (update_min acc c ax0) ⟨ax, hm2, hnone⟩

/-- C7 counterexample: two degenerate (zero-area, collinear) polygons.
Both satisfy the convexity inequalities in both orientations (every
internal angle is at most 180 degrees, degenerately), their hulls are
disjoint (one lies in x ≤ 1, the other in x ≥ 2), yet every tested axis
shows overlapping projections, collision_displacement returns a value
(the zero vector) and collides_with answers true. -/
theorem c7_collision_displacement_counterexample :
    convex_ccw (Polygon.mk 1 [⟨0,0⟩, ⟨1,0⟩, ⟨1/2,0⟩]) ∧
    convex_cw (Polygon.mk 1 [⟨0,0⟩, ⟨1,0⟩, ⟨1/2,0⟩]) ∧
    convex_ccw (Polygon.mk 2 [⟨2,0⟩, ⟨3,0⟩, ⟨5/2,0⟩]) ∧
    convex_cw (Polygon.mk 2 [⟨2,0⟩, ⟨3,0⟩, ⟨5/2,0⟩]) ∧
    (∀ p, ¬ (inHull (Polygon.mk 1 [⟨0,0⟩, ⟨1,0⟩, ⟨1/2,0⟩]) p ∧
      inHull (Polygon.mk 2 [⟨2,0⟩, ⟨3,0⟩, ⟨5/2,0⟩]) p)) ∧
    (Polygon.mk 1 [⟨0,0⟩, ⟨1,0⟩, ⟨1/2,0⟩]).collision_displacement
      (Polygon.mk 2 [⟨2,0⟩, ⟨3,0⟩, ⟨5/2,0⟩]) = some ⟨0, 0⟩ ∧
    (Polygon.mk 1 [⟨0,0⟩, ⟨1,0⟩, ⟨1/2,0⟩]).collides_with
      (Polygon.mk 2 [⟨2,0⟩, ⟨3,0⟩, ⟨5/2,0⟩]) = true := by
  have hdisp : (Polygon.mk 1 [⟨0,0⟩, ⟨1,0⟩, ⟨1/2,0⟩]).collision_displacement
      (Polygon.mk 2 [⟨2,0⟩, ⟨3,0⟩, ⟨5/2,0⟩]) = some ⟨0, 0⟩ := by
    norm_num [Polygon.collision_displacement, sat_go, sat_axes, overlap_on, project,
      update_min, Polygon.edges, edgesOf, perp, dotv, Vec2.sub_def, Vec2.smul_def]
  refine ⟨?_, ?_, ?_, ?_, ?_, hdisp, ?_⟩
  · norm_num [convex_ccw, Polygon.edges, edgesOf, List.forall_mem_cons, crossz, Vec2.sub_def]
  · norm_num [convex_cw, Polygon.edges, edgesOf, List.forall_mem_cons, crossz, Vec2.sub_def]
  · norm_num [convex_ccw, Polygon.edges, edgesOf, List.forall_mem_cons, crossz, Vec2.sub_def]
  · norm_num [convex_cw, Polygon.edges, edgesOf, List.forall_mem_cons, crossz, Vec2.sub_def]
  · rintro p ⟨hA, hB⟩
    have hpa := inHull_project_bounds hA
      (show project [⟨0,0⟩, ⟨1,0⟩, ⟨1/2,0⟩] ⟨1, 0⟩ = some (0, 1) from by
        norm_num [project, dotv])
    have hpb := inHull_project_bounds hB
      (show project [⟨2,0⟩, ⟨3,0⟩, ⟨5/2,0⟩] ⟨1, 0⟩ = some (2, 3) from by
        norm_num [project, dotv])
    have hda : dotv p ⟨1, 0⟩ = p.x := by simp [dotv]
    rw [hda] at hpa hpb
    simp only at hpa hpb
    linarith [hpa.2, hpb.1]
  · unfold Polygon.collides_with
    rw [hdisp]
    rfl

/-! ## The quadtree spatial index (src/engine/quadtree.rs)

The master store (a Rust HashMap from polygon id to polygon) is embedded
as an association list whose keys are unique in every reachable state;
`storePut` overwrites an existing key exactly as HashMap::insert does.
The tree is the QuadTreeInner enum: a node owns its two inclusive ranges
and either an element list or four children.  Rust recursion depth is
modelled by an explicit fuel parameter on insertion (the source can
recurse without bound when more than MAX_TREE_ENTRIES polygons share a
point; `none` models that stack overflow, never reached in the claims). -/

def MAX_TREE_ENTRIES : ℕ := 10

/-- The largest finite f32, exactly: (2^24 - 1) * 2^104. -/
def F32_MAX : ℚ := (2 ^ 24 - 1) * 2 ^ 104

def F32_MIN : ℚ := -F32_MAX

def storeGet : List (ℕ × Polygon) → ℕ → Option Polygon
  | [], _ => none
  | kp :: rest, i => if kp.1 = i then some kp.2 else storeGet rest i

def storePut : List (ℕ × Polygon) → ℕ → Polygon → List (ℕ × Polygon)
  | [], i, p => [(i, p)]
  | kp :: rest, i, p => if kp.1 = i then (i, p) :: rest else kp :: storePut rest i p

inductive QInner where
  | leaf (xlo xhi ylo yhi : ℚ) (elements : List ℕ)
  | node (xlo xhi ylo yhi : ℚ) (c0 c1 c2 c3 : QInner)
deriving DecidableEq

/-- `QuadTreeInner::contains_point`: both inclusive ranges contain the
coordinate. -/
def QInner.containsPtB : QInner → Vec2 → Bool
  | .leaf xlo xhi ylo yhi _, p =>
    decide (xlo ≤ p.x) && decide (p.x ≤ xhi) && decide (ylo ≤ p.y) && decide (p.y ≤ yhi)
  | .node xlo xhi ylo yhi _ _ _ _, p =>
    decide (xlo ≤ p.x) && decide (p.x ≤ xhi) && decide (ylo ≤ p.y) && decide (p.y ≤ yhi)

/-- `QuadTreeInner::remove_from_point`: inside the rectangle, a leaf
retains an id only when it resolves through the store to a polygon not
containing the point (a dangling id is dropped too); children recurse;
outside the rectangle nothing changes. -/
def QInner.remove_from_point : QInner → Vec2 → List (ℕ × Polygon) → QInner
  | .leaf xlo xhi ylo yhi elems, pt, store =>
    if (QInner.leaf xlo xhi ylo yhi elems).containsPtB pt then
      .leaf xlo xhi ylo yhi (elems.filter (fun i =>
        match storeGet store i with
        | some poly => !(poly.contains_point pt)
        | none => false))
    else .leaf xlo xhi ylo yhi elems
  | .node xlo xhi ylo yhi c0 c1 c2 c3, pt, store =>
    if (QInner.node xlo xhi ylo yhi c0 c1 c2 c3).containsPtB pt then
      .node xlo xhi ylo yhi (c0.remove_from_point pt store) (c1.remove_from_point pt store)
        (c2.remove_from_point pt store) (c3.remove_from_point pt store)
    else .node xlo xhi ylo yhi c0 c1 c2 c3

/-- The four fresh children of a splitting leaf, in the order of the
source array: quadrants of the rectangle split at the midpoint of both
axes. -/
def freshQuadrants (xlo xhi ylo yhi : ℚ) : QInner × QInner × QInner × QInner :=
  (QInner.leaf xlo ((xlo + xhi) / 2) ((ylo + yhi) / 2) yhi [],
   QInner.leaf ((xlo + xhi) / 2) xhi ((ylo + yhi) / 2) yhi [],
   QInner.leaf xlo ((xlo + xhi) / 2) ylo ((ylo + yhi) / 2) [],
   QInner.leaf ((xlo + xhi) / 2) xhi ylo ((ylo + yhi) / 2) [])

/-- The reinsertion loop of a splitting leaf: every id of the old element
list, resolved through the master store (a missing id is skipped, as the
source's flat_map does), is offered to each of the four children in
order by the given child inserter. -/
def reinsertIdsWith (store : List (ℕ × Polygon)) (step : QInner → Polygon → Option QInner)
    (cs : QInner × QInner × QInner × QInner) (ids : List ℕ) :
    Option (QInner × QInner × QInner × QInner) :=
  ids.foldl (fun acc i =>
    match acc with
    | none => none
    | some cs =>
      match storeGet store i with
      | none => some cs
      | some p =>
        match step cs.1 p, step cs.2.1 p, step cs.2.2.1 p, step cs.2.2.2 p with
        | some a, some b, some c, some d => some (a, b, c, d)
        | _, _, _, _ => none) (some cs)

/-- `QuadTreeInner::insert`, with an explicit recursion-depth fuel.  A
node accepts a polygon when some vertex lies in its rectangle.  An
accepting leaf appends the id; past MAX_TREE_ENTRIES entries it splits
into the four quadrant children and re-offers every held id through
`reinsertIdsWith`; an accepting internal node offers the polygon to all
four children.  `none` models exhausting the recursion depth (a stack
overflow of the source). -/
def QInner.insertF : ℕ → QInner → Polygon → List (ℕ × Polygon) → Option QInner
  | 0, _, _, _ => none
  | fuel + 1, QInner.leaf xlo xhi ylo yhi elems, poly, store =>
    if poly.vertices.any (fun v => (QInner.leaf xlo xhi ylo yhi elems).containsPtB v) then
      if MAX_TREE_ENTRIES < (elems ++ [poly.id]).length then
        match reinsertIdsWith store (fun t p => QInner.insertF fuel t p store)
          (freshQuadrants xlo xhi ylo yhi) (elems ++ [poly.id]) with
        | some cs => some (QInner.node xlo xhi ylo yhi cs.1 cs.2.1 cs.2.2.1 cs.2.2.2)
        | none => none
      else some (QInner.leaf xlo xhi ylo yhi (elems ++ [poly.id]))
    else some (QInner.leaf xlo xhi ylo yhi elems)
  | fuel + 1, QInner.node xlo xhi ylo yhi c0 c1 c2 c3, poly, store =>
    if poly.vertices.any (fun v => (QInner.node xlo xhi ylo yhi c0 c1 c2 c3).containsPtB v) then
      match QInner.insertF fuel c0 poly store, QInner.insertF fuel c1 poly store,
        QInner.insertF fuel c2 poly store, QInner.insertF fuel c3 poly store with
      | some a, some b, some c, some d => some (QInner.node xlo xhi ylo yhi a b c d)
      | _, _, _, _ => none
    else some (QInner.node xlo xhi ylo yhi c0 c1 c2 c3)

/-- `QuadTreeInner::find_in_area`: the set of stored polygon ids found
for the query polygon.  A node is searched only when some vertex of the
query polygon lies in its rectangle; a searched leaf reports the ids
that resolve through the store to a polygon colliding with the query;
an internal node unions its children; the HashSet of the source is the
deduplication. -/
def QInner.find_in_area : QInner → Polygon → List (ℕ × Polygon) → Finset ℕ
  | .leaf xlo xhi ylo yhi elems, area, store =>
    if area.vertices.any (fun v => (QInner.leaf xlo xhi ylo yhi elems).containsPtB v) then
      (elems.filter (fun i =>
        match storeGet store i with
        | some poly => poly.collides_with area
        | none => false)).toFinset
    else ∅
  | .node xlo xhi ylo yhi c0 c1 c2 c3, area, store =>
    if area.vertices.any (fun v => (QInner.node xlo xhi ylo yhi c0 c1 c2 c3).containsPtB v) then
      c0.find_in_area area store ∪ c1.find_in_area area store ∪
        c2.find_in_area area store ∪ c3.find_in_area area store
    else ∅

/-! ### The outer QuadTree -/

structure QuadTree where
  store : List (ℕ × Polygon)
  root : QInner
deriving DecidableEq

def QuadTree.new : QuadTree :=
  ⟨[], QInner.leaf F32_MIN F32_MAX F32_MIN F32_MAX []⟩

def QuadTree.len (qt : QuadTree) : ℕ := qt.store.length

/-- `QuadTree::insert`: store the polygon under its id (overwriting any
previous entry with that id, as HashMap::insert does), then offer the
stored polygon to the root against the updated store. -/
def QuadTree.insertF (fuel : ℕ) (qt : QuadTree) (poly : Polygon) : Option QuadTree :=
  match QInner.insertF fuel qt.root poly (storePut qt.store poly.id poly) with
  | some root2 => some ⟨storePut qt.store poly.id poly, root2⟩
  | none => none

/-- `QuadTree::remove_from_point`: first the tree removal against the
old store, then the retain on the master mapping. -/
def QuadTree.remove_from_point (qt : QuadTree) (pt : Vec2) : QuadTree :=
  ⟨qt.store.filter (fun kp => !(kp.2.contains_point pt)),
   qt.root.remove_from_point pt qt.store⟩

def QuadTree.find_in_area (qt : QuadTree) (area : Polygon) : Finset ℕ :=
  qt.root.find_in_area area qt.store

/-! ### Quadtree lemmas -/

/-- Soundness of the area query: every returned id resolves through the
given store to a polygon that collides with the query area.  In
particular an id dangling in a leaf (absent from the master mapping) is
never returned. -/
theorem find_in_area_sound :
    ∀ (t : QInner) (area : Polygon) (store : List (ℕ × Polygon)) (i : ℕ),
      i ∈ t.find_in_area area store →
      ∃ p, storeGet store i = some p ∧ p.collides_with area = true := by
  intro t
  induction t with
  | leaf xlo xhi ylo yhi elems =>
    intro area store i hi
    unfold QInner.find_in_area at hi
    by_cases hacc : area.vertices.any (fun v =>
        (QInner.leaf xlo xhi ylo yhi elems).containsPtB v) = true
    · rw [if_pos hacc] at hi
      rw [List.mem_toFinset, List.mem_filter] at hi
      obtain ⟨_, hcond⟩ := hi
      cases hg : storeGet store i with
      | none => rw [hg] at hcond; simp at hcond
      | some p =>
        rw [hg] at hcond
        exact ⟨p, rfl, by simpa using hcond⟩
    · rw [if_neg hacc] at hi
      simp at hi
  | node xlo xhi ylo yhi c0 c1 c2 c3 ih0 ih1 ih2 ih3 =>
    intro area store i hi
    unfold QInner.find_in_area at hi
    by_cases hacc : area.vertices.any (fun v =>
        (QInner.node xlo xhi ylo yhi c0 c1 c2 c3).containsPtB v) = true
    · rw [if_pos hacc] at hi
      simp only [Finset.mem_union] at hi
      rcases hi with ((h | h) | h) | h
      · exact ih0 area store i h
      · exact ih1 area store i h
      · exact ih2 area store i h
      · exact ih3 area store i h
    · rw [if_neg hacc] at hi
      simp at hi

/-- The shape of a tree: its rectangles and leaf/node structure, with
the element lists erased. -/
inductive QShape where
  | leaf (xlo xhi ylo yhi : ℚ)
  | node (xlo xhi ylo yhi : ℚ) (s0 s1 s2 s3 : QShape)
deriving DecidableEq

def QInner.shape : QInner → QShape
  | .leaf xlo xhi ylo yhi _ => .leaf xlo xhi ylo yhi
  | .node xlo xhi ylo yhi c0 c1 c2 c3 =>
    .node xlo xhi ylo yhi c0.shape c1.shape c2.shape c3.shape

/-- Point removal never changes the structure of the tree: no internal
node is collapsed back into a leaf, and no rectangle changes. -/
theorem remove_from_point_shape :
    ∀ (t : QInner) (pt : Vec2) (store : List (ℕ × Polygon)),
      (t.remove_from_point pt store).shape = t.shape := by
  intro t
  induction t with
  | leaf xlo xhi ylo yhi elems =>
    intro pt store
    unfold QInner.remove_from_point
    by_cases h : (QInner.leaf xlo xhi ylo yhi elems).containsPtB pt = true
    · rw [if_pos h]; rfl
    · rw [if_neg h]
  | node xlo xhi ylo yhi c0 c1 c2 c3 ih0 ih1 ih2 ih3 =>
    intro pt store
    unfold QInner.remove_from_point
    by_cases h : (QInner.node xlo xhi ylo yhi c0 c1 c2 c3).containsPtB pt = true
    · rw [if_pos h]
      simp only [QInner.shape, ih0, ih1, ih2, ih3]
    · rw [if_neg h]

/-- The leaves the removal visits are left with no dangling id: along
every path of nodes whose rectangle contains the removal point, the
reached leaf holds only ids present in the master store. -/
def cleanAt (store : List (ℕ × Polygon)) (pt : Vec2) : QInner → Prop
  | .leaf xlo xhi ylo yhi elems =>
    (QInner.leaf xlo xhi ylo yhi elems).containsPtB pt = true →
      ∀ i ∈ elems, (storeGet store i).isSome = true
  | .node xlo xhi ylo yhi c0 c1 c2 c3 =>
    (QInner.node xlo xhi ylo yhi c0 c1 c2 c3).containsPtB pt = true →
      cleanAt store pt c0 ∧ cleanAt store pt c1 ∧ cleanAt store pt c2 ∧ cleanAt store pt c3

theorem remove_from_point_clean :
    ∀ (t : QInner) (pt : Vec2) (store : List (ℕ × Polygon)),
      cleanAt store pt (t.remove_from_point pt store) := by
  intro t
  induction t with
  | leaf xlo xhi ylo yhi elems =>
    intro pt store
    unfold QInner.remove_from_point
    by_cases h : (QInner.leaf xlo xhi ylo yhi elems).containsPtB pt = true
    · rw [if_pos h]
      intro _ i hi
      rw [List.mem_filter] at hi
      obtain ⟨_, hcond⟩ := hi
      cases hg : storeGet store i with
      | none => rw [hg] at hcond; simp at hcond
      | some p => rfl
    · rw [if_neg h]
      intro hcont
      exact absurd hcont h
  | node xlo xhi ylo yhi c0 c1 c2 c3 ih0 ih1 ih2 ih3 =>
    intro pt store
    unfold QInner.remove_from_point
    by_cases h : (QInner.node xlo xhi ylo yhi c0 c1 c2 c3).containsPtB pt = true
    · rw [if_pos h]
      intro _
      exact ⟨ih0 pt store, ih1 pt store, ih2 pt store, ih3 pt store⟩
    · rw [if_neg h]
      intro hcont
      exact absurd hcont h

theorem storeGet_mem :
    ∀ (store : List (ℕ × Polygon)) (i : ℕ) (p : Polygon),
      storeGet store i = some p → (i, p) ∈ store := by
  intro store
  induction store with
  | nil => intro i p h; simp [storeGet] at h
  | cons kp rest ih =>
    intro i p h
    unfold storeGet at h
    by_cases hk : kp.1 = i
    · rw [if_pos hk] at h
      simp only [Option.some.injEq] at h
      subst h
      rw [← hk]
      exact List.mem_cons_self _ _
    · rw [if_neg hk] at h
      exact List.mem_cons_of_mem _ (ih i p h)

theorem mem_storeGet_nodup :
    ∀ (store : List (ℕ × Polygon)), (store.map Prod.fst).Nodup →
      ∀ (i : ℕ) (p : Polygon), (i, p) ∈ store → storeGet store i = some p := by
  intro store
  induction store with
  | nil => intro _ i p h; simp at h
  | cons kp rest ih =>
    intro hnd i p h
    simp only [List.map_cons, List.nodup_cons] at hnd
    unfold storeGet
    rcases List.mem_cons.mp h with rfl | hmem
    · rw [if_pos rfl]
    · by_cases hk : kp.1 = i
      · exfalso
        apply hnd.1
        rw [hk]
        exact List.mem_map.mpr ⟨(i, p), hmem, rfl⟩
      · rw [if_neg hk]
        exact ih hnd.2 i p hmem

theorem key_unique_nodup :
    ∀ (store : List (ℕ × Polygon)), (store.map Prod.fst).Nodup →
      ∀ (i : ℕ) (p q : Polygon), (i, p) ∈ store → (i, q) ∈ store → p = q := by
  intro store hnd i p q hp hq
  have h1 := mem_storeGet_nodup store hnd i p hp
  have h2 := mem_storeGet_nodup store hnd i q hq
  have h3 : (some p : Option Polygon) = some q := h1.symm.trans h2
  simpa using h3

theorem storeGet_filter_none (f : ℕ × Polygon → Bool) :
    ∀ (store : List (ℕ × Polygon)) (i : ℕ),
      (∀ p, (i, p) ∈ store → f (i, p) = false) →
      storeGet (store.filter f) i = none := by
  intro store
  induction store with
  | nil => intro i _; rfl
  | cons kp rest ih =>
    intro i hall
    by_cases hf : f kp = true
    · rw [List.filter_cons_of_pos hf]
      unfold storeGet
      by_cases hk : kp.1 = i
      · exfalso
        have : (i, kp.2) ∈ kp :: rest := by
          rw [← hk]
          exact List.mem_cons_self _ _
        have := hall kp.2 this
        rw [← hk] at this
        rw [this] at hf
        simp at hf
      · rw [if_neg hk]
        exact ih i (fun p hp => hall p (List.mem_cons_of_mem _ hp))
    · rw [List.filter_cons_of_neg (by simpa using hf)]
      exact ih i (fun p hp => hall p (List.mem_cons_of_mem _ hp))

theorem filter_length_of_one_removed (f : ℕ × Polygon → Bool) :
    ∀ (store : List (ℕ × Polygon)) (Qid : ℕ) (Q : Polygon),
      (store.map Prod.fst).Nodup → (Qid, Q) ∈ store → f (Qid, Q) = false →
      (∀ i p, (i, p) ∈ store → i ≠ Qid → f (i, p) = true) →
      (store.filter f).length + 1 = store.length := by
  intro store
  induction store with
  | nil => intro Qid Q _ hm; simp at hm
  | cons kp rest ih =>
    intro Qid Q hnd hmem hf hothers
    simp only [List.map_cons, List.nodup_cons] at hnd
    rcases List.mem_cons.mp hmem with heq | hmem2
    · subst heq
      rw [List.filter_cons_of_neg (by simpa using hf)]
      have hrest : rest.filter f = rest := by
        rw [List.filter_eq_self]
        intro kp2 hkp2
        have hne : kp2.1 ≠ Qid := by
          intro hh
          apply hnd.1
          rw [← hh]
          exact List.mem_map.mpr ⟨kp2, hkp2, rfl⟩
        have := hothers kp2.1 kp2.2 (List.mem_cons_of_mem _ hkp2) hne
        simpa using this
      rw [hrest]
      simp
    · have hne : kp.1 ≠ Qid := by
        intro hh
        apply hnd.1
        rw [hh]
        exact List.mem_map.mpr ⟨(Qid, Q), hmem2, rfl⟩
      have hkeep : f kp = true := by
        have := hothers kp.1 kp.2 (List.mem_cons_self _ _) hne
        simpa using this
      rw [List.filter_cons_of_pos hkeep]
      simp only [List.length_cons]
      rw [← ih Qid Q hnd.2 hmem2 hf
        (fun i p hp hne2 => hothers i p (List.mem_cons_of_mem _ hp) hne2)]

/-- A query against a new store that preserves the lookup of a given id
keeps that id in the result. -/
theorem find_in_area_store_mono :
    ∀ (t : QInner) (area : Polygon) (store store2 : List (ℕ × Polygon)) (i : ℕ),
      (∀ p, storeGet store i = some p → storeGet store2 i = some p) →
      i ∈ t.find_in_area area store → i ∈ t.find_in_area area store2 := by
  intro t
  induction t with
  | leaf xlo xhi ylo yhi elems =>
    intro area store store2 i hkeep hi
    unfold QInner.find_in_area at hi ⊢
    by_cases hacc : area.vertices.any (fun v =>
        (QInner.leaf xlo xhi ylo yhi elems).containsPtB v) = true
    · rw [if_pos hacc] at hi ⊢
      rw [List.mem_toFinset, List.mem_filter] at hi ⊢
      obtain ⟨hmem, hcond⟩ := hi
      refine ⟨hmem, ?_⟩
      cases hg : storeGet store i with
      | none => rw [hg] at hcond; simp at hcond
      | some p =>
        rw [hg] at hcond
        rw [hkeep p hg]
        exact hcond
    · rw [if_neg hacc] at hi
      simp at hi
  | node xlo xhi ylo yhi c0 c1 c2 c3 ih0 ih1 ih2 ih3 =>
    intro area store store2 i hkeep hi
    unfold QInner.find_in_area at hi ⊢
    by_cases hacc : area.vertices.any (fun v =>
        (QInner.node xlo xhi ylo yhi c0 c1 c2 c3).containsPtB v) = true
    · rw [if_pos hacc] at hi ⊢
      simp only [Finset.mem_union] at hi ⊢
      rcases hi with ((h | h) | h) | h
      · exact Or.inl (Or.inl (Or.inl (ih0 area store store2 i hkeep h)))
      · exact Or.inl (Or.inl (Or.inr (ih1 area store store2 i hkeep h)))
      · exact Or.inl (Or.inr (ih2 area store store2 i hkeep h))
      · exact Or.inr (ih3 area store store2 i hkeep h)
    · rw [if_neg hacc] at hi
      simp at hi

/-- An id whose polygon does not contain the removal point, and whose
lookup is preserved by the new store, stays in every query result after
the tree removal. -/
theorem find_in_area_preserved_by_remove :
    ∀ (t : QInner) (pt : Vec2) (area : Polygon) (store store2 : List (ℕ × Polygon)) (i : ℕ),
      (∀ p, storeGet store i = some p →
        p.contains_point pt = false ∧ storeGet store2 i = some p) →
      i ∈ t.find_in_area area store →
      i ∈ (t.remove_from_point pt store).find_in_area area store2 := by
  intro t
  induction t with
  | leaf xlo xhi ylo yhi elems =>
    intro pt area store store2 i hkeep hi
    unfold QInner.remove_from_point
    by_cases hcont : (QInner.leaf xlo xhi ylo yhi elems).containsPtB pt = true
    · rw [if_pos hcont]
      unfold QInner.find_in_area at hi ⊢
      by_cases hacc : area.vertices.any (fun v =>
          (QInner.leaf xlo xhi ylo yhi elems).containsPtB v) = true
      · rw [if_pos hacc] at hi
        have hacc2 : (area.vertices.any fun v => (QInner.leaf xlo xhi ylo yhi
            (List.filter (fun i => match storeGet store i with
              | some poly => !poly.contains_point pt
              | none => false) elems)).containsPtB v) = true := hacc
        rw [if_pos hacc2]
        rw [List.mem_toFinset, List.mem_filter] at hi
        rw [List.mem_toFinset, List.mem_filter]
        obtain ⟨hmem, hcond⟩ := hi
        cases hg : storeGet store i with
        | none => rw [hg] at hcond; simp at hcond
        | some p =>
          rw [hg] at hcond
          obtain ⟨hnc, hkeep2⟩ := hkeep p hg
          refine ⟨?_, ?_⟩
          · rw [List.mem_filter]
            refine ⟨hmem, ?_⟩
            rw [hg]
            show (!p.contains_point pt) = true
            rw [hnc]
            rfl
          · rw [hkeep2]
            exact hcond
      · rw [if_neg hacc] at hi
        simp at hi
    · rw [if_neg hcont]
      exact find_in_area_store_mono _ area store store2 i
        (fun p hp => (hkeep p hp).2) hi
  | node xlo xhi ylo yhi c0 c1 c2 c3 ih0 ih1 ih2 ih3 =>
    intro pt area store store2 i hkeep hi
    unfold QInner.remove_from_point
    by_cases hcont : (QInner.node xlo xhi ylo yhi c0 c1 c2 c3).containsPtB pt = true
    · rw [if_pos hcont]
      unfold QInner.find_in_area at hi ⊢
      by_cases hacc : area.vertices.any (fun v =>
          (QInner.node xlo xhi ylo yhi c0 c1 c2 c3).containsPtB v) = true
      · rw [if_pos hacc] at hi
        have hacc2 : (area.vertices.any fun v => (QInner.node xlo xhi ylo yhi
            (c0.remove_from_point pt store) (c1.remove_from_point pt store)
            (c2.remove_from_point pt store) (c3.remove_from_point pt store)).containsPtB v) =
            true := hacc
        rw [if_pos hacc2]
        simp only [Finset.mem_union] at hi ⊢
        rcases hi with ((h | h) | h) | h
        · exact Or.inl (Or.inl (Or.inl (ih0 pt area store store2 i hkeep h)))
        · exact Or.inl (Or.inl (Or.inr (ih1 pt area store store2 i hkeep h)))
        · exact Or.inl (Or.inr (ih2 pt area store store2 i hkeep h))
        · exact Or.inr (ih3 pt area store store2 i hkeep h)
      · rw [if_neg hacc] at hi
        simp at hi
    · rw [if_neg hcont]
      exact find_in_area_store_mono _ area store store2 i
        (fun p hp => (hkeep p hp).2) hi

theorem storeGet_filter_some (f : ℕ × Polygon → Bool) (store : List (ℕ × Polygon))
    (hnodup : (store.map Prod.fst).Nodup) (i : ℕ) (p : Polygon)
    (hmem : (i, p) ∈ store) (hf : f (i, p) = true) :
    storeGet (store.filter f) i = some p := by
  have hsub : List.Sublist ((store.filter f).map Prod.fst) (store.map Prod.fst) :=
    (List.filter_sublist store).map Prod.fst
  have hnd2 : ((store.filter f).map Prod.fst).Nodup := hnodup.sublist hsub
  exact mem_storeGet_nodup _ hnd2 i p (List.mem_filter.mpr ⟨hmem, hf⟩)

/-- C6 as amended.  The removal criterion of the code is contains_point,
so the hypothesis is the effective one: the removal point is reported
inside Q and inside no other stored polygon by contains_point (for a
point strictly inside Q only, and on the boundary of some other stored
polygon, contains_point can also report that other polygon and remove
it, as the counterexample shows).  Under this hypothesis: the length
drops by exactly one, every other entry survives, no query ever returns
Q again, every other id previously returned by a query is still
returned, and the tree structure (no collapse of split nodes) is
preserved. -/
theorem c6_remove_from_point (qt : QuadTree) (pt : Vec2) (Qid : ℕ) (Q : Polygon)
    (hnodup : (qt.store.map Prod.fst).Nodup)
    (hmem : (Qid, Q) ∈ qt.store)
    (hQ : Q.contains_point pt = true)
    (hothers : ∀ i p, (i, p) ∈ qt.store → i ≠ Qid → p.contains_point pt = false) :
    (qt.remove_from_point pt).len + 1 = qt.len ∧
    (∀ i p, (i, p) ∈ qt.store → i ≠ Qid → (i, p) ∈ (qt.remove_from_point pt).store) ∧
    (∀ area, Qid ∉ (qt.remove_from_point pt).find_in_area area) ∧
    (∀ area i, i ≠ Qid → i ∈ qt.find_in_area area →
      i ∈ (qt.remove_from_point pt).find_in_area area) ∧
    (qt.remove_from_point pt).root.shape = qt.root.shape := by
  refine ⟨?_, ?_, ?_, ?_, ?_⟩
  · exact filter_length_of_one_removed _ qt.store Qid Q hnodup hmem
      (by rw [hQ]; rfl)
      (by
        intro i p hp hne
        rw [hothers i p hp hne]
        rfl)
  · intro i p hp hne
    unfold QuadTree.remove_from_point
    simp only
    rw [List.mem_filter]
    refine ⟨hp, ?_⟩
    rw [hothers i p hp hne]
    rfl
  · intro area hq
    obtain ⟨p, hget, _⟩ := find_in_area_sound _ area _ Qid hq
    have hnone : storeGet (qt.store.filter (fun kp => !(kp.2.contains_point pt))) Qid = none := by
      apply storeGet_filter_none
      intro p2 hp2
      have : p2 = Q := key_unique_nodup qt.store hnodup Qid p2 Q hp2 hmem
      subst this
      rw [hQ]
      rfl
    rw [show storeGet (qt.remove_from_point pt).store Qid =
      storeGet (qt.store.filter (fun kp => !(kp.2.contains_point pt))) Qid from rfl] at hget
    rw [hnone] at hget
    exact absurd hget (by simp)
  · intro area i hne hi
    apply find_in_area_preserved_by_remove
    · intro p hp
      have hmem2 := storeGet_mem qt.store i p hp
      have hnc := hothers i p hmem2 hne
      refine ⟨hnc, ?_⟩
      apply storeGet_filter_some _ qt.store hnodup i p hmem2
      rw [hnc]
      rfl
    · exact hi
  · exact remove_from_point_shape qt.root pt qt.store

def c6WitQ : Polygon := Polygon.mk 1 [⟨-1,-1⟩, ⟨1,-1⟩, ⟨0,1⟩]

def c6WitOther : Polygon := Polygon.mk 2 [⟨5,5⟩, ⟨6,5⟩, ⟨5,6⟩]

def c6WitQt : QuadTree :=
  ⟨[(1, c6WitQ), (2, c6WitOther)], QInner.leaf F32_MIN F32_MAX F32_MIN F32_MAX [1, 2]⟩

theorem c6_remove_from_point_witness :
    (c6WitQt.remove_from_point ⟨0, 0⟩).len + 1 = c6WitQt.len ∧
    (∀ i p, (i, p) ∈ c6WitQt.store → i ≠ 1 →
      (i, p) ∈ (c6WitQt.remove_from_point ⟨0, 0⟩).store) ∧
    (∀ area, 1 ∉ (c6WitQt.remove_from_point ⟨0, 0⟩).find_in_area area) ∧
    (∀ area i, i ≠ 1 → i ∈ c6WitQt.find_in_area area →
      i ∈ (c6WitQt.remove_from_point ⟨0, 0⟩).find_in_area area) ∧
    (c6WitQt.remove_from_point ⟨0, 0⟩).root.shape = c6WitQt.root.shape := by
  apply c6_remove_from_point c6WitQt ⟨0, 0⟩ 1 c6WitQ
  · simp [c6WitQt]
  · simp [c6WitQt]
  · norm_num [c6WitQ, Polygon.contains_point, contains_go, Polygon.edges, edgesOf,
      sign_of, crossz, Vec2.sub_def]
  · intro i p hp hne
    simp only [c6WitQt, List.mem_cons, List.not_mem_nil, or_false] at hp
    rcases hp with hp | hp
    · exact absurd (congrArg Prod.fst hp) (by simpa using hne)
    · rw [show p = c6WitOther from congrArg Prod.snd hp]
      norm_num [c6WitOther, Polygon.contains_point, contains_go, Polygon.edges, edgesOf,
        sign_of, crossz, Vec2.sub_def]

def c6Q : Polygon := Polygon.mk 1 [⟨0,-1⟩, ⟨3,0⟩, ⟨0,1⟩]

def c6R : Polygon := Polygon.mk 2 [⟨0,0⟩, ⟨2,0⟩, ⟨1,2⟩]

def c6Qt : QuadTree :=
  ⟨[(1, c6Q), (2, c6R)], QInner.leaf F32_MIN F32_MAX F32_MIN F32_MAX [1, 2]⟩

/-- C6 counterexample: the removal point (1, 0) is strictly inside
polygon Q and strictly inside no other stored polygon — it lies on the
boundary of R — yet contains_point reports it inside R too (the on-edge
cross product is zero, which counts as positive), so the removal deletes
both polygons and len() drops by 2, not by 1. -/
theorem c6_remove_from_point_counterexample :
    strictly_inside c6Q ⟨1, 0⟩ ∧
    ¬ strictly_inside c6R ⟨1, 0⟩ ∧
    c6Qt.len = 2 ∧
    (c6Qt.remove_from_point ⟨1, 0⟩).len = 0 := by
  refine ⟨?_, ?_, rfl, ?_⟩
  · exact ⟨[1/3, 1/3, 1/3], by simp [c6Q],
      by norm_num [List.forall_mem_cons], by norm_num,
      by norm_num [c6Q, wsum, Vec2.smul_def, Vec2.add_def, Vec2.zero_x, Vec2.zero_y]⟩
  · rintro ⟨ws, hlen, hpos, hsum, heq⟩
    simp only [c6R] at hlen heq
    simp only [List.length_cons, List.length_nil] at hlen
    obtain ⟨a, b, c, rfl⟩ := List.length_eq_three.mp hlen
    have hy := congrArg Vec2.y heq
    simp only [wsum, Vec2.smul_def, Vec2.add_def, Vec2.zero_y] at hy
    have hc : 0 < c := hpos c (by simp)
    norm_num at hy
    linarith
  · norm_num [c6Qt, c6Q, c6R, QuadTree.remove_from_point, QuadTree.len,
      Polygon.contains_point, contains_go, Polygon.edges, edgesOf, sign_of, crossz,
      Vec2.sub_def, List.filter]

/-- C10: an id dangling in a leaf (absent from the master mapping) is
invisible at the public interface.  find_in_area resolves every id
through the master store and silently skips a missing one, so it never
returns a dangling id; len counts only the master mapping, whatever the
tree holds; and remove_from_point leaves every leaf it visits free of
dangling ids. -/
theorem c10_dangling_ids_invisible :
    (∀ (t : QInner) (area : Polygon) (store : List (ℕ × Polygon)) (i : ℕ),
      i ∈ t.find_in_area area store →
      ∃ p, storeGet store i = some p ∧ p.collides_with area = true) ∧
    (∀ (store : List (ℕ × Polygon)) (root root2 : QInner),
      QuadTree.len ⟨store, root⟩ = store.length ∧
      QuadTree.len ⟨store, root⟩ = QuadTree.len ⟨store, root2⟩) ∧
    (∀ (t : QInner) (pt : Vec2) (store : List (ℕ × Polygon)),
      cleanAt store pt (t.remove_from_point pt store)) := by
  refine ⟨find_in_area_sound, ?_, remove_from_point_clean⟩
  intro store root root2
  exact ⟨rfl, rfl⟩

theorem c10_dangling_ids_invisible_witness :
    (∃ p, storeGet [(5, c6WitQ)] 5 = some p ∧ p.collides_with c6WitQ = true) ∧
    QuadTree.len ⟨[(5, c6WitQ)], QInner.leaf F32_MIN F32_MAX F32_MIN F32_MAX [5, 77]⟩ = 1 ∧
    cleanAt [(5, c6WitQ)] ⟨0, 0⟩
      ((QInner.leaf F32_MIN F32_MAX F32_MIN F32_MAX [5, 77]).remove_from_point ⟨0, 0⟩
        [(5, c6WitQ)]) := by
  have main := c10_dangling_ids_invisible
  refine ⟨?_, ?_, ?_⟩
  · apply main.1 (QInner.leaf F32_MIN F32_MAX F32_MIN F32_MAX [5, 77]) c6WitQ [(5, c6WitQ)] 5
    norm_num [QInner.find_in_area, QInner.containsPtB, storeGet, c6WitQ, F32_MAX, F32_MIN,
      Polygon.collides_with, Polygon.collision_displacement, sat_go, sat_axes, overlap_on,
      project, update_min, Polygon.edges, edgesOf, perp, dotv, Vec2.sub_def, Vec2.smul_def,
      List.filter]
  · exact (main.2.1 [(5, c6WitQ)] (QInner.leaf F32_MIN F32_MAX F32_MIN F32_MAX [5, 77])
      (QInner.leaf 0 1 0 1 [])).1
  · exact main.2.2 (QInner.leaf F32_MIN F32_MAX F32_MIN F32_MAX [5, 77]) ⟨0, 0⟩ [(5, c6WitQ)]

/-! ## Claim C2: leaf split and subsequent queries -/

/-- C2 as amended.  When a leaf holding exactly MAX_TREE_ENTRIES ids
accepts one more polygon, it becomes an internal node whose four
children are the quadrants of its rectangle split at the midpoint of
both axes, built by re-offering every previously held id (resolved
through the master store) and the new polygon to each child; and every
find_in_area query returns only ids of stored polygons that collide
with the query area, each at most once — so a query overlapping exactly
one stored polygon returns at most that polygon (the counterexample
shows it can return none at all, because of the vertex pre-filter). -/
theorem c2_leaf_split_and_query_soundness (fuel : ℕ) (xlo xhi ylo yhi : ℚ)
    (elems : List ℕ) (poly : Polygon) (store : List (ℕ × Polygon))
    (hfull : elems.length = MAX_TREE_ENTRIES)
    (haccept : poly.vertices.any (fun v =>
      (QInner.leaf xlo xhi ylo yhi elems).containsPtB v) = true) :
    QInner.insertF (fuel + 1) (QInner.leaf xlo xhi ylo yhi elems) poly store =
      (reinsertIdsWith store (fun t p => QInner.insertF fuel t p store)
        (freshQuadrants xlo xhi ylo yhi) (elems ++ [poly.id])).map
        (fun cs => QInner.node xlo xhi ylo yhi cs.1 cs.2.1 cs.2.2.1 cs.2.2.2) ∧
    (∀ (t : QInner) (st : List (ℕ × Polygon)) (area : Polygon) (onlyId : ℕ),
      (∀ i p, storeGet st i = some p → p.collides_with area = true → i = onlyId) →
      t.find_in_area area st ⊆ {onlyId}) := by
  constructor
  · simp only [QInner.insertF]
    rw [if_pos haccept]
    rw [if_pos (show MAX_TREE_ENTRIES < (elems ++ [poly.id]).length from by
      rw [List.length_append, hfull]
      norm_num [MAX_TREE_ENTRIES])]
    cases h : reinsertIdsWith store (fun t p => QInner.insertF fuel t p store)
        (freshQuadrants xlo xhi ylo yhi) (elems ++ [poly.id]) with
    | none => rfl
    | some cs => rfl
  · intro t st area onlyId honly i hi
    obtain ⟨p, hget, hcol⟩ := find_in_area_sound t area st i hi
    rw [Finset.mem_singleton]
    exact honly i p hget hcol

theorem c2_leaf_split_and_query_soundness_witness :
    (QInner.insertF 3 (QInner.leaf 0 100 0 100 [1,2,3,4,5,6,7,8,9,10])
        (Polygon.mk 42 [⟨1,1⟩, ⟨2,1⟩, ⟨1,2⟩]) [] =
      (reinsertIdsWith [] (fun t p => QInner.insertF 2 t p [])
        (freshQuadrants 0 100 0 100) ([1,2,3,4,5,6,7,8,9,10] ++
          [(Polygon.mk 42 [⟨1,1⟩, ⟨2,1⟩, ⟨1,2⟩]).id])).map
        (fun cs => QInner.node 0 100 0 100 cs.1 cs.2.1 cs.2.2.1 cs.2.2.2)) ∧
    (∀ (t : QInner) (st : List (ℕ × Polygon)) (area : Polygon) (onlyId : ℕ),
      (∀ i p, storeGet st i = some p → p.collides_with area = true → i = onlyId) →
      t.find_in_area area st ⊆ {onlyId}) := by
  exact c2_leaf_split_and_query_soundness 2 0 100 0 100 [1,2,3,4,5,6,7,8,9,10]
    (Polygon.mk 42 [⟨1,1⟩, ⟨2,1⟩, ⟨1,2⟩]) []
    (by norm_num [MAX_TREE_ENTRIES])
    (by norm_num [QInner.containsPtB, List.any])

/-! ### The C2 counterexample scenario: eleven pairwise disjoint small
polygons whose insertion splits the root, and a query area that
overlaps exactly one of them (the one stored alone in the top-right
quadrant) but none of whose vertices lies in that quadrant, so the
query returns nothing. -/

def farPoly (k : ℕ) : Polygon :=
  Polygon.mk (k + 1) [⟨-1000 - 3 * k, 1000⟩, ⟨-999 - 3 * k, 1000⟩, ⟨-1000 - 3 * k, 1001⟩]

def qPoly : Polygon := Polygon.mk 11 [⟨1/4, 1/4⟩, ⟨3/4, 1/4⟩, ⟨1/2, 3/4⟩]

def c2Area : Polygon := Polygon.mk 100 [⟨-10, 10⟩, ⟨10, -1⟩, ⟨-10, 1⟩]

def c2Polys : List Polygon :=
  [farPoly 0, farPoly 1, farPoly 2, farPoly 3, farPoly 4, farPoly 5, farPoly 6,
   farPoly 7, farPoly 8, farPoly 9, qPoly]

def c2Step (acc : Option QuadTree) (p : Polygon) : Option QuadTree :=
  match acc with
  | some qt => qt.insertF 3 p
  | none => none

def c2Store10 : List (ℕ × Polygon) :=
  [(1, farPoly 0), (2, farPoly 1), (3, farPoly 2), (4, farPoly 3), (5, farPoly 4),
   (6, farPoly 5), (7, farPoly 6), (8, farPoly 7), (9, farPoly 8), (10, farPoly 9)]

def c2QtAt (k : ℕ) : QuadTree :=
  ⟨c2Store10.take k,
   QInner.leaf F32_MIN F32_MAX F32_MIN F32_MAX ([1,2,3,4,5,6,7,8,9,10].take k)⟩

def c2Final : QuadTree :=
  ⟨c2Store10 ++ [(11, qPoly)],
   QInner.node F32_MIN F32_MAX F32_MIN F32_MAX
     (QInner.leaf F32_MIN 0 0 F32_MAX [1,2,3,4,5,6,7,8,9,10])
     (QInner.leaf 0 F32_MAX 0 F32_MAX [11])
     (QInner.leaf F32_MIN 0 F32_MIN 0 [])
     (QInner.leaf 0 F32_MAX F32_MIN 0 [])⟩

theorem farPoly_project (k : ℕ) : project (farPoly k).vertices ⟨1, 0⟩ =
    some (-1000 - 3 * (k:ℚ), -999 - 3 * (k:ℚ)) := by
  have hk : (0:ℚ) ≤ (k:ℚ) := Nat.cast_nonneg k
  simp only [farPoly, project, dotv, List.foldl_cons, List.foldl_nil, Option.some.injEq,
    Prod.mk.injEq]
  norm_num

theorem qPoly_project : project qPoly.vertices ⟨1, 0⟩ = some (1/4, 3/4) := by
  norm_num [qPoly, project, dotv, min_def, max_def]

theorem c2Area_project : project c2Area.vertices ⟨1, 0⟩ = some (-10, 10) := by
  norm_num [c2Area, project, dotv, min_def, max_def]

theorem far_far_disjoint (k j : ℕ) (h : k < j) :
    ∀ pt, ¬ (inHull (farPoly k) pt ∧ inHull (farPoly j) pt) := by
  rintro pt ⟨h1, h2⟩
  have hbk := inHull_project_bounds h1 (farPoly_project k)
  have hbj := inHull_project_bounds h2 (farPoly_project j)
  simp only at hbk hbj
  have hc : (k:ℚ) + 1 ≤ (j:ℚ) := by exact_mod_cast h
  linarith [hbk.1, hbj.2]

theorem far_q_disjoint (k : ℕ) :
    ∀ pt, ¬ (inHull (farPoly k) pt ∧ inHull qPoly pt) := by
  rintro pt ⟨h1, h2⟩
  have hbk := inHull_project_bounds h1 (farPoly_project k)
  have hbq := inHull_project_bounds h2 qPoly_project
  have hk : (0:ℚ) ≤ (k:ℚ) := Nat.cast_nonneg k
  simp only at hbk hbq
  linarith [hbk.2, hbq.1]

theorem far_area_disjoint (k : ℕ) :
    ∀ pt, ¬ (inHull (farPoly k) pt ∧ inHull c2Area pt) := by
  rintro pt ⟨h1, h2⟩
  have hbk := inHull_project_bounds h1 (farPoly_project k)
  have hba := inHull_project_bounds h2 c2Area_project
  have hk : (0:ℚ) ≤ (k:ℚ) := Nat.cast_nonneg k
  simp only at hbk hba
  linarith [hbk.2, hba.1]


set_option maxHeartbeats 4000000 in
/-- C2 counterexample: inserting the eleven pairwise disjoint polygons
of c2Polys (ten far away in the upper-left quadrant plus qPoly near the
origin in the upper-right quadrant) splits the root into the four
quadrant children, with qPoly stored alone in the upper-right child.
The query polygon c2Area overlaps exactly qPoly among the inserted
polygons — it shares the point (1/2, 5/12) with qPoly, is hull-disjoint
from every far polygon, and even collides with qPoly by the code's own
SAT test — and qPoly is present in the master store; yet find_in_area
returns the empty set, because no vertex of c2Area lies in the
upper-right child rectangle. -/
theorem c2_split_query_counterexample :
    List.foldl c2Step (some QuadTree.new) c2Polys = some c2Final ∧
    List.Pairwise (fun p q => ∀ pt, ¬ (inHull p pt ∧ inHull q pt)) c2Polys ∧
    (inHull c2Area ⟨1/2, 5/12⟩ ∧ inHull qPoly ⟨1/2, 5/12⟩) ∧
    (∀ k : ℕ, k < 10 → ∀ pt, ¬ (inHull (farPoly k) pt ∧ inHull c2Area pt)) ∧
    qPoly.collides_with c2Area = true ∧
    storeGet c2Final.store 11 = some qPoly ∧
    c2Final.find_in_area c2Area = ∅ := by
  have s0 : c2Step (some (c2QtAt 0)) (farPoly 0) = some (c2QtAt 1) := by
    norm_num [c2Step, c2QtAt, c2Store10, farPoly, QuadTree.insertF, QInner.insertF,
      QInner.containsPtB, storeGet, storePut, MAX_TREE_ENTRIES, F32_MAX, F32_MIN,
      List.take]
  have s1 : c2Step (some (c2QtAt 1)) (farPoly 1) = some (c2QtAt 2) := by
    norm_num [c2Step, c2QtAt, c2Store10, farPoly, QuadTree.insertF, QInner.insertF,
      QInner.containsPtB, storeGet, storePut, MAX_TREE_ENTRIES, F32_MAX, F32_MIN,
      List.take]
  have s2 : c2Step (some (c2QtAt 2)) (farPoly 2) = some (c2QtAt 3) := by
    norm_num [c2Step, c2QtAt, c2Store10, farPoly, QuadTree.insertF, QInner.insertF,
      QInner.containsPtB, storeGet, storePut, MAX_TREE_ENTRIES, F32_MAX, F32_MIN,
      List.take]
  have s3 : c2Step (some (c2QtAt 3)) (farPoly 3) = some (c2QtAt 4) := by
    norm_num [c2Step, c2QtAt, c2Store10, farPoly, QuadTree.insertF, QInner.insertF,
      QInner.containsPtB, storeGet, storePut, MAX_TREE_ENTRIES, F32_MAX, F32_MIN,
      List.take]
  have s4 : c2Step (some (c2QtAt 4)) (farPoly 4) = some (c2QtAt 5) := by
    norm_num [c2Step, c2QtAt, c2Store10, farPoly, QuadTree.insertF, QInner.insertF,
      QInner.containsPtB, storeGet, storePut, MAX_TREE_ENTRIES, F32_MAX, F32_MIN,
      List.take]
  have s5 : c2Step (some (c2QtAt 5)) (farPoly 5) = some (c2QtAt 6) := by
    norm_num [c2Step, c2QtAt, c2Store10, farPoly, QuadTree.insertF, QInner.insertF,
      QInner.containsPtB, storeGet, storePut, MAX_TREE_ENTRIES, F32_MAX, F32_MIN,
      List.take]
  have s6 : c2Step (some (c2QtAt 6)) (farPoly 6) = some (c2QtAt 7) := by
    norm_num [c2Step, c2QtAt, c2Store10, farPoly, QuadTree.insertF, QInner.insertF,
      QInner.containsPtB, storeGet, storePut, MAX_TREE_ENTRIES, F32_MAX, F32_MIN,
      List.take]
  have s7 : c2Step (some (c2QtAt 7)) (farPoly 7) = some (c2QtAt 8) := by
    norm_num [c2Step, c2QtAt, c2Store10, farPoly, QuadTree.insertF, QInner.insertF,
      QInner.containsPtB, storeGet, storePut, MAX_TREE_ENTRIES, F32_MAX, F32_MIN,
      List.take]
  have s8 : c2Step (some (c2QtAt 8)) (farPoly 8) = some (c2QtAt 9) := by
    norm_num [c2Step, c2QtAt, c2Store10, farPoly, QuadTree.insertF, QInner.insertF,
      QInner.containsPtB, storeGet, storePut, MAX_TREE_ENTRIES, F32_MAX, F32_MIN,
      List.take]
  have s9 : c2Step (some (c2QtAt 9)) (farPoly 9) = some (c2QtAt 10) := by
    norm_num [c2Step, c2QtAt, c2Store10, farPoly, QuadTree.insertF, QInner.insertF,
      QInner.containsPtB, storeGet, storePut, MAX_TREE_ENTRIES, F32_MAX, F32_MIN,
      List.take]
  have s10 : c2Step (some (c2QtAt 10)) qPoly = some c2Final := by
    norm_num [c2Step, c2QtAt, c2Store10, c2Final, qPoly, farPoly, QuadTree.insertF,
      QInner.insertF, QInner.containsPtB, reinsertIdsWith, freshQuadrants, storeGet,
      storePut, MAX_TREE_ENTRIES, F32_MAX, F32_MIN, List.take]
  refine ⟨?_, ?_, ?_, ?_, ?_, ?_, ?_⟩
  · have e0 : (some QuadTree.new : Option QuadTree) = some (c2QtAt 0) := by
      norm_num [QuadTree.new, c2QtAt, c2Store10, List.take]
    simp only [c2Polys, List.foldl_cons, List.foldl_nil]
    rw [e0, s0, s1, s2, s3, s4, s5, s6, s7, s8, s9, s10]
  · simp only [c2Polys]
    refine List.Pairwise.cons ?_ ?_
    · intro y hy
      simp only [List.mem_cons, List.not_mem_nil, or_false] at hy
      rcases hy with rfl | rfl | rfl | rfl | rfl | rfl | rfl | rfl | rfl | rfl
      exacts [far_far_disjoint 0 1 (by norm_num), far_far_disjoint 0 2 (by norm_num), far_far_disjoint 0 3 (by norm_num), far_far_disjoint 0 4 (by norm_num), far_far_disjoint 0 5 (by norm_num), far_far_disjoint 0 6 (by norm_num), far_far_disjoint 0 7 (by norm_num), far_far_disjoint 0 8 (by norm_num), far_far_disjoint 0 9 (by norm_num), far_q_disjoint 0]
    refine List.Pairwise.cons ?_ ?_
    · intro y hy
      simp only [List.mem_cons, List.not_mem_nil, or_false] at hy
      rcases hy with rfl | rfl | rfl | rfl | rfl | rfl | rfl | rfl | rfl
      exacts [far_far_disjoint 1 2 (by norm_num), far_far_disjoint 1 3 (by norm_num), far_far_disjoint 1 4 (by norm_num), far_far_disjoint 1 5 (by norm_num), far_far_disjoint 1 6 (by norm_num), far_far_disjoint 1 7 (by norm_num), far_far_disjoint 1 8 (by norm_num), far_far_disjoint 1 9 (by norm_num), far_q_disjoint 1]
    refine List.Pairwise.cons ?_ ?_
    · intro y hy
      simp only [List.mem_cons, List.not_mem_nil, or_false] at hy
      rcases hy with rfl | rfl | rfl | rfl | rfl | rfl | rfl | rfl
      exacts [far_far_disjoint 2 3 (by norm_num), far_far_disjoint 2 4 (by norm_num), far_far_disjoint 2 5 (by norm_num), far_far_disjoint 2 6 (by norm_num), far_far_disjoint 2 7 (by norm_num), far_far_disjoint 2 8 (by norm_num), far_far_disjoint 2 9 (by norm_num), far_q_disjoint 2]
    refine List.Pairwise.cons ?_ ?_
    · intro y hy
      simp only [List.mem_cons, List.not_mem_nil, or_false] at hy
      rcases hy with rfl | rfl | rfl | rfl | rfl | rfl | rfl
      exacts [far_far_disjoint 3 4 (by norm_num), far_far_disjoint 3 5 (by norm_num), far_far_disjoint 3 6 (by norm_num), far_far_disjoint 3 7 (by norm_num), far_far_disjoint 3 8 (by norm_num), far_far_disjoint 3 9 (by norm_num), far_q_disjoint 3]
    refine List.Pairwise.cons ?_ ?_
    · intro y hy
      simp only [List.mem_cons, List.not_mem_nil, or_false] at hy
      rcases hy with rfl | rfl | rfl | rfl | rfl | rfl
      exacts [far_far_disjoint 4 5 (by norm_num), far_far_disjoint 4 6 (by norm_num), far_far_disjoint 4 7 (by norm_num), far_far_disjoint 4 8 (by norm_num), far_far_disjoint 4 9 (by norm_num), far_q_disjoint 4]
    refine List.Pairwise.cons ?_ ?_
    · intro y hy
      simp only [List.mem_cons, List.not_mem_nil, or_false] at hy
      rcases hy with rfl | rfl | rfl | rfl | rfl
      exacts [far_far_disjoint 5 6 (by norm_num), far_far_disjoint 5 7 (by norm_num), far_far_disjoint 5 8 (by norm_num), far_far_disjoint 5 9 (by norm_num), far_q_disjoint 5]
    refine List.Pairwise.cons ?_ ?_
    · intro y hy
      simp only [List.mem_cons, List.not_mem_nil, or_false] at hy
      rcases hy with rfl | rfl | rfl | rfl
      exacts [far_far_disjoint 6 7 (by norm_num), far_far_disjoint 6 8 (by norm_num), far_far_disjoint 6 9 (by norm_num), far_q_disjoint 6]
    refine List.Pairwise.cons ?_ ?_
    · intro y hy
      simp only [List.mem_cons, List.not_mem_nil, or_false] at hy
      rcases hy with rfl | rfl | rfl
      exacts [far_far_disjoint 7 8 (by norm_num), far_far_disjoint 7 9 (by norm_num), far_q_disjoint 7]
    refine List.Pairwise.cons ?_ ?_
    · intro y hy
      simp only [List.mem_cons, List.not_mem_nil, or_false] at hy
      rcases hy with rfl | rfl
      exacts [far_far_disjoint 8 9 (by norm_num), far_q_disjoint 8]
    refine List.Pairwise.cons ?_ ?_
    · intro y hy
      simp only [List.mem_cons, List.not_mem_nil, or_false] at hy
      rcases hy with rfl
      exacts [far_q_disjoint 9]
    simp
  · constructor
    · exact ⟨[7/135, 21/40, 457/1080], by simp [c2Area],
        by norm_num [List.forall_mem_cons], by norm_num,
        by norm_num [c2Area, wsum, Vec2.smul_def, Vec2.add_def, Vec2.zero_x, Vec2.zero_y]⟩
    · exact ⟨[1/3, 1/3, 1/3], by simp [qPoly],
        by norm_num [List.forall_mem_cons], by norm_num,
        by norm_num [qPoly, wsum, Vec2.smul_def, Vec2.add_def, Vec2.zero_x, Vec2.zero_y]⟩
  · intro k _
    exact far_area_disjoint k
  · norm_num [qPoly, c2Area, Polygon.collides_with, Polygon.collision_displacement,
      sat_go, sat_axes, overlap_on, project, update_min, Polygon.edges, edgesOf,
      perp, dotv, Vec2.sub_def, Vec2.smul_def]
  · norm_num [c2Final, c2Store10, storeGet]
  · norm_num [c2Final, c2Store10, QuadTree.find_in_area, QInner.find_in_area,
      QInner.containsPtB, storeGet, farPoly, qPoly, c2Area, F32_MAX, F32_MIN,
      Polygon.collides_with, Polygon.collision_displacement, sat_go, sat_axes,
      overlap_on, project, update_min, Polygon.edges, edgesOf, perp, dotv,
      Vec2.sub_def, Vec2.smul_def]

/-! ## The world generator (src/engine/world.rs)

The builder state is the WorldBuilder struct.  Transcendental functions
(cos, sin and the atan2 behind glam angle_to) cannot be evaluated
exactly; they are supplied as an explicit oracle `Trig`, and every
generator theorem below holds for an arbitrary oracle.  Randomness (the
midpoint choice, the carving coin and the shuffle) and the elapsed-time
samples of Instant::elapsed are likewise supplied per loop iteration as
a `StepRand` value. -/

/-- The f32 constant `SQRT_3_OVER_2 = 1.732_050_8 / 2.`. -/
def SQRT_3_OVER_2 : ℚ := 1.7320508 / 2

/-- The f32 constant `std::f32::consts::FRAC_PI_3`; the only property
used below is that it is non-zero. -/
def FRAC_PI_3 : ℚ := 1.0471976

inductive BuildStage where
  | generatingGrid
  | carving
deriving DecidableEq

/-- Carver directions are f32 angle values produced by the trig oracle;
they are carried as plain rationals. -/
structure WorldBuilder where
  tile_size : ℚ
  dimensions : Vec2
  generated_tiles : List Polygon
  queue : List (Vec2 × Bool × Bool)
  possible_carvers : List (Vec2 × ℚ)
  carvers : List (Vec2 × ℚ)
  stage : BuildStage
  start_num_tiles : ℕ
deriving DecidableEq

/-- The transcendental oracle: the f32 approximations of cos, sin and
atan2 (y first, x second, as in glam). -/
structure Trig where
  cos : ℚ → ℚ
  sin : ℚ → ℚ
  atan2 : ℚ → ℚ → ℚ

/-- One loop iteration of randomness and time: the midpoint choice of
SliceRandom::choose, the carving coin of rng.random, the shuffle applied
at the grid-to-carving transition, and the elapsed-time sample checked
against the budget at the end of the iteration. -/
structure StepRand where
  midpointIdx : ℕ
  coin : Bool
  shuffle : List (Vec2 × ℚ) → List (Vec2 × ℚ)
  elapsed : ℚ

def WorldBuilder.new (tile_size : ℚ) (dimensions : Vec2) : WorldBuilder :=
  { tile_size := tile_size
    dimensions := dimensions
    generated_tiles := []
    queue := [(⟨-dimensions.x / 2, dimensions.y / 2⟩, false, true)]
    possible_carvers := []
    carvers := []
    stage := BuildStage.generatingGrid
    start_num_tiles := 0 }

/-- The triangle generated for one grid cell. -/
def gridCellTriangle (tile_size : ℚ) (center : Vec2) (do_rotation : Bool) : Polygon :=
  Polygon.new_triangle 0 tile_size center (if do_rotation then rotPi else rotZero)

/-- The pseudo-randomly chosen edge midpoint of a tile:
`midpoints.choose(&mut rng)`, modelled by an oracle index reduced modulo
the length.  The source unwraps the Option; a triangle always has three
midpoints. -/
def gridChosenMidpoint (tri : Polygon) (idx : ℕ) : Vec2 :=
  let midpoints := tri.edges.map (fun e => midpointv e.1 e.2)
  midpoints.getD (idx % midpoints.length) ⟨0, 0⟩

/-- `WorldBuilder::process_queue`.  The stored carver direction is
`center.angle_to(*midpoint)`, which glam computes as
`(center.perp_dot(midpoint)).atan2(center.dot(midpoint))`: the angle
between the two position vectors, supplied here by the oracle applied to
exactly those two arguments. -/
def process_queue (trig : Trig) (r : StepRand) (b : WorldBuilder) : WorldBuilder :=
  match b.queue with
  | [] => b
  | (center, do_rotation, next_row_do_rotation) :: qrest =>
    let distance := b.tile_size * SQRT_3_OVER_2
    let generated := gridCellTriangle b.tile_size center do_rotation
    let midpoint := gridChosenMidpoint generated r.midpointIdx
    let direction := trig.atan2 (crossz center midpoint) (dotv center midpoint)
    let b2 := { b with
      possible_carvers := b.possible_carvers ++ [(center, direction)]
      generated_tiles := b.generated_tiles ++ [generated]
      queue := qrest }
    let next_center := center + ⟨b.tile_size / 2, 0⟩
    if next_center.x > b.dimensions.x / 2 then
      let next_center2 : Vec2 := ⟨-b.dimensions.x / 2, center.y - distance⟩
      if next_center2.y < -b.dimensions.y / 2 then b2
      else { b2 with queue := b2.queue ++ [(next_center2, next_row_do_rotation, !next_row_do_rotation)] }
    else
      { b2 with queue := b2.queue ++ [(next_center, !do_rotation, next_row_do_rotation)] }

/-- `WorldBuilder::find_polygon`: index of the first tile containing the
point. -/
def find_polygon_go : List Polygon → Vec2 → ℕ → Option ℕ
  | [], _, _ => none
  | t :: rest, pt, idx =>
    if t.contains_point pt then some idx else find_polygon_go rest pt (idx + 1)

/-- `Vec::swap_remove`: replace the element at the index with the last
element and drop the last (order is not preserved).  On the empty list
the source panics; the call sites below always pass an index found in a
non-empty list. -/
def swapRemove (l : List Polygon) (idx : ℕ) : List Polygon :=
  match l.getLast? with
  | none => l
  | some last => (l.set idx last).dropLast

/-- The tile list after one carver processes its position. -/
def afterCarve (tiles : List Polygon) (pos : Vec2) : List Polygon :=
  match find_polygon_go tiles pos 0 with
  | some idx => swapRemove tiles idx
  | none => tiles

/-- The surviving-ratio test
`generated_tiles.len() as f32 / start_num_tiles as f32 > 0.5`.  For
start = 0 the f32 quotient is NaN (len = 0, compares false) or +infinity
(len > 0, compares true); for 0 < start < 2^24 the f32 comparison agrees
with the exact rational one, which is what the model uses. -/
def ratioGtHalf (len start : ℕ) : Bool :=
  if start = 0 then decide (0 < len)
  else decide ((len : ℚ) / (start : ℚ) > 1/2)

/-- The `[0..10]` slice of the shuffled possible-carver list: defined
exactly when at least 10 entries exist; `none` is the slice panic of the
source. -/
def promote (l : List (Vec2 × ℚ)) : Option (List (Vec2 × ℚ)) :=
  if 10 ≤ l.length then some (l.take 10) else none

inductive GenEvent where
  | cont (b : WorldBuilder)
  | done (tiles : List Polygon)
  | panic
deriving DecidableEq

/-- One iteration of the `loop` in `WorldBuilder::generate`, before the
elapsed-time check. -/
def genStep (trig : Trig) (r : StepRand) (b : WorldBuilder) : GenEvent :=
  match b.stage with
  | BuildStage.generatingGrid =>
    let b2 := process_queue trig r b
    if b2.queue.isEmpty then
      match promote (r.shuffle b2.possible_carvers) with
      | some first10 =>
        GenEvent.cont { b2 with
          start_num_tiles := b2.generated_tiles.length
          possible_carvers := r.shuffle b2.possible_carvers
          carvers := first10
          stage := BuildStage.carving }
      | none => GenEvent.panic
    else GenEvent.cont b2
  | BuildStage.carving =>
    match b.carvers with
    | [] => GenEvent.done b.generated_tiles
    | (carver, direction) :: crest =>
      let tiles2 := afterCarve b.generated_tiles carver
      if ratioGtHalf tiles2.length b.start_num_tiles then
        let next_carver := carver +
          ⟨trig.cos direction * b.tile_size, trig.sin direction * b.tile_size⟩
        let next_direction := if r.coin then direction + FRAC_PI_3 else direction - FRAC_PI_3
        GenEvent.cont { b with
          generated_tiles := tiles2
          carvers := crest ++ [(next_carver, next_direction)] }
      else
        GenEvent.cont { b with generated_tiles := tiles2, carvers := crest }

inductive GenResult where
  | finished (tiles : List Polygon)
  | stillGenerating (b : WorldBuilder)
  | panicked
  | outOfOracle (b : WorldBuilder)
deriving DecidableEq

/-- `WorldBuilder::generate`: the loop performs one unit of work, then
compares the elapsed time against the budget and returns None (modelled
as stillGenerating, the state preserved) once exceeded.  The oracle list
supplies each iteration; running out of oracle entries ends in the
artificial outOfOracle (the source simply keeps looping). -/
def generate (trig : Trig) (budget : ℚ) : List StepRand → WorldBuilder → GenResult
  | [], b => GenResult.outOfOracle b
  | r :: rest, b =>
    match genStep trig r b with
    | GenEvent.done w => GenResult.finished w
    | GenEvent.panic => GenResult.panicked
    | GenEvent.cont b2 =>
      if r.elapsed > budget then GenResult.stillGenerating b2
      else generate trig budget rest b2

/-! ## Claim C4: the carving stage and the final surviving-tile ratio -/

/-- The carving invariant: an empty carver queue in the carving stage
certifies that the surviving-tile count is at most half the recorded
grid-stage count. -/
def CarveInv (b : WorldBuilder) : Prop :=
  b.stage = BuildStage.carving → b.carvers = [] →
    2 * b.generated_tiles.length ≤ b.start_num_tiles

theorem ratioGtHalf_false {len start : ℕ} (h : ratioGtHalf len start = false) :
    2 * len ≤ start := by
  unfold ratioGtHalf at h
  by_cases h0 : start = 0
  · rw [if_pos h0] at h
    simp only [decide_eq_false_iff_not, not_lt, Nat.le_zero] at h
    omega
  · rw [if_neg h0] at h
    simp only [decide_eq_false_iff_not, not_lt] at h
    have hs : (0:ℚ) < (start:ℚ) := by
      exact_mod_cast Nat.pos_of_ne_zero h0
    rw [div_le_iff hs] at h
    have h2 : (2 * len : ℚ) ≤ (start : ℚ) := by linarith
    exact_mod_cast h2

theorem process_queue_stage (trig : Trig) (r : StepRand) (b : WorldBuilder) :
    (process_queue trig r b).stage = b.stage := by
  obtain ⟨ts, dims, tiles, queue, pcs, cvs, stage, start⟩ := b
  cases queue with
  | nil => rfl
  | cons cell qrest =>
    obtain ⟨center, dr, nrdr⟩ := cell
    simp only [process_queue]
    split_ifs <;> rfl

theorem process_queue_start (trig : Trig) (r : StepRand) (b : WorldBuilder) :
    (process_queue trig r b).start_num_tiles = b.start_num_tiles := by
  obtain ⟨ts, dims, tiles, queue, pcs, cvs, stage, start⟩ := b
  cases queue with
  | nil => rfl
  | cons cell qrest =>
    obtain ⟨center, dr, nrdr⟩ := cell
    simp only [process_queue]
    split_ifs <;> rfl

theorem process_queue_tiles_len (trig : Trig) (r : StepRand) (b : WorldBuilder)
    (h : b.queue ≠ []) :
    (process_queue trig r b).generated_tiles.length = b.generated_tiles.length + 1 := by
  obtain ⟨ts, dims, tiles, queue, pcs, cvs, stage, start⟩ := b
  cases queue with
  | nil => exact absurd rfl h
  | cons cell qrest =>
    obtain ⟨center, dr, nrdr⟩ := cell
    simp only [process_queue]
    split_ifs <;> simp

theorem promote_length {l first10 : List (Vec2 × ℚ)} (h : promote l = some first10) :
    first10.length = 10 := by
  unfold promote at h
  by_cases hl : 10 ≤ l.length
  · rw [if_pos hl] at h
    simp only [Option.some.injEq] at h
    subst h
    simp [List.length_take]
    omega
  · rw [if_neg hl] at h
    exact absurd h (by simp)

/-- Every continuation state of one generator iteration satisfies the
carving invariant: a carver is dropped (rather than re-enqueued) only
when the ratio test already certifies the bound, and every other
continuation leaves a non-empty carver queue in the carving stage.
Carving steps also preserve the stage and the recorded grid count. -/
theorem carve_inv_step (trig : Trig) (r : StepRand) (b b2 : WorldBuilder)
    (h : genStep trig r b = GenEvent.cont b2) :
    CarveInv b2 ∧ (b.stage = BuildStage.carving →
      b2.stage = BuildStage.carving ∧ b2.start_num_tiles = b.start_num_tiles) := by
  obtain ⟨ts, dims, tiles, queue, pcs, cvs, stage, start⟩ := b
  cases stage with
  | generatingGrid =>
    simp only [genStep] at h
    by_cases hq : (process_queue trig r ⟨ts, dims, tiles, queue, pcs, cvs,
        BuildStage.generatingGrid, start⟩).queue.isEmpty = true
    · rw [if_pos hq] at h
      cases hp : promote (r.shuffle (process_queue trig r ⟨ts, dims, tiles, queue, pcs, cvs,
          BuildStage.generatingGrid, start⟩).possible_carvers) with
      | none => rw [hp] at h; exact absurd h (by simp)
      | some first10 =>
        rw [hp] at h
        simp only [GenEvent.cont.injEq] at h
        subst h
        constructor
        · intro _ hcvs
          have := promote_length hp
          rw [show ({ process_queue trig r ⟨ts, dims, tiles, queue, pcs, cvs,
            BuildStage.generatingGrid, start⟩ with
            start_num_tiles := (process_queue trig r ⟨ts, dims, tiles, queue, pcs, cvs,
              BuildStage.generatingGrid, start⟩).generated_tiles.length,
            possible_carvers := r.shuffle (process_queue trig r ⟨ts, dims, tiles, queue, pcs,
              cvs, BuildStage.generatingGrid, start⟩).possible_carvers,
            carvers := first10,
            stage := BuildStage.carving } : WorldBuilder).carvers = first10 from rfl] at hcvs
          rw [hcvs] at this
          simp at this
        · intro hst
          exact absurd hst (by simp)
    · rw [if_neg hq] at h
      simp only [GenEvent.cont.injEq] at h
      subst h
      constructor
      · intro hst
        have := process_queue_stage trig r ⟨ts, dims, tiles, queue, pcs, cvs,
          BuildStage.generatingGrid, start⟩
        rw [hst] at this
        exact absurd this.symm (by simp)
      · intro hst
        exact absurd hst (by simp)
  | carving =>
    cases cvs with
    | nil =>
      simp only [genStep] at h
      exact absurd h (by simp)
    | cons cd crest =>
      obtain ⟨carver, direction⟩ := cd
      simp only [genStep] at h
      by_cases hr : ratioGtHalf (afterCarve tiles carver).length start = true
      · rw [if_pos hr] at h
        simp only [GenEvent.cont.injEq] at h
        subst h
        refine ⟨?_, fun _ => ⟨rfl, rfl⟩⟩
        intro _ hcvs
        simp only at hcvs
        exact absurd hcvs (by simp)
      · rw [if_neg hr] at h
        simp only [GenEvent.cont.injEq] at h
        subst h
        refine ⟨?_, fun _ => ⟨rfl, rfl⟩⟩
        intro _ _
        simp only
        exact ratioGtHalf_false (by simpa using hr)

/-- A finished world is returned only when the carving invariant
certifies the ratio bound. -/
theorem carve_done_bound (trig : Trig) (r : StepRand) (b : WorldBuilder)
    (w : List Polygon) (hinv : CarveInv b) (h : genStep trig r b = GenEvent.done w) :
    2 * w.length ≤ b.start_num_tiles ∧
    0 ≤ (w.length : ℚ) / (b.start_num_tiles : ℚ) ∧
    (w.length : ℚ) / (b.start_num_tiles : ℚ) ≤ 1/2 := by
  obtain ⟨ts, dims, tiles, queue, pcs, cvs, stage, start⟩ := b
  cases stage with
  | generatingGrid =>
    simp only [genStep] at h
    by_cases hq : (process_queue trig r ⟨ts, dims, tiles, queue, pcs, cvs,
        BuildStage.generatingGrid, start⟩).queue.isEmpty = true
    · rw [if_pos hq] at h
      cases hp : promote (r.shuffle (process_queue trig r ⟨ts, dims, tiles, queue, pcs, cvs,
          BuildStage.generatingGrid, start⟩).possible_carvers) with
      | none => rw [hp] at h; exact absurd h (by simp)
      | some first10 => rw [hp] at h; exact absurd h (by simp)
    · rw [if_neg hq] at h
      exact absurd h (by simp)
  | carving =>
    cases cvs with
    | nil =>
      simp only [genStep, GenEvent.done.injEq] at h
      subst h
      have hb := hinv rfl rfl
      simp only at hb
      refine ⟨hb, ?_, ?_⟩
      · positivity
      · by_cases h0 : start = 0
        · subst h0
          have : tiles.length = 0 := by omega
          rw [this]
          norm_num
        · have hs : (0:ℚ) < (start:ℚ) := by exact_mod_cast Nat.pos_of_ne_zero h0
          rw [div_le_iff hs]
          have : ((2 * tiles.length : ℕ) : ℚ) ≤ ((start : ℕ) : ℚ) := by exact_mod_cast hb
          push_cast at this
          linarith
    | cons cd crest =>
      obtain ⟨carver, direction⟩ := cd
      simp only [genStep] at h
      by_cases hr : ratioGtHalf (afterCarve tiles carver).length start = true
      · rw [if_pos hr] at h; exact absurd h (by simp)
      · rw [if_neg hr] at h; exact absurd h (by simp)

/-- A processed carver is re-enqueued exactly when the surviving ratio
after its removal is still above one half. -/
theorem carve_reenqueue_iff (trig : Trig) (r : StepRand) (b : WorldBuilder)
    (cd : Vec2 × ℚ) (crest : List (Vec2 × ℚ))
    (hst : b.stage = BuildStage.carving) (hcv : b.carvers = cd :: crest) :
    ∃ b2, genStep trig r b = GenEvent.cont b2 ∧
      b2.generated_tiles = afterCarve b.generated_tiles cd.1 ∧
      (ratioGtHalf (afterCarve b.generated_tiles cd.1).length b.start_num_tiles = true →
        b2.carvers.length = crest.length + 1) ∧
      (ratioGtHalf (afterCarve b.generated_tiles cd.1).length b.start_num_tiles = false →
        b2.carvers = crest) := by
  obtain ⟨ts, dims, tiles, queue, pcs, cvs, stage, start⟩ := b
  simp only at hst hcv
  subst hst
  subst hcv
  obtain ⟨carver, direction⟩ := cd
  simp only [genStep]
  by_cases hr : ratioGtHalf (afterCarve tiles carver).length start = true
  · rw [if_pos hr]
    refine ⟨_, rfl, rfl, fun _ => ?_, fun hf => ?_⟩
    · simp
    · rw [hf] at hr; exact absurd hr (by simp)
  · rw [if_neg hr]
    refine ⟨_, rfl, rfl, fun ht => ?_, fun _ => rfl⟩
    rw [ht] at hr; exact absurd rfl hr

/-- Whenever generate returns a finished World, the surviving-tile count
is at most half the grid count recorded in the state that finished (for
a run already in the carving stage, the count recorded in the starting
state). -/
theorem carve_finished_bound (trig : Trig) :
    ∀ (steps : List StepRand) (budget : ℚ) (b : WorldBuilder) (w : List Polygon),
      CarveInv b → generate trig budget steps b = GenResult.finished w →
      ∃ s : ℕ, 2 * w.length ≤ s ∧
        0 ≤ (w.length : ℚ) / (s : ℚ) ∧ (w.length : ℚ) / (s : ℚ) ≤ 1/2 ∧
        (b.stage = BuildStage.carving → s = b.start_num_tiles) := by
  intro steps
  induction steps with
  | nil =>
    intro budget b w _ h
    simp only [generate] at h
    exact absurd h (by simp)
  | cons r rest ih =>
    intro budget b w hinv h
    simp only [generate] at h
    cases hg : genStep trig r b with
    | done w0 =>
      rw [hg] at h
      simp only [GenResult.finished.injEq] at h
      subst h
      obtain ⟨h1, h2, h3⟩ := carve_done_bound trig r b w0 hinv hg
      exact ⟨b.start_num_tiles, h1, h2, h3, fun _ => rfl⟩
    | panic =>
      rw [hg] at h
      exact absurd h (by simp)
    | cont b2 =>
      rw [hg] at h
      have h2 : (if r.elapsed > budget then GenResult.stillGenerating b2
          else generate trig budget rest b2) = GenResult.finished w := h
      by_cases he : r.elapsed > budget
      · rw [if_pos he] at h2
        exact absurd h2 (by simp)
      · rw [if_neg he] at h2
        obtain ⟨hinv2, hpres⟩ := carve_inv_step trig r b b2 hg
        obtain ⟨s, hs1, hs2, hs3, hs4⟩ := ih budget b2 w hinv2 h2
        refine ⟨s, hs1, hs2, hs3, ?_⟩
        intro hst
        obtain ⟨hst2, hstart2⟩ := hpres hst
        rw [hs4 hst2, hstart2]

/-- C4: whenever generate returns a finished World, the surviving-tile
count divided by the count recorded at the end of the grid stage is
between 0 and one half inclusive; a processed carver is re-enqueued
exactly when the ratio after its removal is still strictly above one
half, and every continuation state keeps the invariant that an empty
carver queue certifies the bound. -/
theorem c4_final_ratio_at_most_half (trig : Trig) :
    (∀ (r : StepRand) (b b2 : WorldBuilder), genStep trig r b = GenEvent.cont b2 →
      CarveInv b2 ∧ (b.stage = BuildStage.carving →
        b2.stage = BuildStage.carving ∧ b2.start_num_tiles = b.start_num_tiles)) ∧
    (∀ (r : StepRand) (b : WorldBuilder) (w : List Polygon),
      CarveInv b → genStep trig r b = GenEvent.done w →
      2 * w.length ≤ b.start_num_tiles ∧
      0 ≤ (w.length : ℚ) / (b.start_num_tiles : ℚ) ∧
      (w.length : ℚ) / (b.start_num_tiles : ℚ) ≤ 1/2) ∧
    (∀ (r : StepRand) (b : WorldBuilder) (cd : Vec2 × ℚ) (crest : List (Vec2 × ℚ)),
      b.stage = BuildStage.carving → b.carvers = cd :: crest →
      ∃ b2, genStep trig r b = GenEvent.cont b2 ∧
        b2.generated_tiles = afterCarve b.generated_tiles cd.1 ∧
        (ratioGtHalf (afterCarve b.generated_tiles cd.1).length b.start_num_tiles = true →
          b2.carvers.length = crest.length + 1) ∧
        (ratioGtHalf (afterCarve b.generated_tiles cd.1).length b.start_num_tiles = false →
          b2.carvers = crest)) ∧
    (∀ (steps : List StepRand) (budget : ℚ) (b : WorldBuilder) (w : List Polygon),
      CarveInv b → generate trig budget steps b = GenResult.finished w →
      ∃ s : ℕ, 2 * w.length ≤ s ∧
        0 ≤ (w.length : ℚ) / (s : ℚ) ∧ (w.length : ℚ) / (s : ℚ) ≤ 1/2 ∧
        (b.stage = BuildStage.carving → s = b.start_num_tiles)) :=
  ⟨carve_inv_step trig, carve_done_bound trig, carve_reenqueue_iff trig,
    carve_finished_bound trig⟩

/-! ## Claims C5, C8, C9: promotion, carver angles, zero-budget progress -/

/-- A concrete transcendental oracle used in concrete scenarios. -/
def trigId : Trig := ⟨fun _ => 1, fun _ => 0, fun _ _ => 0⟩

/-- A concrete randomness sample: midpoint choice 0, coin false, identity
shuffle, one time unit elapsed. -/
def srand0 : StepRand := ⟨0, false, id, 1⟩

/-- A grid-stage state one cell away from completion whose
possible-carver list will reach exactly 10 entries. -/
def c5B : WorldBuilder :=
  ⟨1, ⟨0, 0⟩, [], [(⟨0, 0⟩, false, true)], List.replicate 9 (⟨0, 0⟩, 0), [],
    BuildStage.generatingGrid, 0⟩

/-- C5: when the grid-stage cell queue empties, the possible-carver list
is shuffled; if it holds at least 10 entries, exactly its first 10
become the active carvers and the stage transitions to carving with the
tile count recorded, and if it holds fewer than 10 entries the slice of
the source panics. -/
theorem c5_promotion (trig : Trig) (r : StepRand) (b : WorldBuilder)
    (hst : b.stage = BuildStage.generatingGrid)
    (hq : (process_queue trig r b).queue = []) :
    (10 ≤ (r.shuffle (process_queue trig r b).possible_carvers).length →
      genStep trig r b = GenEvent.cont { process_queue trig r b with
        start_num_tiles := (process_queue trig r b).generated_tiles.length
        possible_carvers := r.shuffle (process_queue trig r b).possible_carvers
        carvers := (r.shuffle (process_queue trig r b).possible_carvers).take 10
        stage := BuildStage.carving }) ∧
    ((r.shuffle (process_queue trig r b).possible_carvers).length < 10 →
      genStep trig r b = GenEvent.panic) := by
  obtain ⟨ts, dims, tiles, queue, pcs, cvs, stage, start⟩ := b
  simp only at hst
  subst hst
  have hempty : (process_queue trig r ⟨ts, dims, tiles, queue, pcs, cvs,
      BuildStage.generatingGrid, start⟩).queue.isEmpty = true := by
    rw [hq]; rfl
  constructor
  · intro h10
    simp only [genStep]
    rw [if_pos hempty]
    rw [show promote (r.shuffle (process_queue trig r ⟨ts, dims, tiles, queue, pcs, cvs,
        BuildStage.generatingGrid, start⟩).possible_carvers) =
        some ((r.shuffle (process_queue trig r ⟨ts, dims, tiles, queue, pcs, cvs,
          BuildStage.generatingGrid, start⟩).possible_carvers).take 10) from by
      unfold promote; rw [if_pos h10]]
  · intro hlt
    simp only [genStep]
    rw [if_pos hempty]
    rw [show promote (r.shuffle (process_queue trig r ⟨ts, dims, tiles, queue, pcs, cvs,
        BuildStage.generatingGrid, start⟩).possible_carvers) = none from by
      unfold promote; rw [if_neg (by omega)]]

/-- C5 witness: a concrete grid state whose queue empties with exactly
10 possible carvers transitions to carving with those 10 as the active
carvers. -/
theorem c5_promotion_witness :
    genStep trigId srand0 c5B = GenEvent.cont { process_queue trigId srand0 c5B with
      start_num_tiles := (process_queue trigId srand0 c5B).generated_tiles.length
      possible_carvers := srand0.shuffle (process_queue trigId srand0 c5B).possible_carvers
      carvers := (srand0.shuffle (process_queue trigId srand0 c5B).possible_carvers).take 10
      stage := BuildStage.carving } := by
  refine (c5_promotion trigId srand0 c5B rfl ?_).1 ?_
  · norm_num [process_queue, c5B, SQRT_3_OVER_2, Vec2.add_def]
  · norm_num [process_queue, c5B, srand0, SQRT_3_OVER_2, Vec2.add_def]

/-- C5 counterexample: a 1-by-1 region produces a single tile; the queue
empties with only one possible carver and the promotion slice panics. -/
theorem c5_promotion_counterexample :
    (process_queue trigId srand0 (WorldBuilder.new 1 ⟨0, 0⟩)).possible_carvers.length = 1 ∧
    (process_queue trigId srand0 (WorldBuilder.new 1 ⟨0, 0⟩)).queue = [] ∧
    genStep trigId srand0 (WorldBuilder.new 1 ⟨0, 0⟩) = GenEvent.panic := by
  refine ⟨?_, ?_, ?_⟩
  · norm_num [process_queue, WorldBuilder.new, SQRT_3_OVER_2, Vec2.add_def]
  · norm_num [process_queue, WorldBuilder.new, SQRT_3_OVER_2, Vec2.add_def]
  · norm_num [genStep, process_queue, promote, WorldBuilder.new, srand0, SQRT_3_OVER_2,
      Vec2.add_def]

/-- C8: the angle stored with a possible-carver seed is
`center.angle_to(midpoint)` = atan2(perp_dot, dot) applied to the two
POSITION vectors, not the direction of the vector from the center to the
midpoint.  For the first cell of a 20-by-20 region (center (-10,10),
chosen midpoint (-21/2,10)) the stored angle is atan2 5 205 for every
atan2 oracle, while the direction from the center to the midpoint is
atan2 0 (-1/2); the two argument pairs are not positively parallel
((205,5) and (-1/2,0) have non-zero cross product), so the two angles
differ for the true atan2. -/
theorem c8_angle_args_not_direction :
    (∀ trig : Trig,
      (process_queue trig srand0 (WorldBuilder.new 2 ⟨20, 20⟩)).possible_carvers =
        [(⟨-10, 10⟩, trig.atan2 5 205)]) ∧
    gridChosenMidpoint (gridCellTriangle 2 ⟨-10, 10⟩ false) 0 = ⟨-21/2, 10⟩ ∧
    crossz ⟨-10, 10⟩ ⟨-21/2, 10⟩ = 5 ∧
    dotv ⟨-10, 10⟩ ⟨-21/2, 10⟩ = 205 ∧
    ((⟨-21/2, 10⟩ : Vec2) - ⟨-10, 10⟩) = ⟨-1/2, 0⟩ ∧
    ¬(crossz ⟨205, 5⟩ ⟨-1/2, 0⟩ = 0 ∧ 0 < dotv ⟨205, 5⟩ ⟨-1/2, 0⟩) := by
  refine ⟨?_, ?_, ?_, ?_, ?_, ?_⟩
  · intro trig
    norm_num [process_queue, WorldBuilder.new, srand0, SQRT_3_OVER_2, Vec2.add_def,
      gridChosenMidpoint, gridCellTriangle, Polygon.new_triangle, Polygon.edges, edgesOf,
      midpointv, rotZero, rotApply, SQRT_3_OVER_4, crossz, dotv, Vec2.sub_def]
  · norm_num [gridChosenMidpoint, gridCellTriangle, Polygon.new_triangle, Polygon.edges,
      edgesOf, midpointv, rotZero, rotApply, SQRT_3_OVER_4, Vec2.add_def, Vec2.sub_def]
  · norm_num [crossz]
  · norm_num [dotv]
  · norm_num [Vec2.sub_def]
  · norm_num [crossz, dotv]

/-- A concrete carving state with one carver for the C9 scenario. -/
def c9B : WorldBuilder :=
  ⟨1, ⟨0, 0⟩, [], [], [], [(⟨0, 0⟩, 0)], BuildStage.carving, 0⟩

/-- C9: from any unfinished state, one call to generate with an
already-exceeded time budget (in particular a zero or negative budget)
still performs exactly one unit of work before returning: either the
iteration panics, or it produces a continuation state different from the
starting state and generate returns it immediately. -/
theorem c9_zero_budget_progress (trig : Trig) (r : StepRand) (rest : List StepRand)
    (budget : ℚ) (b : WorldBuilder)
    (hnf : (b.stage = BuildStage.generatingGrid ∧ b.queue ≠ []) ∨
      (b.stage = BuildStage.carving ∧ b.carvers ≠ []))
    (hb : budget < r.elapsed) :
    (genStep trig r b = GenEvent.panic ∧
      generate trig budget (r :: rest) b = GenResult.panicked) ∨
    (∃ b2, genStep trig r b = GenEvent.cont b2 ∧ b2 ≠ b ∧
      generate trig budget (r :: rest) b = GenResult.stillGenerating b2) := by
  have hgen : ∀ b2, genStep trig r b = GenEvent.cont b2 →
      generate trig budget (r :: rest) b = GenResult.stillGenerating b2 := by
    intro b2 hg
    simp only [generate]
    rw [hg]
    have h2 : (if r.elapsed > budget then GenResult.stillGenerating b2
        else generate trig budget rest b2) = GenResult.stillGenerating b2 := by
      rw [if_pos hb]
    exact h2
  obtain ⟨ts, dims, tiles, queue, pcs, cvs, stage, start⟩ := b
  rcases hnf with ⟨hst, hq⟩ | ⟨hst, hc⟩
  · simp only at hst hq
    subst hst
    have hlen := process_queue_tiles_len trig r
      ⟨ts, dims, tiles, queue, pcs, cvs, BuildStage.generatingGrid, start⟩ hq
    by_cases hq2 : (process_queue trig r ⟨ts, dims, tiles, queue, pcs, cvs,
        BuildStage.generatingGrid, start⟩).queue.isEmpty = true
    · cases hp : promote (r.shuffle (process_queue trig r ⟨ts, dims, tiles, queue, pcs, cvs,
          BuildStage.generatingGrid, start⟩).possible_carvers) with
      | none =>
        have hg : genStep trig r ⟨ts, dims, tiles, queue, pcs, cvs,
            BuildStage.generatingGrid, start⟩ = GenEvent.panic := by
          simp only [genStep]
          rw [if_pos hq2, hp]
        refine Or.inl ⟨hg, ?_⟩
        simp only [generate]
        rw [hg]
      | some first10 =>
        have hg : genStep trig r ⟨ts, dims, tiles, queue, pcs, cvs,
            BuildStage.generatingGrid, start⟩ = GenEvent.cont
            { process_queue trig r ⟨ts, dims, tiles, queue, pcs, cvs,
                BuildStage.generatingGrid, start⟩ with
              start_num_tiles := (process_queue trig r ⟨ts, dims, tiles, queue, pcs, cvs,
                BuildStage.generatingGrid, start⟩).generated_tiles.length
              possible_carvers := r.shuffle (process_queue trig r ⟨ts, dims, tiles, queue,
                pcs, cvs, BuildStage.generatingGrid, start⟩).possible_carvers
              carvers := first10
              stage := BuildStage.carving } := by
          simp only [genStep]
          rw [if_pos hq2, hp]
        refine Or.inr ⟨_, hg, ?_, hgen _ hg⟩
        intro heq
        have hstage := congrArg WorldBuilder.stage heq
        simp only at hstage
        exact absurd hstage (by simp)
    · have hg : genStep trig r ⟨ts, dims, tiles, queue, pcs, cvs,
          BuildStage.generatingGrid, start⟩ = GenEvent.cont
          (process_queue trig r ⟨ts, dims, tiles, queue, pcs, cvs,
            BuildStage.generatingGrid, start⟩) := by
        simp only [genStep]
        rw [if_neg hq2]
      refine Or.inr ⟨_, hg, ?_, hgen _ hg⟩
      intro heq
      have hlen2 := congrArg (fun w => w.generated_tiles.length) heq
      simp only at hlen2
      rw [hlen] at hlen2
      simp only at hlen2
      omega
  · simp only at hst hc
    subst hst
    cases cvs with
    | nil => exact absurd rfl hc
    | cons cd crest =>
      obtain ⟨carver, direction⟩ := cd
      by_cases hr : ratioGtHalf (afterCarve tiles carver).length start = true
      · have hg : genStep trig r ⟨ts, dims, tiles, queue, pcs,
            (carver, direction) :: crest, BuildStage.carving, start⟩ = GenEvent.cont
            ⟨ts, dims, afterCarve tiles carver, queue, pcs,
              crest ++ [(carver + ⟨trig.cos direction * ts, trig.sin direction * ts⟩,
                if r.coin then direction + FRAC_PI_3 else direction - FRAC_PI_3)],
              BuildStage.carving, start⟩ := by
          simp only [genStep]
          rw [if_pos hr]
        refine Or.inr ⟨_, hg, ?_, hgen _ hg⟩
        intro heq
        have hcv := congrArg WorldBuilder.carvers heq
        simp only at hcv
        by_cases hcoin : r.coin = true
        · rw [if_pos hcoin] at hcv
          have hcnt := congrArg (List.count
            ((carver + ⟨trig.cos direction * ts, trig.sin direction * ts⟩,
              direction + FRAC_PI_3))) hcv
          have heq2 : (carver, direction) =
              (carver + ⟨trig.cos direction * ts, trig.sin direction * ts⟩,
                direction + FRAC_PI_3) := by
            by_contra hne
            rw [List.count_append, List.count_cons_of_ne (fun h2 => hne h2.symm)] at hcnt
            rw [show List.count
              ((carver + ⟨trig.cos direction * ts, trig.sin direction * ts⟩,
                direction + FRAC_PI_3))
              [(carver + ⟨trig.cos direction * ts, trig.sin direction * ts⟩,
                direction + FRAC_PI_3)] = 1 from by simp] at hcnt
            omega
          have hd := congrArg Prod.snd heq2
          simp only at hd
          have hz : FRAC_PI_3 = 0 := by linarith
          norm_num [FRAC_PI_3] at hz
        · rw [if_neg hcoin] at hcv
          have hcnt := congrArg (List.count
            ((carver + ⟨trig.cos direction * ts, trig.sin direction * ts⟩,
              direction - FRAC_PI_3))) hcv
          have heq2 : (carver, direction) =
              (carver + ⟨trig.cos direction * ts, trig.sin direction * ts⟩,
                direction - FRAC_PI_3) := by
            by_contra hne
            rw [List.count_append, List.count_cons_of_ne (fun h2 => hne h2.symm)] at hcnt
            rw [show List.count
              ((carver + ⟨trig.cos direction * ts, trig.sin direction * ts⟩,
                direction - FRAC_PI_3))
              [(carver + ⟨trig.cos direction * ts, trig.sin direction * ts⟩,
                direction - FRAC_PI_3)] = 1 from by simp] at hcnt
            omega
          have hd := congrArg Prod.snd heq2
          simp only at hd
          have hz : FRAC_PI_3 = 0 := by linarith
          norm_num [FRAC_PI_3] at hz
      · have hg : genStep trig r ⟨ts, dims, tiles, queue, pcs,
            (carver, direction) :: crest, BuildStage.carving, start⟩ = GenEvent.cont
            ⟨ts, dims, afterCarve tiles carver, queue, pcs, crest,
              BuildStage.carving, start⟩ := by
          simp only [genStep]
          rw [if_neg hr]
        refine Or.inr ⟨_, hg, ?_, hgen _ hg⟩
        intro heq
        have hcv := congrArg WorldBuilder.carvers heq
        simp only at hcv
        have := congrArg List.length hcv
        simp only [List.length_cons] at this
        omega

/-- C9 witness: a concrete one-carver carving state, a zero budget and
an elapsed sample of 1: generate still performs the carver step and
returns a changed state. -/
theorem c9_zero_budget_progress_witness :
    (genStep trigId srand0 c9B = GenEvent.panic ∧
      generate trigId 0 [srand0] c9B = GenResult.panicked) ∨
    (∃ b2, genStep trigId srand0 c9B = GenEvent.cont b2 ∧ b2 ≠ c9B ∧
      generate trigId 0 [srand0] c9B = GenResult.stillGenerating b2) :=
  c9_zero_budget_progress trigId srand0 [] 0 c9B
    (Or.inr ⟨rfl, by simp [c9B]⟩) (by norm_num [srand0])

/-! ## Strict convexity and completeness of the tested separating axes -/

theorem Vec2.zero_smul_eq (v : Vec2) : (0 : ℚ) • v = 0 := by
  apply Vec2.ext_xy <;> simp [Vec2.smul_def, Vec2.zero_x, Vec2.zero_y]

theorem Vec2.zero_add_eq (v : Vec2) : (0 : Vec2) + v = v := by
  apply Vec2.ext_xy <;> simp [Vec2.add_def, Vec2.zero_x, Vec2.zero_y]

/-- Strict convexity, counter-clockwise winding: at least three pairwise
distinct vertices and every vertex that is not an endpoint of an edge
lies strictly to the left of that directed edge.  This is the formal
rendering of a non-degenerate convex polygon: positive area, no repeated
vertices, no three collinear vertices. -/
def strictly_convex_ccw (P : Polygon) : Prop :=
  3 ≤ P.vertices.length ∧ P.vertices.Pairwise (fun a b => a ≠ b) ∧
  ∀ e ∈ P.edges, ∀ v ∈ P.vertices, v ≠ e.1 → v ≠ e.2 →
    0 < crossz (e.2 - e.1) (v - e.1)

/-- Strict convexity, clockwise winding. -/
def strictly_convex_cw (P : Polygon) : Prop :=
  3 ≤ P.vertices.length ∧ P.vertices.Pairwise (fun a b => a ≠ b) ∧
  ∀ e ∈ P.edges, ∀ v ∈ P.vertices, v ≠ e.1 → v ≠ e.2 →
    crossz (e.2 - e.1) (v - e.1) < 0

theorem strict_ccw_weak {P : Polygon} (h : strictly_convex_ccw P) :
    ∀ e ∈ P.edges, ∀ v ∈ P.vertices, 0 ≤ crossz (e.2 - e.1) (v - e.1) := by
  intro e he v hv
  by_cases h1 : v = e.1
  · subst h1
    have hz : crossz (e.2 - e.1) (e.1 - e.1) = 0 := by
      simp only [crossz, Vec2.sub_def]; ring
    rw [hz]
  · by_cases h2 : v = e.2
    · subst h2
      have hz : crossz (e.2 - e.1) (e.2 - e.1) = 0 := by
        simp only [crossz, Vec2.sub_def]; ring
      rw [hz]
    · exact le_of_lt (h.2.2 e he v hv h1 h2)

theorem strict_cw_weak {P : Polygon} (h : strictly_convex_cw P) :
    ∀ e ∈ P.edges, ∀ v ∈ P.vertices, crossz (e.2 - e.1) (v - e.1) ≤ 0 := by
  intro e he v hv
  by_cases h1 : v = e.1
  · subst h1
    have hz : crossz (e.2 - e.1) (e.1 - e.1) = 0 := by
      simp only [crossz, Vec2.sub_def]; ring
    rw [hz]
  · by_cases h2 : v = e.2
    · subst h2
      have hz : crossz (e.2 - e.1) (e.2 - e.1) = 0 := by
        simp only [crossz, Vec2.sub_def]; ring
      rw [hz]
    · exact le_of_lt (h.2.2 e he v hv h1 h2)

/-- Barycentric coordinates: a point weakly inside the three edge
half-planes of a positively oriented triangle (p, a, b) is a convex
combination of its corners. -/
theorem triangle_weights {p a b x : Vec2}
    (hS : 0 < crossz (b - a) (p - a))
    (h1 : 0 ≤ crossz (a - p) (x - p))
    (h2 : 0 ≤ crossz (b - a) (x - a))
    (h3 : crossz (b - p) (x - p) ≤ 0) :
    ∃ w0 wa wb : ℚ, 0 ≤ w0 ∧ 0 ≤ wa ∧ 0 ≤ wb ∧ w0 + wa + wb = 1 ∧
      w0 • p + (wa • a + (wb • b + (0 : Vec2))) = x := by
  have hS0 : crossz (b - a) (p - a) ≠ 0 := ne_of_gt hS
  refine ⟨crossz (b - a) (x - a) / crossz (b - a) (p - a),
    (- crossz (b - p) (x - p)) / crossz (b - a) (p - a),
    crossz (a - p) (x - p) / crossz (b - a) (p - a),
    div_nonneg h2 hS.le, div_nonneg (neg_nonneg.mpr h3) hS.le, div_nonneg h1 hS.le, ?_, ?_⟩
  · field_simp
    simp only [crossz, Vec2.sub_def]
    ring
  · apply Vec2.ext_xy
    · simp only [Vec2.add_def, Vec2.smul_def, Vec2.zero_x, Vec2.zero_y]
      field_simp
      simp only [crossz, Vec2.sub_def]
      ring
    · simp only [Vec2.add_def, Vec2.smul_def, Vec2.zero_x, Vec2.zero_y]
      field_simp
      simp only [crossz, Vec2.sub_def]
      ring

theorem wsum_replicate_zero (k : ℕ) : ∀ vs : List Vec2, wsum (List.replicate k 0) vs = 0 := by
  induction k with
  | zero => intro vs; cases vs <;> rfl
  | succ n ih =>
    intro vs
    cases vs with
    | nil => rfl
    | cons v vs2 =>
      simp only [List.replicate_succ, wsum]
      rw [ih vs2, Vec2.zero_smul_eq, Vec2.zero_add_eq]

/-- The fan argument: walking the vertex chain from the first neighbour
of v0 to the last, the point x lies weakly left of the ray v0 → first
and weakly right of the ray v0 → last, so at some consecutive pair the
side changes and x lies in the triangle of v0 with that pair. -/
theorem chain_hull (v0 x : Vec2) :
    ∀ (t : List Vec2) (a : Vec2), t ≠ [] →
    (∀ pr ∈ List.zip (a :: t) t, 0 ≤ crossz (pr.2 - pr.1) (x - pr.1)) →
    (∀ pr ∈ List.zip (a :: t) t, 0 < crossz (pr.2 - pr.1) (v0 - pr.1)) →
    0 ≤ crossz (a - v0) (x - v0) →
    crossz ((a :: t).getLast (List.cons_ne_nil a t) - v0) (x - v0) ≤ 0 →
    ∃ ws : List ℚ, ws.length = t.length + 2 ∧ (∀ w ∈ ws, 0 ≤ w) ∧
      ws.sum = 1 ∧ wsum ws (v0 :: a :: t) = x := by
  intro t
  induction t with
  | nil => intro a hne; exact absurd rfl hne
  | cons b t2 ih =>
    intro a _ hmid hstrict hhead hlast
    have hW := triangle_weights (p := v0) (a := a) (b := b) (x := x)
    cases t2 with
    | nil =>
      have hS : 0 < crossz (b - a) (v0 - a) :=
        hstrict (a, b) (by simp [List.zip])
      have h2 : 0 ≤ crossz (b - a) (x - a) :=
        hmid (a, b) (by simp [List.zip])
      have h3 : crossz (b - v0) (x - v0) ≤ 0 := by
        simpa using hlast
      obtain ⟨w0, wa, wb, hw0, hwa, hwb, hsum, heq⟩ := hW hS hhead h2 h3
      refine ⟨[w0, wa, wb], by simp, ?_, by simp; linarith [hsum], ?_⟩
      · intro w hw
        simp only [List.mem_cons, List.not_mem_nil, or_false] at hw
        rcases hw with rfl | rfl | rfl <;> assumption
      · simpa [wsum] using heq
    | cons c t3 =>
      by_cases hDb : crossz (b - v0) (x - v0) ≤ 0
      · have hS : 0 < crossz (b - a) (v0 - a) :=
          hstrict (a, b) (by simp [List.zip])
        have h2 : 0 ≤ crossz (b - a) (x - a) :=
          hmid (a, b) (by simp [List.zip])
        obtain ⟨w0, wa, wb, hw0, hwa, hwb, hsum, heq⟩ := hW hS hhead h2 hDb
        refine ⟨[w0, wa, wb] ++ List.replicate (t3.length + 1) 0, ?_, ?_, ?_, ?_⟩
        · simp [List.length_append]
        · intro w hw
          rcases List.mem_append.mp hw with h | h
          · simp only [List.mem_cons, List.not_mem_nil, or_false] at h
            rcases h with rfl | rfl | rfl <;> assumption
          · rw [List.eq_of_mem_replicate h]
        · rw [List.sum_append]
          simp
          linarith [hsum]
        · show wsum ([w0, wa, wb] ++ List.replicate (t3.length + 1) 0)
            (v0 :: a :: b :: c :: t3) = x
          simp only [List.cons_append, List.nil_append, wsum]
          rw [wsum_replicate_zero, Vec2.zero_smul_eq, Vec2.zero_add_eq]
          exact heq
      · push_neg at hDb
        have hmid2 : ∀ pr ∈ List.zip (b :: c :: t3) (c :: t3),
            0 ≤ crossz (pr.2 - pr.1) (x - pr.1) := by
          intro pr hpr
          exact hmid pr (List.mem_cons_of_mem _ hpr)
        have hstrict2 : ∀ pr ∈ List.zip (b :: c :: t3) (c :: t3),
            0 < crossz (pr.2 - pr.1) (v0 - pr.1) := by
          intro pr hpr
          exact hstrict pr (List.mem_cons_of_mem _ hpr)
        have hlast2 : crossz ((b :: c :: t3).getLast (List.cons_ne_nil b (c :: t3)) - v0)
            (x - v0) ≤ 0 := by
          have : (a :: b :: c :: t3).getLast (List.cons_ne_nil a (b :: c :: t3)) =
              (b :: c :: t3).getLast (List.cons_ne_nil b (c :: t3)) := by
            exact List.getLast_cons (List.cons_ne_nil b (c :: t3))
          rw [this] at hlast
          exact hlast
        obtain ⟨ws2, hlen2, hnn2, hsum2, heq2⟩ :=
          ih b (List.cons_ne_nil c t3) hmid2 hstrict2 hDb.le hlast2
        cases ws2 with
        | nil => simp at hlen2
        | cons w0 ws3 =>
          refine ⟨w0 :: 0 :: ws3, ?_, ?_, ?_, ?_⟩
          · simp only [List.length_cons] at hlen2 ⊢
            omega
          · intro w hw
            simp only [List.mem_cons] at hw
            rcases hw with h | h | h
            · have hm : w ∈ w0 :: ws3 := by rw [h]; exact List.mem_cons_self _ _
              exact hnn2 w hm
            · exact le_of_eq h.symm
            · exact hnn2 w (List.mem_cons_of_mem _ h)
          · simp only [List.sum_cons] at hsum2 ⊢
            linarith [hsum2]
          · show wsum (w0 :: 0 :: ws3) (v0 :: a :: b :: c :: t3) = x
            simp only [wsum] at heq2 ⊢
            rw [Vec2.zero_smul_eq, Vec2.zero_add_eq]
            exact heq2

theorem zip_mem_append {α β : Type} (pr : α × β) :
    ∀ (l1 : List α) (l2 l3 : List β), pr ∈ List.zip l1 l2 → pr ∈ List.zip l1 (l2 ++ l3) := by
  intro l1
  induction l1 with
  | nil => intro l2 l3 h; simp [List.zip] at h
  | cons a t ih =>
    intro l2 l3 h
    cases l2 with
    | nil => simp [List.zip] at h
    | cons b t2 =>
      simp only [List.zip_cons_cons, List.cons_append, List.mem_cons] at h ⊢
      rcases h with h | h
      · exact Or.inl h
      · exact Or.inr (ih t2 l3 h)

theorem getLast_pair_mem_zip :
    ∀ (l : List Vec2) (h : l ≠ []) (w z : Vec2),
      (l.getLast h, z) ∈ List.zip (w :: l) (l ++ [z]) := by
  intro l
  induction l with
  | nil => intro h; exact absurd rfl h
  | cons u t ih =>
    intro _ w z
    cases t with
    | nil => simp [List.zip]
    | cons u2 t2 =>
      have hmem := ih (List.cons_ne_nil u2 t2) u z
      rw [List.getLast_cons (List.cons_ne_nil u2 t2)]
      rw [List.cons_append, List.zip_cons_cons]
      exact List.mem_cons_of_mem _ hmem

/-- The converse half of the H-representation: a point weakly inside
every edge half-plane of a strictly convex counter-clockwise polygon
lies in the convex hull of its vertices. -/
theorem hp_mem_hull_ccw {P : Polygon} (hP : strictly_convex_ccw P) {x : Vec2}
    (hx : ∀ e ∈ P.edges, 0 ≤ crossz (e.2 - e.1) (x - e.1)) : inHull P x := by
  obtain ⟨h3, hdist, hstrict⟩ := hP
  cases hv : P.vertices with
  | nil => rw [hv] at h3; simp at h3
  | cons v0 l =>
    cases l with
    | nil => rw [hv] at h3; simp at h3
    | cons a t =>
      cases t with
      | nil => rw [hv] at h3; simp at h3
      | cons b t3 =>
        have hedges : P.edges = List.zip (v0 :: a :: b :: t3) ((a :: b :: t3) ++ [v0]) := by
          unfold Polygon.edges
          rw [hv]
          rfl
        have hv0tail : ∀ u ∈ (a :: b :: t3), v0 ≠ u := by
          rw [hv] at hdist
          exact (List.pairwise_cons.mp hdist).1
        have hmid : ∀ pr ∈ List.zip (a :: b :: t3) (b :: t3),
            0 ≤ crossz (pr.2 - pr.1) (x - pr.1) := by
          intro pr hpr
          apply hx
          rw [hedges]
          exact List.mem_cons_of_mem _ (zip_mem_append pr _ _ [v0] hpr)
        have hstrict2 : ∀ pr ∈ List.zip (a :: b :: t3) (b :: t3),
            0 < crossz (pr.2 - pr.1) (v0 - pr.1) := by
          intro pr hpr
          have hprE : pr ∈ P.edges := by
            rw [hedges]
            exact List.mem_cons_of_mem _ (zip_mem_append pr _ _ [v0] hpr)
          obtain ⟨hp1, hp2⟩ := List.of_mem_zip (show (pr.1, pr.2) ∈ _ from hpr)
          have hv0mem : v0 ∈ P.vertices := by rw [hv]; exact List.mem_cons_self _ _
          exact hstrict pr hprE v0 hv0mem (hv0tail pr.1 hp1)
            (hv0tail pr.2 (List.mem_cons_of_mem _ hp2))
        have hhead : 0 ≤ crossz (a - v0) (x - v0) := by
          have he : ((v0, a) : Vec2 × Vec2) ∈ P.edges := by
            rw [hedges]
            simp [List.zip_cons_cons]
          exact hx (v0, a) he
        have hlast : crossz ((a :: b :: t3).getLast (List.cons_ne_nil a (b :: t3)) - v0)
            (x - v0) ≤ 0 := by
          set q := (a :: b :: t3).getLast (List.cons_ne_nil a (b :: t3)) with hq
          have he : ((q, v0) : Vec2 × Vec2) ∈ P.edges := by
            rw [hedges]
            exact getLast_pair_mem_zip (a :: b :: t3) (List.cons_ne_nil a (b :: t3)) v0 v0
          have hcons := hx (q, v0) he
          have hkey : crossz (v0 - q) (x - q) = - crossz (q - v0) (x - v0) := by
            simp only [crossz, Vec2.sub_def]
            ring
          simp only at hcons
          rw [hkey] at hcons
          linarith
        obtain ⟨ws, hlen, hnn, hsum, heq⟩ := chain_hull v0 x (b :: t3) a
          (List.cons_ne_nil b t3) hmid hstrict2 hhead hlast
        refine ⟨ws, ?_, hnn, hsum, ?_⟩
        · rw [hv]
          simp only [List.length_cons] at hlen ⊢
          omega
        · rw [hv]
          exact heq

/-- Reflection across the x-axis, used to transport the clockwise case
to the counter-clockwise one. -/
def yflipv (v : Vec2) : Vec2 := ⟨v.x, -v.y⟩

def Polygon.yflip (P : Polygon) : Polygon := ⟨P.id, P.vertices.map yflipv⟩

theorem yflipv_injective : Function.Injective yflipv := by
  intro a b h
  simp only [yflipv, Vec2.mk.injEq] at h
  apply Vec2.ext_xy
  · exact h.1
  · linarith [h.2]

theorem yflipv_sub (a b : Vec2) : yflipv a - yflipv b = yflipv (a - b) := by
  apply Vec2.ext_xy <;> simp [yflipv, Vec2.sub_def] <;> ring

theorem crossz_yflipv (a b : Vec2) : crossz (yflipv a) (yflipv b) = - crossz a b := by
  simp only [crossz, yflipv]
  ring

theorem edgesOf_yflipv (l : List Vec2) :
    edgesOf (l.map yflipv) = (edgesOf l).map (Prod.map yflipv yflipv) := by
  cases l with
  | nil => rfl
  | cons v rest =>
    show List.zip (yflipv v :: rest.map yflipv) (rest.map yflipv ++ [yflipv v]) = _
    rw [show rest.map yflipv ++ [yflipv v] = (rest ++ [v]).map yflipv by simp]
    rw [show yflipv v :: rest.map yflipv = (v :: rest).map yflipv from rfl]
    rw [List.zip_map]
    rfl

theorem yflip_edges (P : Polygon) :
    (P.yflip).edges = P.edges.map (Prod.map yflipv yflipv) := by
  unfold Polygon.edges
  show edgesOf (P.vertices.map yflipv) = _
  exact edgesOf_yflipv P.vertices

theorem yflip_vertices (P : Polygon) : (P.yflip).vertices = P.vertices.map yflipv := rfl

theorem wsum_map_yflipv : ∀ (ws : List ℚ) (vs : List Vec2),
    wsum ws (vs.map yflipv) = yflipv (wsum ws vs) := by
  intro ws
  induction ws with
  | nil =>
    intro vs
    cases vs with
    | nil => apply Vec2.ext_xy <;> simp [wsum, yflipv, Vec2.zero_x, Vec2.zero_y]
    | cons v vs2 => apply Vec2.ext_xy <;> simp [wsum, yflipv, Vec2.zero_x, Vec2.zero_y]
  | cons w ws2 ih =>
    intro vs
    cases vs with
    | nil => apply Vec2.ext_xy <;> simp [wsum, yflipv, Vec2.zero_x, Vec2.zero_y]
    | cons v vs2 =>
      simp only [List.map_cons, wsum, ih vs2]
      apply Vec2.ext_xy <;> simp [yflipv, Vec2.add_def, Vec2.smul_def] <;> ring

theorem inHull_yflip {P : Polygon} {x : Vec2} (h : inHull P.yflip (yflipv x)) : inHull P x := by
  obtain ⟨ws, hlen, hnn, hsum, heq⟩ := h
  rw [yflip_vertices] at hlen heq
  refine ⟨ws, ?_, hnn, hsum, ?_⟩
  · simpa using hlen
  · apply yflipv_injective
    rw [← wsum_map_yflipv]
    exact heq

theorem strictly_convex_cw_yflip {P : Polygon} (h : strictly_convex_cw P) :
    strictly_convex_ccw P.yflip := by
  obtain ⟨h3, hdist, hstrict⟩ := h
  refine ⟨by rw [yflip_vertices]; simpa using h3, ?_, ?_⟩
  · rw [yflip_vertices, List.pairwise_map]
    exact hdist.imp (fun hne h2 => hne (yflipv_injective h2))
  · intro e' he' v' hv'
    rw [yflip_edges] at he'
    obtain ⟨e, he, rfl⟩ := List.mem_map.mp he'
    rw [yflip_vertices] at hv'
    obtain ⟨v, hv, rfl⟩ := List.mem_map.mp hv'
    intro hne1 hne2
    have h1 : v ≠ e.1 := fun h => hne1 (by rw [h]; rfl)
    have h2 : v ≠ e.2 := fun h => hne2 (by rw [h]; rfl)
    have hlt := hstrict e he v hv h1 h2
    show 0 < crossz ((Prod.map yflipv yflipv e).2 - (Prod.map yflipv yflipv e).1)
      (yflipv v - (Prod.map yflipv yflipv e).1)
    have hm1 : (Prod.map yflipv yflipv e).1 = yflipv e.1 := rfl
    have hm2 : (Prod.map yflipv yflipv e).2 = yflipv e.2 := rfl
    rw [hm1, hm2, yflipv_sub, yflipv_sub, crossz_yflipv]
    linarith

/-- The clockwise companion of hp_mem_hull_ccw. -/
theorem hp_mem_hull_cw {P : Polygon} (hP : strictly_convex_cw P) {x : Vec2}
    (hx : ∀ e ∈ P.edges, crossz (e.2 - e.1) (x - e.1) ≤ 0) : inHull P x := by
  apply inHull_yflip
  apply hp_mem_hull_ccw (strictly_convex_cw_yflip hP)
  intro e' he'
  rw [yflip_edges] at he'
  obtain ⟨e, he, rfl⟩ := List.mem_map.mp he'
  have hle := hx e he
  have hm1 : (Prod.map yflipv yflipv e).1 = yflipv e.1 := rfl
  have hm2 : (Prod.map yflipv yflipv e).2 = yflipv e.2 := rfl
  rw [hm1, hm2, yflipv_sub, yflipv_sub, crossz_yflipv]
  linarith

theorem fold_minmax_attained (ax : Vec2) :
    ∀ (rest : List Vec2) (p : ℚ × ℚ),
      ((rest.foldl (fun mm u => (min mm.1 (dotv u ax), max mm.2 (dotv u ax))) p).1 = p.1 ∨
        ∃ v ∈ rest,
          (rest.foldl (fun mm u => (min mm.1 (dotv u ax), max mm.2 (dotv u ax))) p).1 =
            dotv v ax) ∧
      ((rest.foldl (fun mm u => (min mm.1 (dotv u ax), max mm.2 (dotv u ax))) p).2 = p.2 ∨
        ∃ v ∈ rest,
          (rest.foldl (fun mm u => (min mm.1 (dotv u ax), max mm.2 (dotv u ax))) p).2 =
            dotv v ax) := by
  intro rest
  induction rest with
  | nil => intro p; exact ⟨Or.inl rfl, Or.inl rfl⟩
  | cons u us ih =>
    intro p
    obtain ⟨ih1, ih2⟩ := ih (min p.1 (dotv u ax), max p.2 (dotv u ax))
    constructor
    · rcases ih1 with h | ⟨v, hv, hve⟩
      · simp only [List.foldl_cons] at h ⊢
        rw [h]
        rcases le_total p.1 (dotv u ax) with hle | hle
        · exact Or.inl (min_eq_left hle)
        · exact Or.inr ⟨u, List.mem_cons_self _ _, min_eq_right hle⟩
      · exact Or.inr ⟨v, List.mem_cons_of_mem _ hv, by simpa using hve⟩
    · rcases ih2 with h | ⟨v, hv, hve⟩
      · simp only [List.foldl_cons] at h ⊢
        rw [h]
        rcases le_total p.2 (dotv u ax) with hle | hle
        · exact Or.inr ⟨u, List.mem_cons_self _ _, max_eq_right hle⟩
        · exact Or.inl (max_eq_left hle)
      · exact Or.inr ⟨v, List.mem_cons_of_mem _ hv, by simpa using hve⟩

/-- The projection interval bounds are attained at vertices. -/
theorem project_attained {vs : List Vec2} {ax : Vec2} {mm : ℚ × ℚ}
    (h : project vs ax = some mm) :
    (∃ v ∈ vs, dotv v ax = mm.1) ∧ (∃ v ∈ vs, dotv v ax = mm.2) := by
  cases vs with
  | nil => simp [project] at h
  | cons v rest =>
    simp only [project, Option.some.injEq] at h
    obtain ⟨h1, h2⟩ := fold_minmax_attained ax rest (dotv v ax, dotv v ax)
    constructor
    · rcases h1 with he | ⟨u, hu, hue⟩
      · exact ⟨v, List.mem_cons_self _ _, by rw [← h]; exact he.symm⟩
      · exact ⟨u, List.mem_cons_of_mem _ hu, by rw [← h]; exact hue.symm⟩
    · rcases h2 with he | ⟨u, hu, hue⟩
      · exact ⟨v, List.mem_cons_self _ _, by rw [← h]; exact he.symm⟩
      · exact ⟨u, List.mem_cons_of_mem _ hu, by rw [← h]; exact hue.symm⟩

/-- If every vertex projection of A is strictly below every vertex
projection of B on an axis, that axis separates and the interval test
fails. -/
theorem overlap_on_none_A_lt {A B : Polygon} {ax : Vec2}
    (hA0 : A.vertices ≠ []) (hB0 : B.vertices ≠ [])
    (h : ∀ v ∈ A.vertices, ∀ w ∈ B.vertices, dotv v ax < dotv w ax) :
    overlap_on A B ax = none := by
  obtain ⟨mmA, hmA⟩ := project_isSome hA0 ax
  obtain ⟨mmB, hmB⟩ := project_isSome hB0 ax
  obtain ⟨vA, hvA, heA⟩ := (project_attained hmA).2
  obtain ⟨wB, hwB, heB⟩ := (project_attained hmB).1
  simp only [overlap_on, hmA, hmB]
  rw [if_neg]
  rintro ⟨-, h2⟩
  have hlt := h vA hvA wB hwB
  rw [heA, heB] at hlt
  exact absurd h2 (not_le.mpr hlt)

theorem overlap_on_none_B_lt {A B : Polygon} {ax : Vec2}
    (hA0 : A.vertices ≠ []) (hB0 : B.vertices ≠ [])
    (h : ∀ w ∈ B.vertices, ∀ v ∈ A.vertices, dotv w ax < dotv v ax) :
    overlap_on A B ax = none := by
  obtain ⟨mmA, hmA⟩ := project_isSome hA0 ax
  obtain ⟨mmB, hmB⟩ := project_isSome hB0 ax
  obtain ⟨vA, hvA, heA⟩ := (project_attained hmA).1
  obtain ⟨wB, hwB, heB⟩ := (project_attained hmB).2
  simp only [overlap_on, hmA, hmB]
  rw [if_neg]
  rintro ⟨h1, -⟩
  have hlt := h wB hwB vA hvA
  rw [heA, heB] at hlt
  exact absurd h1 (not_le.mpr hlt)

theorem dotv_perp_eq_crossz (d v : Vec2) : dotv v (perp d) = crossz d v := by
  simp only [dotv, perp, crossz]
  ring

/-! ### The half-plane system of the two polygons and Helly's theorem -/

def toV (p : ℚ × ℚ) : Vec2 := ⟨p.1, p.2⟩

def toP (v : Vec2) : ℚ × ℚ := (v.x, v.y)

theorem toV_toP (v : Vec2) : toV (toP v) = v := rfl

/-- The closed half-plane of one edge constraint, as a subset of the
plane ℚ × ℚ; σ is the winding sign of the owning polygon. -/
def edgeHalfPlane (σ : ℚ) (e : Vec2 × Vec2) : Set (ℚ × ℚ) :=
  {p : ℚ × ℚ | 0 ≤ σ * crossz (e.2 - e.1) (toV p - e.1)}

theorem convex_edgeHalfPlane (σ : ℚ) (e : Vec2 × Vec2) : Convex ℚ (edgeHalfPlane σ e) := by
  intro p hp q hq a b ha hb hab
  simp only [edgeHalfPlane, Set.mem_setOf_eq] at hp hq ⊢
  have hv : toV (a • p + b • q) - e.1 = a • (toV p - e.1) + b • (toV q - e.1) := by
    apply Vec2.ext_xy
    · simp only [toV, Vec2.sub_def, Vec2.add_def, Vec2.smul_def, Prod.fst_add,
        Prod.smul_fst, smul_eq_mul]
      linear_combination e.1.x * hab
    · simp only [toV, Vec2.sub_def, Vec2.add_def, Vec2.smul_def, Prod.snd_add,
        Prod.smul_snd, smul_eq_mul]
      linear_combination e.1.y * hab
  rw [hv, crossz_add2, crossz_smul2, crossz_smul2]
  nlinarith [mul_nonneg ha hp, mul_nonneg hb hq]

/-- Completeness of the tested axes: two strictly convex polygons (in
the σ-signed half-plane sense, with the hulls recovered from the
half-planes) whose hulls are disjoint always admit a tested
edge-perpendicular separating axis.  Proved with Helly's theorem: the
combined edge half-plane system is infeasible, some at most three
half-planes are already infeasible, at least two of them belong to one
polygon, and the remaining one is an edge of the other polygon whose
half-plane the first polygon's hull avoids entirely. -/
theorem exists_separating_axis (A B : Polygon) (σA σB : ℚ)
    (hσA : σA = 1 ∨ σA = -1) (hσB : σB = 1 ∨ σB = -1)
    (hAw : ∀ e ∈ A.edges, ∀ v ∈ A.vertices, 0 ≤ σA * crossz (e.2 - e.1) (v - e.1))
    (hBw : ∀ e ∈ B.edges, ∀ w ∈ B.vertices, 0 ≤ σB * crossz (e.2 - e.1) (w - e.1))
    (hAhull : ∀ x : Vec2, (∀ e ∈ A.edges, 0 ≤ σA * crossz (e.2 - e.1) (x - e.1)) → inHull A x)
    (hBhull : ∀ x : Vec2, (∀ e ∈ B.edges, 0 ≤ σB * crossz (e.2 - e.1) (x - e.1)) → inHull B x)
    (hA0 : A.vertices ≠ []) (hB0 : B.vertices ≠ [])
    (hdisj : ¬ hulls_overlap A B) :
    ∃ ax ∈ sat_axes A ++ sat_axes B, overlap_on A B ax = none := by
  classical
  set F : (Vec2 × Vec2) ⊕ (Vec2 × Vec2) → Set (ℚ × ℚ) :=
    Sum.elim (fun e => edgeHalfPlane σA e) (fun e => edgeHalfPlane σB e) with hF
  set s : Finset ((Vec2 × Vec2) ⊕ (Vec2 × Vec2)) :=
    A.edges.toFinset.image Sum.inl ∪ B.edges.toFinset.image Sum.inr with hs
  have hAmem : ∀ e ∈ A.edges, Sum.inl e ∈ s := by
    intro e he
    apply Finset.mem_union_left
    exact Finset.mem_image.mpr ⟨e, List.mem_toFinset.mpr he, rfl⟩
  have hBmem : ∀ e ∈ B.edges, Sum.inr e ∈ s := by
    intro e he
    apply Finset.mem_union_right
    exact Finset.mem_image.mpr ⟨e, List.mem_toFinset.mpr he, rfl⟩
  have hmem_s : ∀ i, i ∈ s →
      (∃ e ∈ A.edges, i = Sum.inl e) ∨ (∃ e ∈ B.edges, i = Sum.inr e) := by
    intro i hi
    rcases Finset.mem_union.mp hi with h | h
    · obtain ⟨e, he, heq⟩ := Finset.mem_image.mp h
      exact Or.inl ⟨e, List.mem_toFinset.mp he, heq.symm⟩
    · obtain ⟨e, he, heq⟩ := Finset.mem_image.mp h
      exact Or.inr ⟨e, List.mem_toFinset.mp he, heq.symm⟩
  have hAvert : ∀ v ∈ A.vertices, ∀ e ∈ A.edges, toP v ∈ edgeHalfPlane σA e := by
    intro v hv e he
    simp only [edgeHalfPlane, Set.mem_setOf_eq, toV_toP]
    exact hAw e he v hv
  have hBvert : ∀ w ∈ B.vertices, ∀ e ∈ B.edges, toP w ∈ edgeHalfPlane σB e := by
    intro w hw e he
    simp only [edgeHalfPlane, Set.mem_setOf_eq, toV_toP]
    exact hBw e he w hw
  have hempty : ¬ (⋂ i ∈ s, F i).Nonempty := by
    rintro ⟨p, hp⟩
    simp only [Set.mem_iInter] at hp
    apply hdisj
    refine ⟨toV p, hAhull (toV p) ?_, hBhull (toV p) ?_⟩
    · intro e he
      have hpF := hp (Sum.inl e) (hAmem e he)
      simpa [hF, edgeHalfPlane] using hpF
    · intro e he
      have hpF := hp (Sum.inr e) (hBmem e he)
      simpa [hF, edgeHalfPlane] using hpF
  have hcvx : ∀ i ∈ s, Convex ℚ (F i) := by
    intro i _
    cases i with
    | inl e => exact convex_edgeHalfPlane σA e
    | inr e => exact convex_edgeHalfPlane σB e
  have hfr : Module.finrank ℚ (ℚ × ℚ) = 2 := by simp
  have hnot : ¬ ∀ I ⊆ s, I.card ≤ Module.finrank ℚ (ℚ × ℚ) + 1 →
      (⋂ i ∈ I, F i).Nonempty := by
    intro hall
    exact hempty (Convex.helly_theorem' hcvx hall)
  push_neg at hnot
  obtain ⟨I, hIs, hIcard, hIempty⟩ := hnot
  rw [Set.eq_empty_iff_forall_not_mem] at hIempty
  rw [hfr] at hIcard
  set IA := I.filter (fun i => i.isLeft = true) with hIA
  set IB := I.filter (fun i => ¬ i.isLeft = true) with hIB
  have hIAB : ∀ i ∈ I, i ∈ IA ∨ i ∈ IB := by
    intro i hi
    by_cases h : i.isLeft = true
    · exact Or.inl (Finset.mem_filter.mpr ⟨hi, h⟩)
    · exact Or.inr (Finset.mem_filter.mpr ⟨hi, h⟩)
  have hcard_split : IA.card + IB.card = I.card :=
    Finset.filter_card_add_filter_neg_card_eq_card _
  have hIAmem : ∀ i ∈ IA, ∃ e ∈ A.edges, i = Sum.inl e := by
    intro i hi
    obtain ⟨hiI, hileft⟩ := Finset.mem_filter.mp hi
    rcases hmem_s i (hIs hiI) with h | ⟨e, _, heq⟩
    · exact h
    · rw [heq] at hileft; simp at hileft
  have hIBmem : ∀ i ∈ IB, ∃ e ∈ B.edges, i = Sum.inr e := by
    intro i hi
    obtain ⟨hiI, hiright⟩ := Finset.mem_filter.mp hi
    rcases hmem_s i (hIs hiI) with ⟨e, _, heq⟩ | h
    · rw [heq] at hiright; simp at hiright
    · exact h
  obtain ⟨a0, ha0⟩ : ∃ a0, a0 ∈ A.vertices := by
    cases hAv : A.vertices with
    | nil => exact absurd hAv hA0
    | cons v r => exact ⟨v, List.mem_cons_self _ _⟩
  obtain ⟨b0, hb0⟩ : ∃ b0, b0 ∈ B.vertices := by
    cases hBv : B.vertices with
    | nil => exact absurd hBv hB0
    | cons v r => exact ⟨v, List.mem_cons_self _ _⟩
  by_cases hIAe : IA = ∅
  · exfalso
    apply hIempty (toP b0)
    simp only [Set.mem_iInter]
    intro i hi
    rcases hIAB i hi with hiA | hiB
    · rw [hIAe] at hiA; simp at hiA
    · obtain ⟨e, he, rfl⟩ := hIBmem i hiB
      simpa [hF] using hBvert b0 hb0 e he
  by_cases hIBe : IB = ∅
  · exfalso
    apply hIempty (toP a0)
    simp only [Set.mem_iInter]
    intro i hi
    rcases hIAB i hi with hiA | hiB
    · obtain ⟨e, he, rfl⟩ := hIAmem i hiA
      simpa [hF] using hAvert a0 ha0 e he
    · rw [hIBe] at hiB; simp at hiB
  have hIA1 : 1 ≤ IA.card :=
    Finset.card_pos.mpr (Finset.nonempty_iff_ne_empty.mpr hIAe)
  have hIB1 : 1 ≤ IB.card :=
    Finset.card_pos.mpr (Finset.nonempty_iff_ne_empty.mpr hIBe)
  have hone : IA.card = 1 ∨ IB.card = 1 := by omega
  rcases hone with h1 | h1
  · obtain ⟨ia, hia⟩ := Finset.card_eq_one.mp h1
    obtain ⟨e, he, hiae⟩ := hIAmem ia (by rw [hia]; exact Finset.mem_singleton_self ia)
    have hviol : ∀ w ∈ B.vertices, σA * crossz (e.2 - e.1) (w - e.1) < 0 := by
      intro w hw
      by_contra hge
      push_neg at hge
      apply hIempty (toP w)
      simp only [Set.mem_iInter]
      intro i hi
      rcases hIAB i hi with hiA | hiB
      · rw [hia, Finset.mem_singleton] at hiA
        subst hiA
        rw [hiae]
        show toP w ∈ F (Sum.inl e)
        simp only [hF, Sum.elim_inl, edgeHalfPlane, Set.mem_setOf_eq, toV_toP]
        exact hge
      · obtain ⟨e2, he2, rfl⟩ := hIBmem i hiB
        simpa [hF] using hBvert w hw e2 he2
    refine ⟨perp (e.2 - e.1), List.mem_append.mpr (Or.inl ?_), ?_⟩
    · exact List.mem_map.mpr ⟨e, he, rfl⟩
    · rcases hσA with rfl | rfl
      · apply overlap_on_none_B_lt hA0 hB0
        intro w hw v hv
        have hv1 := hAw e he v hv
        have hv2 := hviol w hw
        rw [one_mul] at hv1 hv2
        rw [dotv_perp_eq_crossz, dotv_perp_eq_crossz]
        have e1 := crossz_sub2 (e.2 - e.1) v e.1
        have e2 := crossz_sub2 (e.2 - e.1) w e.1
        linarith
      · apply overlap_on_none_A_lt hA0 hB0
        intro v hv w hw
        have hv1 := hAw e he v hv
        have hv2 := hviol w hw
        rw [neg_one_mul] at hv1 hv2
        rw [dotv_perp_eq_crossz, dotv_perp_eq_crossz]
        have e1 := crossz_sub2 (e.2 - e.1) v e.1
        have e2 := crossz_sub2 (e.2 - e.1) w e.1
        linarith
  · obtain ⟨ib, hib⟩ := Finset.card_eq_one.mp h1
    obtain ⟨e, he, hibe⟩ := hIBmem ib (by rw [hib]; exact Finset.mem_singleton_self ib)
    have hviol : ∀ v ∈ A.vertices, σB * crossz (e.2 - e.1) (v - e.1) < 0 := by
      intro v hv
      by_contra hge
      push_neg at hge
      apply hIempty (toP v)
      simp only [Set.mem_iInter]
      intro i hi
      rcases hIAB i hi with hiA | hiB
      · obtain ⟨e2, he2, rfl⟩ := hIAmem i hiA
        simpa [hF] using hAvert v hv e2 he2
      · rw [hib, Finset.mem_singleton] at hiB
        subst hiB
        rw [hibe]
        show toP v ∈ F (Sum.inr e)
        simp only [hF, Sum.elim_inr, edgeHalfPlane, Set.mem_setOf_eq, toV_toP]
        exact hge
    refine ⟨perp (e.2 - e.1), List.mem_append.mpr (Or.inr ?_), ?_⟩
    · exact List.mem_map.mpr ⟨e, he, rfl⟩
    · rcases hσB with rfl | rfl
      · apply overlap_on_none_A_lt hA0 hB0
        intro v hv w hw
        have hv1 := hBw e he w hw
        have hv2 := hviol v hv
        rw [one_mul] at hv1 hv2
        rw [dotv_perp_eq_crossz, dotv_perp_eq_crossz]
        have e1 := crossz_sub2 (e.2 - e.1) v e.1
        have e2 := crossz_sub2 (e.2 - e.1) w e.1
        linarith
      · apply overlap_on_none_B_lt hA0 hB0
        intro w hw v hv
        have hv1 := hBw e he w hw
        have hv2 := hviol v hv
        rw [neg_one_mul] at hv1 hv2
        rw [dotv_perp_eq_crossz, dotv_perp_eq_crossz]
        have e1 := crossz_sub2 (e.2 - e.1) v e.1
        have e2 := crossz_sub2 (e.2 - e.1) w e.1
        linarith

theorem sigma_ccw_weak {P : Polygon} (h : strictly_convex_ccw P) :
    ∀ e ∈ P.edges, ∀ v ∈ P.vertices, 0 ≤ (1 : ℚ) * crossz (e.2 - e.1) (v - e.1) := by
  intro e he v hv
  rw [one_mul]
  exact strict_ccw_weak h e he v hv

theorem sigma_ccw_hull {P : Polygon} (h : strictly_convex_ccw P) :
    ∀ x : Vec2, (∀ e ∈ P.edges, 0 ≤ (1 : ℚ) * crossz (e.2 - e.1) (x - e.1)) → inHull P x := by
  intro x hx
  apply hp_mem_hull_ccw h
  intro e he
  have := hx e he
  linarith

theorem sigma_cw_weak {P : Polygon} (h : strictly_convex_cw P) :
    ∀ e ∈ P.edges, ∀ v ∈ P.vertices, 0 ≤ (-1 : ℚ) * crossz (e.2 - e.1) (v - e.1) := by
  intro e he v hv
  have := strict_cw_weak h e he v hv
  linarith

theorem sigma_cw_hull {P : Polygon} (h : strictly_convex_cw P) :
    ∀ x : Vec2, (∀ e ∈ P.edges, 0 ≤ (-1 : ℚ) * crossz (e.2 - e.1) (x - e.1)) → inHull P x := by
  intro x hx
  apply hp_mem_hull_cw h
  intro e he
  have := hx e he
  linarith

theorem strictly_convex_vertices_ne_nil {P : Polygon}
    (h : strictly_convex_ccw P ∨ strictly_convex_cw P) : P.vertices ≠ [] := by
  intro hnil
  rcases h with h | h
  all_goals { have h3 := h.1; rw [hnil] at h3; simp at h3 }

/-- C7 as amended: for every two disjoint non-degenerate convex
polygons (pairwise distinct vertices, every vertex strictly on the
winding side of every non-incident edge, either winding for each), some
tested edge-perpendicular axis separates the vertex projections,
collision_displacement returns nothing (an absent Option value, never an
error) and collides_with answers false; and for every pair of polygons,
collides_with answers exactly whether collision_displacement returns a
value. -/
theorem c7_disjoint_returns_none (A B : Polygon)
    (hA : strictly_convex_ccw A ∨ strictly_convex_cw A)
    (hB : strictly_convex_ccw B ∨ strictly_convex_cw B)
    (hdisj : ¬ hulls_overlap A B) :
    (∃ ax ∈ sat_axes A ++ sat_axes B, overlap_on A B ax = none) ∧
    A.collision_displacement B = none ∧
    A.collides_with B = false ∧
    (∀ C D : Polygon, C.collides_with D = (C.collision_displacement D).isSome) := by
  have hA0 := strictly_convex_vertices_ne_nil hA
  have hB0 := strictly_convex_vertices_ne_nil hB
  have hsep : ∃ ax ∈ sat_axes A ++ sat_axes B, overlap_on A B ax = none := by
    rcases hA with hAc | hAc <;> rcases hB with hBc | hBc
    · exact exists_separating_axis A B 1 1 (Or.inl rfl) (Or.inl rfl)
        (sigma_ccw_weak hAc) (sigma_ccw_weak hBc)
        (sigma_ccw_hull hAc) (sigma_ccw_hull hBc) hA0 hB0 hdisj
    · exact exists_separating_axis A B 1 (-1) (Or.inl rfl) (Or.inr rfl)
        (sigma_ccw_weak hAc) (sigma_cw_weak hBc)
        (sigma_ccw_hull hAc) (sigma_cw_hull hBc) hA0 hB0 hdisj
    · exact exists_separating_axis A B (-1) 1 (Or.inr rfl) (Or.inl rfl)
        (sigma_cw_weak hAc) (sigma_ccw_weak hBc)
        (sigma_cw_hull hAc) (sigma_ccw_hull hBc) hA0 hB0 hdisj
    · exact exists_separating_axis A B (-1) (-1) (Or.inr rfl) (Or.inr rfl)
        (sigma_cw_weak hAc) (sigma_cw_weak hBc)
        (sigma_cw_hull hAc) (sigma_cw_hull hBc) hA0 hB0 hdisj
  have hdisp : A.collision_displacement B = none := by
    unfold Polygon.collision_displacement
    rw [sat_go_none_of_separated A B _ none hsep]
    rfl
  refine ⟨hsep, hdisp, ?_, fun C D => rfl⟩
  unfold Polygon.collides_with
  rw [hdisp]
  rfl

/-- C7 witness: two far-apart unit right triangles, both strictly
convex counter-clockwise, with provably disjoint hulls: a separating
tested axis exists, the displacement is absent and collides_with is
false. -/
theorem c7_disjoint_returns_none_witness :
    (∃ ax ∈ sat_axes (Polygon.mk 1 [⟨0,0⟩, ⟨1,0⟩, ⟨0,1⟩]) ++
        sat_axes (Polygon.mk 2 [⟨10,10⟩, ⟨11,10⟩, ⟨10,11⟩]),
      overlap_on (Polygon.mk 1 [⟨0,0⟩, ⟨1,0⟩, ⟨0,1⟩])
        (Polygon.mk 2 [⟨10,10⟩, ⟨11,10⟩, ⟨10,11⟩]) ax = none) ∧
    (Polygon.mk 1 [⟨0,0⟩, ⟨1,0⟩, ⟨0,1⟩]).collision_displacement
      (Polygon.mk 2 [⟨10,10⟩, ⟨11,10⟩, ⟨10,11⟩]) = none ∧
    (Polygon.mk 1 [⟨0,0⟩, ⟨1,0⟩, ⟨0,1⟩]).collides_with
      (Polygon.mk 2 [⟨10,10⟩, ⟨11,10⟩, ⟨10,11⟩]) = false ∧
    (∀ C D : Polygon, C.collides_with D = (C.collision_displacement D).isSome) := by
  apply c7_disjoint_returns_none
  · apply Or.inl
    refine ⟨by norm_num, ?_, ?_⟩
    · norm_num [List.pairwise_cons, Vec2.mk.injEq]
    · norm_num [Polygon.edges, edgesOf, List.forall_mem_cons, crossz, Vec2.sub_def,
        Vec2.mk.injEq]
  · apply Or.inl
    refine ⟨by norm_num, ?_, ?_⟩
    · norm_num [List.pairwise_cons, Vec2.mk.injEq]
    · norm_num [Polygon.edges, edgesOf, List.forall_mem_cons, crossz, Vec2.sub_def,
        Vec2.mk.injEq]
  · rintro ⟨p, hpA, hpB⟩
    have hmA : project [(⟨0,0⟩ : Vec2), ⟨1,0⟩, ⟨0,1⟩] ⟨1, 1⟩ = some (0, 1) := by
      norm_num [project, dotv]
    have hmB : project [(⟨10,10⟩ : Vec2), ⟨11,10⟩, ⟨10,11⟩] ⟨1, 1⟩ = some (20, 21) := by
      norm_num [project, dotv]
    have hbA := inHull_project_bounds hpA hmA
    have hbB := inHull_project_bounds hpB hmB
    simp only at hbA hbB
    linarith [hbA.2, hbB.1]
